import Mathlib

/-!
# docker-file-log-driver: frame decoder, stream consumer and stream registry

A shallow embedding of `reader.go` (the length-prefixed frame decoder) and of
`driver.go` (the consumer loop and the registry of active streams), followed by
theorems about them.

Conventions of the embedding

* A byte is a `Nat` (below 256 on every concrete input); a Go `[]byte` is a
  `List Nat`; a Go `string` is a `String`; Go `int` is taken to be 64 bits wide,
  so the conversion of a `uint32` header never wraps.
* An `io.Reader` is a `Stream`: the list of the outcomes of its future `Read`
  calls. `Chunk.data bs` is data the reader delivers (a `Read` with a smaller
  destination takes a prefix and leaves the rest), `Chunk.fail e` is a `Read`
  that returns no byte and the error `e` (`IOErr.EOF` is an end-of-stream that
  may be temporary), and the exhausted list is the clean, lasting end-of-stream.
* `time.Unix(0, n)` is represented by `n`, the nanoseconds since the epoch.
* `LogEntry.Unmarshal` belongs to the generated protobuf code, which is not part
  of the repository: the functions take it as the parameter `unm`, where
  `unm p bs` merges the bytes `bs` into the record `p` (`none` on a
  deserialization error). `Proto.Unmarshal` is a model of that generated code,
  used for concrete inputs.
-/

namespace FileLogDriver

/-! ## Constants of `reader.go` -/

/-- Source: `maxMsgLen int = 1e6`. -/
def maxMsgLen : Nat := 1000000

/-- Source: `encodeBinaryLen = 4`. -/
def encodeBinaryLen : Nat := 4

/-- Source: `initialBufSize = 2048`. -/
def initialBufSize : Nat := 2048

/-- Source: `maxDecodeRetry = 20000`. -/
def maxDecodeRetry : Nat := 20000

/-! ## Readers -/

/-- Error values of package `io` that the code distinguishes, and any other error. -/
inductive IOErr where
  | EOF
  | ErrUnexpectedEOF
  | ErrShortBuffer
  | other (code : Nat)
  deriving DecidableEq, Repr

/-- Outcome of one future `Read` call of a reader. -/
inductive Chunk where
  | data (bs : List Nat)
  | fail (e : IOErr)
  deriving DecidableEq, Repr

/-- A reader, as the list of what its `Read` calls will deliver. -/
abbrev Stream := List Chunk

/-- All bytes a stream still delivers, whatever the reads they arrive in. -/
def streamBytes : Stream → List Nat
  | [] => []
  | Chunk.data bs :: rest => bs ++ streamBytes rest
  | Chunk.fail _ :: rest => streamBytes rest

/-- The loop of `io.ReadAtLeast`: `for n < min && err == nil { nn, err = r.Read(buf[n:]); n += nn }`.
`need` is `min - n`, `acc` the `n` bytes read so far. -/
def readLoop : Stream → Nat → List Nat → List Nat × Option IOErr × Stream
  | s, 0, acc => (acc, none, s)
  | [], _ + 1, acc => (acc, some IOErr.EOF, [])
  | Chunk.fail e :: rest, _ + 1, acc => (acc, some e, rest)
  | Chunk.data bs :: rest, need + 1, acc =>
    if bs.length ≤ need + 1 then readLoop rest (need + 1 - bs.length) (acc ++ bs)
    else (acc ++ bs.take (need + 1), none, Chunk.data (bs.drop (need + 1)) :: rest)

/-- Model of `io.ReadFull(r, buf)` with `len(buf) = k`: the bytes stored in `buf[:n]`,
the error, and the reader afterwards. After the loop `ReadAtLeast` clears the error
when `n >= min` and turns `EOF` into `ErrUnexpectedEOF` when `0 < n < min`. -/
def ReadFull (s : Stream) (k : Nat) : List Nat × Option IOErr × Stream :=
  match readLoop s k [] with
  | (bs, none, s1) => (bs, none, s1)
  | (bs, some e, s1) =>
    if k ≤ bs.length then (bs, none, s1)
    else if 0 < bs.length ∧ e = IOErr.EOF then (bs, some IOErr.ErrUnexpectedEOF, s1)
    else (bs, some e, s1)

/-- Source: `binary.BigEndian.Uint32(b)` followed by `int(...)`, on the first four bytes. -/
def be32 (b : List Nat) : Nat :=
  b.getD 0 0 * 16777216 + b.getD 1 0 * 65536 + b.getD 2 0 * 256 + b.getD 3 0

/-- The four bytes `binary.BigEndian.PutUint32` writes for `n`. -/
def putBE32 (n : Nat) : List Nat :=
  [n / 16777216 % 256, n / 65536 % 256, n / 256 % 256, n % 256]

/-! ## Records and messages -/

/-- Source: `logdriver.PartialLogEntryMetadata` (`id`, `last`, `ordinal`). -/
structure PartialLogEntryMetadata where
  Last : Bool
  Id : String
  Ordinal : Int
  deriving DecidableEq, Repr

/-- Source: `logdriver.LogEntry`, the deserialized record. -/
structure LogEntry where
  Source : String
  TimeNano : Int
  Line : List Nat
  Partial : Bool
  PartialLogMetadata : Option PartialLogEntryMetadata
  deriving DecidableEq, Repr

/-- Source: `backend.PartialLogMetaData`. -/
structure PartialLogMetaData where
  Last : Bool
  ID : String
  Ordinal : Int
  deriving DecidableEq, Repr

/-- Source: `logger.Message`, with the fields the code sets; `PLogMetaData` is a pointer,
`none` being `nil`. -/
structure Message where
  Line : List Nat
  Source : String
  Timestamp : Int
  PLogMetaData : Option PartialLogMetaData
  deriving DecidableEq, Repr

/-- Source: `logdriver.LogEntry{}`, the zero value. -/
def zeroLogEntry : LogEntry :=
  { Source := "", TimeNano := 0, Line := [], Partial := false, PartialLogMetadata := none }

/-- Source: `resetProto`: `Source`, `Line`, `TimeNano`, `Partial` and `PartialLogMetadata`
are set back to their zero values, whatever they were. -/
def resetProto (proto : LogEntry) : LogEntry :=
  { proto with Source := "", Line := [], TimeNano := 0, Partial := false,
               PartialLogMetadata := none }

/-- Getters of the generated code are nil-safe: `GetLast()`, `GetId()`, `GetOrdinal()` of a
nil `PartialLogMetadata` are the zero values. -/
def getMetadata (md : Option PartialLogEntryMetadata) : PartialLogMetaData :=
  match md with
  | some m => { Last := m.Last, ID := m.Id, Ordinal := m.Ordinal }
  | none => { Last := false, ID := "", Ordinal := 0 }

/-- Source: `protoToMessage`. -/
def protoToMessage (proto : LogEntry) : Message :=
  { Source := proto.Source,
    Timestamp := proto.TimeNano,
    PLogMetaData := if proto.Partial then some (getMetadata proto.PartialLogMetadata) else none,
    Line := proto.Line }

/-- Source: lines 180-185 of `decodeLogEntry`: `msg := protoToMessage(d.proto)`, then a line
feed (byte 10) is appended to `msg.Line` when `msg.PLogMetaData == nil`. -/
def entryMessage (proto : LogEntry) : Message :=
  let msg := protoToMessage proto
  if msg.PLogMetaData = none then { msg with Line := msg.Line ++ [10] } else msg

/-! ## The decoder of `reader.go` -/

/-- A Go byte slice that owns its backing array: `data` is the whole array (its length is
the capacity), `len` the slice length. -/
structure Buf where
  data : List Nat
  len : Nat
  deriving DecidableEq, Repr

/-- Source: `make([]byte, n)`. -/
def Buf.make (n : Nat) : Buf := { data := List.replicate n 0, len := n }

/-- Capacity of the slice. -/
def Buf.cap (b : Buf) : Nat := b.data.length

/-- Source: `type decoder struct`. `rdr` is the identity of the bound reader (`none` is
nil); the reader itself is passed to each operation as a `Stream`. `buf = none` is the nil
slice. -/
structure decoder where
  rdr : Option Nat
  proto : Option LogEntry
  buf : Option Buf
  offset : Nat
  nextMsgLen : Nat
  deriving DecidableEq, Repr

/-- Source: `decodeFunc`: `&decoder{rdr: rdr}`. -/
def decodeFunc (rdr : Nat) : decoder :=
  { rdr := some rdr, proto := none, buf := none, offset := 0, nextMsgLen := 0 }

/-- Storing `bs` into the array at index `off`. -/
def writeAt (data : List Nat) (off : Nat) (bs : List Nat) : List Nat :=
  data.take off ++ bs ++ data.drop (off + bs.length)

/-- Outcome of `readRecord`: `nil`, an error, or a run-time panic of a slice expression. -/
inductive ReadResult where
  | ok
  | err (e : IOErr)
  | panic
  deriving DecidableEq, Repr

/-- The `for i := 0; i < maxDecodeRetry; i++` loop of `readRecord` with the statements after
it; `fuel` is the number of iterations left and `last` the value of `err`. -/
def readRecordLoop (size : Nat) : Nat → decoder → Stream → Option IOErr →
    ReadResult × decoder × Stream
  | 0, d, s, last =>
    match last with
    | some e => (ReadResult.err e, d, s)
    | none => (ReadResult.ok, { d with offset := 0 }, s)
  | fuel + 1, d, s, _ =>
    match d.buf with
    | none => (ReadResult.panic, d, s)
    | some b =>
      if d.offset ≤ size ∧ size ≤ b.cap then
        match ReadFull s (size - d.offset) with
        | (bs, e, s1) =>
          let d1 : decoder :=
            { d with buf := some { b with data := writeAt b.data d.offset bs },
                     offset := d.offset + bs.length }
          match e with
          | some e1 =>
            if e1 = IOErr.ErrUnexpectedEOF then readRecordLoop size fuel d1 s1 (some e1)
            else (ReadResult.err e1, d1, s1)
          | none => (ReadResult.ok, { d1 with offset := 0 }, s1)
      else (ReadResult.panic, d, s)

/-- Source: `decoder.readRecord`. -/
def readRecord (d : decoder) (s : Stream) (size : Nat) : ReadResult × decoder × Stream :=
  readRecordLoop size maxDecodeRetry d s none

/-- Errors of `Decode`, one per `return nil, err` of the source. -/
inductive DecodeErr where
  | sizeHeader (e : IOErr)
  | tooLarge (msgLen : Nat)
  | logEntry (e : IOErr) (msgLen : Nat)
  | unmarshal (msgLen : Nat)
  deriving DecidableEq, Repr

/-- Result of `Decode`: a message, an error, or a run-time panic. -/
inductive DecodeResult where
  | ok (msg : Message)
  | err (e : DecodeErr)
  | panic
  deriving DecidableEq, Repr

/-- Source: `decoder.decodeSizeHeader`; `none` stands for a panic. -/
def decodeSizeHeader (d : decoder) (s : Stream) : Option (Except IOErr Nat) × decoder × Stream :=
  match readRecord d s encodeBinaryLen with
  | (ReadResult.panic, d1, s1) => (none, d1, s1)
  | (ReadResult.err e, d1, s1) => (some (Except.error e), d1, s1)
  | (ReadResult.ok, d1, s1) =>
    match d1.buf with
    | none => (none, d1, s1)
    | some b =>
      if encodeBinaryLen ≤ b.cap then (some (Except.ok (be32 (b.data.take encodeBinaryLen))), d1, s1)
      else (none, d1, s1)

/-- Source: `decoder.decodeLogEntry`. -/
def decodeLogEntry (unm : LogEntry → List Nat → Option LogEntry) (d : decoder) (s : Stream) :
    DecodeResult × decoder × Stream :=
  let msgLen := d.nextMsgLen
  match readRecord d s (msgLen + encodeBinaryLen) with
  | (ReadResult.panic, d1, s1) => (DecodeResult.panic, d1, s1)
  | (ReadResult.err e, d1, s1) => (DecodeResult.err (DecodeErr.logEntry e msgLen), d1, s1)
  | (ReadResult.ok, d1, s1) =>
    let d2 : decoder := { d1 with nextMsgLen := 0 }
    match d2.proto, d2.buf with
    | some p, some b =>
      if msgLen ≤ b.cap then
        match unm p (b.data.take msgLen) with
        | none => (DecodeResult.err (DecodeErr.unmarshal msgLen), d2, s1)
        | some p1 =>
          (DecodeResult.ok (entryMessage p1), { d2 with proto := some p1 }, s1)
      else (DecodeResult.panic, d2, s1)
    | _, _ => (DecodeResult.panic, d2, s1)

/-- The three-way buffer adjustment of `Decode` for a header value `msgLen`;
`none` stands for a panic of the slice expression. -/
def resizeBuf (b : Buf) (msgLen : Nat) : Option Buf :=
  if b.len < msgLen + encodeBinaryLen then some (Buf.make (msgLen + encodeBinaryLen))
  else if msgLen ≤ initialBufSize then
    if initialBufSize ≤ b.cap then some { b with len := initialBufSize } else none
  else
    if msgLen + encodeBinaryLen ≤ b.cap then some { b with len := msgLen + encodeBinaryLen }
    else none

/-- Lines 46-50 of `Decode`: the scratch record is allocated when nil and reset otherwise. -/
def ensureProto (d : decoder) : decoder :=
  { d with proto := match d.proto with
                    | none => some zeroLogEntry
                    | some p => some (resetProto p) }

/-- Lines 51-53 of `Decode`: the buffer is allocated with `initialBufSize` bytes when nil. -/
def ensureBuf (d : decoder) : decoder :=
  { d with buf := match d.buf with
                  | none => some (Buf.make initialBufSize)
                  | some b => some b }

/-- Source: `decoder.Decode`. -/
def Decode (unm : LogEntry → List Nat → Option LogEntry) (d : decoder) (s : Stream) :
    DecodeResult × decoder × Stream :=
  let d2 : decoder := ensureBuf (ensureProto d)
  if d2.nextMsgLen = 0 then
    match decodeSizeHeader d2 s with
    | (none, d3, s1) => (DecodeResult.panic, d3, s1)
    | (some (Except.error e), d3, s1) => (DecodeResult.err (DecodeErr.sizeHeader e), d3, s1)
    | (some (Except.ok msgLen), d3, s1) =>
      if maxMsgLen < msgLen then (DecodeResult.err (DecodeErr.tooLarge msgLen), d3, s1)
      else
        match d3.buf with
        | none => (DecodeResult.panic, d3, s1)
        | some b =>
          match resizeBuf b msgLen with
          | none => (DecodeResult.panic, d3, s1)
          | some b1 => decodeLogEntry unm { d3 with buf := some b1, nextMsgLen := msgLen } s1
  else decodeLogEntry unm d2 s

/-- Source: `decoder.Reset`; `none` stands for a panic of `d.buf[:initialBufSize]`. -/
def Reset (d : decoder) (rdr : Nat) : Option decoder :=
  if d.rdr = some rdr then some d
  else
    let d1 : decoder := { d with rdr := some rdr, proto := d.proto.map resetProto }
    match d1.buf with
    | none => some { d1 with offset := 0, nextMsgLen := 0 }
    | some b =>
      if initialBufSize ≤ b.cap then
        some { d1 with buf := some { b with len := initialBufSize }, offset := 0, nextMsgLen := 0 }
      else none

/-- Source: `decoder.Close`. -/
def Close (d : decoder) : decoder :=
  { d with buf := none, proto := d.proto.map resetProto, rdr := none }

/-! ## Streams whose reads do not fail -/

/-- A chunk that carries data. -/
def Chunk.isData : Chunk → Bool
  | Chunk.data _ => true
  | Chunk.fail _ => false

/-- A stream none of whose reads fails before its lasting end-of-stream. -/
def errorFree (s : Stream) : Bool := s.all Chunk.isData

/-- Number of `Read` calls and bytes a stream still holds; every `ReadFull` that asks for a
byte of a non-exhausted stream lowers it. -/
def streamWeight : Stream → Nat
  | [] => 0
  | Chunk.data bs :: rest => bs.length + 1 + streamWeight rest
  | Chunk.fail _ :: rest => 1 + streamWeight rest

/-! ## The consumer of `driver.go` -/

/-- Errors of `ReadMsg`: an error of the underlying reader or of `io.ReadFull`,
`io.ErrShortBuffer` for a length above the maximum, or a deserialization error. -/
inductive ReadMsgErr where
  | io (e : IOErr)
  | unmarshal
  deriving DecidableEq, Repr

/-- Modelled from the spec: `ReadMsg` of the frame reader that `consumeLog` obtains from
`protoio.NewUint32DelimitedReader(lf.stream, binary.BigEndian, maxSize)`; the reader is
library code outside the repository. Frame layout of section 6 of the spec: a 4-byte
big-endian length `L`, then `L` bytes of serialized record. The reader fills its 4-byte
length buffer with `io.ReadFull` and returns the error of that call; it returns
`io.ErrShortBuffer` without reading further when `L` exceeds `maxSize`; it fills `L` bytes
with `io.ReadFull` and returns the error of that call; it then resets the target record
and unmarshals the `L` bytes into it. It keeps no bytes between calls. -/
def ReadMsg (unm : LogEntry → List Nat → Option LogEntry) (maxSize : Nat) (s : Stream) :
    Except ReadMsgErr LogEntry × Stream :=
  match ReadFull s 4 with
  | (_, some e, s1) => (Except.error (ReadMsgErr.io e), s1)
  | (lenBuf, none, s1) =>
    if maxSize < be32 lenBuf then (Except.error (ReadMsgErr.io IOErr.ErrShortBuffer), s1)
    else
      match ReadFull s1 (be32 lenBuf) with
      | (_, some e, s2) => (Except.error (ReadMsgErr.io e), s2)
      | (body, none, s2) =>
        match unm zeroLogEntry body with
        | none => (Except.error ReadMsgErr.unmarshal, s2)
        | some entry => (Except.ok entry, s2)

/-- The two sinks `consumeLog` is given: `stdOutWriter` and `stdErrWriter`. -/
inductive Sink where
  | stdOut
  | stdErr
  deriving DecidableEq, Repr

/-- What `consumeLog` does to its collaborators, in order: a `WriteLogEntry` call on a sink,
the call `lf.stream.Close()` of line 114, and the deferred `dec.Close()` of line 109. -/
inductive Event where
  | write (sink : Sink) (msg : Message)
  | closeStream
  | closeDec
  deriving DecidableEq, Repr

/-- How a run of `consumeLog` ends: by `return`, by the nil-pointer panic of a store through
`msg.PLogMetaData`, by `panic(err)` after a failed sink write, or not yet (loop still
running when the iteration budget of the model is used up). -/
inductive Exit where
  | returned
  | panicNilPointer
  | panicWrite
  | running
  deriving DecidableEq, Repr

/-- A store `p.f = v` through the pointer `p`, as in `msg.PLogMetaData.ID = ...`:
`none` is the run-time panic of a nil `p`. -/
def storeThrough (p : Option PartialLogMetaData)
    (f : PartialLogMetaData → PartialLogMetaData) : Option (Option PartialLogMetaData) :=
  match p with
  | none => none
  | some m => some (some (f m))

/-- Lines 120-128 of `consumeLog`: the message built from the record `buf`, starting from
the zero `logger.Message` (whose `PLogMetaData` is nil); `none` is a run-time panic. -/
def buildMessage (buf : LogEntry) : Option Message :=
  let msg : Message := { Line := [], Source := "", Timestamp := 0, PLogMetaData := none }
  let msg1 : Message := { msg with Line := buf.Line }
  let msg2 : Message := { msg1 with Source := buf.Source }
  let stored : Option (Option PartialLogMetaData) :=
    match buf.PartialLogMetadata with
    | some md =>
      (storeThrough msg2.PLogMetaData (fun m => { m with ID := md.Id })).bind fun p1 =>
      (storeThrough p1 (fun m => { m with Last := md.Last })).bind fun p2 =>
      storeThrough p2 (fun m => { m with Ordinal := md.Ordinal })
    | none => some msg2.PLogMetaData
  match stored with
  | none => none
  | some p => some { msg2 with PLogMetaData := p, Timestamp := buf.TimeNano }

/-- The `for` loop of `consumeLog`. `writeOk sink msg` tells whether `WriteLogEntry`
returns a nil error; `fuel` bounds the iterations. A reader made anew after an error
behaves like the first one, since the frame reader keeps no bytes between calls. -/
def consumeLoop (unm : LogEntry → List Nat → Option LogEntry) (writeOk : Sink → Message → Bool) :
    Nat → Stream → List Event × Exit
  | 0, _ => ([], Exit.running)
  | fuel + 1, s =>
    match ReadMsg unm maxMsgLen s with
    | (Except.error e, s1) =>
      if e = ReadMsgErr.io IOErr.EOF then ([Event.closeStream], Exit.returned)
      else consumeLoop unm writeOk fuel s1
    | (Except.ok buf, s1) =>
      match buildMessage buf with
      | none => ([], Exit.panicNilPointer)
      | some msg =>
        if msg.Source = "stdout" then
          if writeOk Sink.stdOut msg then
            ((Event.write Sink.stdOut msg) :: (consumeLoop unm writeOk fuel s1).1,
              (consumeLoop unm writeOk fuel s1).2)
          else ([Event.write Sink.stdOut msg], Exit.panicWrite)
        else if msg.Source = "stderr" then
          if writeOk Sink.stdErr msg then
            ((Event.write Sink.stdErr msg) :: (consumeLoop unm writeOk fuel s1).1,
              (consumeLoop unm writeOk fuel s1).2)
          else ([Event.write Sink.stdErr msg], Exit.panicWrite)
        else consumeLoop unm writeOk fuel s1

/-- Source: `consumeLog` on the stream `s`: the loop, then the deferred `dec.Close()`, which
runs when the function returns or panics. The budget `streamWeight s + 1` is enough for
the loop to end (`consumeLoop_ends`). -/
def consumeLog (unm : LogEntry → List Nat → Option LogEntry) (writeOk : Sink → Message → Bool)
    (s : Stream) : List Event × Exit :=
  match consumeLoop unm writeOk (streamWeight s + 1) s with
  | (evs, Exit.running) => (evs, Exit.running)
  | (evs, exit) => (evs ++ [Event.closeDec], exit)

/-- Number of `Close` calls the stream handle receives in a run. `Close` of the frame reader
made by `protoio.NewUint32DelimitedReader` is library code outside the repository: it
closes the reader it wraps when that reader is an `io.Closer`, which `lf.stream` (an
`io.ReadCloser`) is. Hence both the `closeStream` and the `closeDec` events count. -/
def streamCloseCalls (evs : List Event) : Nat :=
  (evs.filter fun e => decide (e = Event.closeStream ∨ e = Event.closeDec)).length

/-- The messages a sink received, in order. -/
def sinkWrites (sink : Sink) : List Event → List Message
  | [] => []
  | Event.write k msg :: rest =>
    if k = sink then msg :: sinkWrites sink rest else sinkWrites sink rest
  | _ :: rest => sinkWrites sink rest

/-- Source: `marshalFunc` of `StartLogging`: the line, then a line feed, taken from the
scratch buffer, which is then reset. -/
def marshalFunc (msg : Message) : List Nat := msg.Line ++ [10]

/-! ## The registry of `driver.go` -/

/-- Source: `baseLogDir`. -/
def baseLogDir : String := "/data/output"

/-- Source: `type dockerInput struct`: the handle of the opened stream and the
container identifier of `logger.Info`. -/
structure dockerInput where
  stream : Nat
  ContainerID : String
  deriving DecidableEq, Repr

/-- Source: `type driver struct`: the map `logs`; the mutex is not represented, each
operation being one step. -/
structure driver where
  logs : String → Option dockerInput

/-- Source: `newDriver`. -/
def newDriver : driver := { logs := fun _ => none }

/-- Calls `StartLogging` makes on its collaborators, in order. -/
inductive Effect where
  | mkdirAll (dir : String)
  | newLogFile (path : String)
  | openFifo (file : String)
  | goConsumeLog (file : String) (handle : Nat)
  deriving DecidableEq, Repr

/-- Errors `StartLogging` returns. -/
inductive StartErr where
  | alreadyExists (file : String)
  | newLogFile (path : String)
  | openFifo (file : String)
  deriving DecidableEq, Repr

/-- Outcomes of the collaborators of `StartLogging`: whether `loggerutils.NewLogFile`
succeeds for a path, and the handle `fifo.OpenFifo` returns for a file (`none` on error). -/
structure Env where
  newLogFile : String → Bool
  openFifo : String → Option Nat

/-- Source: `driver.StartLogging`, run without interleaving. -/
def StartLogging (env : Env) (d : driver) (file : String) (containerID : String) :
    Option StartErr × driver × List Effect :=
  match d.logs file with
  | some _ => (some (StartErr.alreadyExists file), d, [])
  | none =>
    let logDir := baseLogDir ++ "/" ++ containerID ++ "/"
    let stdErrFile := logDir ++ "stderr"
    let stdOutFile := logDir ++ "stdout"
    if env.newLogFile stdErrFile then
      if env.newLogFile stdOutFile then
        match env.openFifo file with
        | none =>
          (some (StartErr.openFifo file), d,
            [Effect.mkdirAll logDir, Effect.newLogFile stdErrFile, Effect.newLogFile stdOutFile,
             Effect.openFifo file])
        | some f =>
          (none,
            { logs := fun k => if k = file then some { stream := f, ContainerID := containerID }
                               else d.logs k },
            [Effect.mkdirAll logDir, Effect.newLogFile stdErrFile, Effect.newLogFile stdOutFile,
             Effect.openFifo file, Effect.goConsumeLog file f])
      else
        (some (StartErr.newLogFile stdOutFile), d,
          [Effect.mkdirAll logDir, Effect.newLogFile stdErrFile, Effect.newLogFile stdOutFile])
    else
      (some (StartErr.newLogFile stdErrFile), d,
        [Effect.mkdirAll logDir, Effect.newLogFile stdErrFile])

/-- Source: `driver.StopLogging`: the entry is deleted when present; the error is always
nil (`none`). -/
def StopLogging (d : driver) (file : String) : Option StartErr × driver :=
  match d.logs file with
  | some _ => (none, { logs := fun k => if k = file then none else d.logs k })
  | none => (none, d)

/-! ## A model of the generated protobuf code, for concrete inputs

Wire format of `LogEntry`: `source` (field 1, string), `time_nano` (field 2, int64 varint),
`line` (field 3, bytes), `partial` (field 4, bool), `partial_log_metadata` (field 5, embedded
message with `last` (1, bool), `id` (2, string), `ordinal` (3, int32)). Strings are ASCII here.
Fields with other numbers are rejected by this model. -/

namespace Proto

/-- The varint loop of the generated code: at most ten bytes, seven bits each, low group
first, accumulated in a `uint64`. `fuel` counts the bytes still allowed. -/
def varintLoop : Nat → Nat → Nat → List Nat → Option (Nat × List Nat)
  | 0, _, _, _ => none
  | _ + 1, _, _, [] => none
  | fuel + 1, shift, acc, b :: rest =>
    let acc1 := (acc + (b % 128) * 2 ^ shift) % 18446744073709551616
    if b < 128 then some (acc1, rest) else varintLoop fuel (shift + 7) acc1 rest

/-- Reading one varint. -/
def varint (bs : List Nat) : Option (Nat × List Nat) := varintLoop 10 0 0 bs

/-- Conversion `int64(w)` of a `uint64`. -/
def toInt64 (w : Nat) : Int :=
  if w < 9223372036854775808 then (w : Int) else (w : Int) - 18446744073709551616

/-- Conversion `int32(w)` of a `uint64`. -/
def toInt32 (w : Nat) : Int :=
  if w % 4294967296 < 2147483648 then ((w % 4294967296 : Nat) : Int)
  else ((w % 4294967296 : Nat) : Int) - 4294967296

/-- Conversion `string(b)`, for ASCII bytes. -/
def bytesToString (bs : List Nat) : String := String.mk (bs.map Char.ofNat)

/-- Conversion `[]byte(s)`, for ASCII strings. -/
def stringToBytes (s : String) : List Nat := s.data.map Char.toNat

/-- Field loop of `PartialLogEntryMetadata.Unmarshal`. -/
def unmarshalMetadata : Nat → PartialLogEntryMetadata → List Nat → Option PartialLogEntryMetadata
  | _, m, [] => some m
  | 0, _, _ :: _ => none
  | fuel + 1, m, b :: bs =>
    match varint (b :: bs) with
    | none => none
    | some (wire, r) =>
      if wire = 8 then
        match varint r with
        | some (v, r1) => unmarshalMetadata fuel { m with Last := decide (v ≠ 0) } r1
        | none => none
      else if wire = 18 then
        match varint r with
        | some (n, r1) =>
          if n ≤ r1.length then
            unmarshalMetadata fuel { m with Id := bytesToString (r1.take n) } (r1.drop n)
          else none
        | none => none
      else if wire = 24 then
        match varint r with
        | some (v, r1) => unmarshalMetadata fuel { m with Ordinal := toInt32 v } r1
        | none => none
      else none

/-- Field loop of `LogEntry.Unmarshal`, merging into `p`. -/
def unmarshalLoop : Nat → LogEntry → List Nat → Option LogEntry
  | _, p, [] => some p
  | 0, _, _ :: _ => none
  | fuel + 1, p, b :: bs =>
    match varint (b :: bs) with
    | none => none
    | some (wire, r) =>
      if wire = 10 then
        match varint r with
        | some (n, r1) =>
          if n ≤ r1.length then
            unmarshalLoop fuel { p with Source := bytesToString (r1.take n) } (r1.drop n)
          else none
        | none => none
      else if wire = 16 then
        match varint r with
        | some (v, r1) => unmarshalLoop fuel { p with TimeNano := toInt64 v } r1
        | none => none
      else if wire = 26 then
        match varint r with
        | some (n, r1) =>
          if n ≤ r1.length then unmarshalLoop fuel { p with Line := r1.take n } (r1.drop n)
          else none
        | none => none
      else if wire = 32 then
        match varint r with
        | some (v, r1) => unmarshalLoop fuel { p with Partial := decide (v ≠ 0) } r1
        | none => none
      else if wire = 42 then
        match varint r with
        | some (n, r1) =>
          if n ≤ r1.length then
            let m0 : PartialLogEntryMetadata :=
              match p.PartialLogMetadata with
              | some m => m
              | none => { Last := false, Id := "", Ordinal := 0 }
            match unmarshalMetadata n m0 (r1.take n) with
            | some m1 => unmarshalLoop fuel { p with PartialLogMetadata := some m1 } (r1.drop n)
            | none => none
          else none
        | none => none
      else none

/-- Model of `(*LogEntry).Unmarshal(dAtA)`: the bytes merged into the receiver. -/
def Unmarshal (p : LogEntry) (dAtA : List Nat) : Option LogEntry :=
  unmarshalLoop dAtA.length p dAtA

/-- Writing one varint of a `uint64`. -/
def putVarint : Nat → Nat → List Nat
  | 0, v => [v % 128]
  | fuel + 1, v => if v < 128 then [v] else (v % 128 + 128) :: putVarint fuel (v / 128)

/-- Two's complement of a 64-bit integer, as the varint encoder sees it. -/
def ofInt64 (v : Int) : Nat := (v % 18446744073709551616).toNat

/-- Model of `(*PartialLogEntryMetadata).Marshal`. -/
def MarshalMetadata (m : PartialLogEntryMetadata) : List Nat :=
  (if m.Last then [8, 1] else []) ++
  (if m.Id.data.length = 0 then []
   else [18] ++ putVarint 9 m.Id.data.length ++ stringToBytes m.Id) ++
  (if m.Ordinal = 0 then [] else [24] ++ putVarint 9 (ofInt64 m.Ordinal))

/-- Model of `(*LogEntry).Marshal`: the serialized body of a record. -/
def Marshal (r : LogEntry) : List Nat :=
  (if r.Source.data.length = 0 then []
   else [10] ++ putVarint 9 r.Source.data.length ++ stringToBytes r.Source) ++
  (if r.TimeNano = 0 then [] else [16] ++ putVarint 9 (ofInt64 r.TimeNano)) ++
  (if r.Line.length = 0 then [] else [26] ++ putVarint 9 r.Line.length ++ r.Line) ++
  (if r.Partial then [32, 1] else []) ++
  (match r.PartialLogMetadata with
   | none => []
   | some m =>
     [42] ++ putVarint 9 (MarshalMetadata m).length ++ MarshalMetadata m)

end Proto

/-! ## Concrete records used as examples -/

/-- The record of scenario A: `{source:"stdout", line:"hello", time_nano:1000, partial:false}`. -/
def helloEntry : LogEntry :=
  { Source := "stdout", TimeNano := 1000, Line := [104, 101, 108, 108, 111], Partial := false,
    PartialLogMetadata := none }

/-- A record with the `partial` flag set and no `partial_log_metadata`. -/
def flagOnlyEntry : LogEntry :=
  { Source := "stdout", TimeNano := 1000, Line := [104, 105], Partial := true,
    PartialLogMetadata := none }

/-- A record that carries `partial_log_metadata` while its `partial` flag is false. -/
def metadataOnlyEntry : LogEntry :=
  { Source := "stdout", TimeNano := 1000, Line := [104, 105], Partial := false,
    PartialLogMetadata := some { Last := true, Id := "abc", Ordinal := 1 } }

/-- A frame as section 6 of the spec lays it out: the big-endian length, then the body. -/
def frameOf (body : List Nat) : List Nat := putBE32 body.length ++ body

/-- First chunk of scenario D: partial metadata `{id:"abc", ordinal:0, last:false}`. -/
def chunkOne : LogEntry :=
  { Source := "stdout", TimeNano := 1000, Line := [104, 101], Partial := true,
    PartialLogMetadata := some { Last := false, Id := "abc", Ordinal := 0 } }

/-- Second chunk of scenario D: partial metadata `{id:"abc", ordinal:1, last:true}`. -/
def chunkTwo : LogEntry :=
  { Source := "stdout", TimeNano := 1001, Line := [108, 108, 111], Partial := true,
    PartialLogMetadata := some { Last := true, Id := "abc", Ordinal := 1 } }

/-- A record tagged `stderr` that carries partial metadata. -/
def stderrChunk : LogEntry :=
  { Source := "stderr", TimeNano := 1000, Line := [104, 105], Partial := true,
    PartialLogMetadata := some { Last := true, Id := "x", Ordinal := 0 } }

/-- A record with an unknown tag that carries partial metadata. -/
def unknownTagChunk : LogEntry :=
  { Source := "unknown-tag", TimeNano := 1000, Line := [104, 105], Partial := true,
    PartialLogMetadata := some { Last := true, Id := "x", Ordinal := 0 } }

/-- The message lines 120-128 of `consumeLog` build from a record without partial
metadata. -/
def plainMessage (r : LogEntry) : Message :=
  { Line := r.Line, Source := r.Source, Timestamp := r.TimeNano, PLogMetaData := none }

/-- An event that is a sink write. -/
def Event.isWrite : Event → Bool
  | Event.write _ _ => true
  | _ => false

/-! ## Invariant of the decoder buffer -/

/-- The buffer invariant of the decoder: a buffer, once allocated, has
`initialBufSize ≤ len ≤ cap`. -/
def bufOK (b : Buf) : Prop := initialBufSize ≤ b.len ∧ b.len ≤ b.cap

/-! ## The consumer task and the registry -/

/-- The task `go consumeLog(lf, stdOut, stdErr)` that `StartLogging` starts: it is given the
entry `lf` and the two sinks, not the driver, so it has no way to change the map `logs`;
the registry after the task is the registry before it, next to the run of `consumeLog`. -/
def consumerTask (unm : LogEntry → List Nat → Option LogEntry) (writeOk : Sink → Message → Bool)
    (d : driver) (s : Stream) : driver × List Event × Exit :=
  (d, consumeLog unm writeOk s)

/-! ## Two concurrent `StartLogging` calls

Each call is cut into the steps between which another call can run: the first locked
section (lines 46-51), the provisioning done without the lock (lines 53-86), and the
second locked section with the start of the consumer and the return (lines 88-94). -/

/-- Where a `StartLogging` call stands. -/
inductive StartPC where
  | check
  | provision
  | insert (f : Nat)
  | returned (err : Option StartErr)
  deriving DecidableEq, Repr

/-- A `StartLogging(file, logCtx)` call in progress. -/
structure StartCall where
  file : String
  containerID : String
  pc : StartPC
  deriving DecidableEq, Repr

/-- One step of a `StartLogging` call on the shared registry, with the calls it makes on its
collaborators. A call that has returned does nothing. -/
def StartCall.step (env : Env) (d : driver) (c : StartCall) : driver × StartCall × List Effect :=
  match c.pc with
  | StartPC.check =>
    match d.logs c.file with
    | some _ => (d, { c with pc := StartPC.returned (some (StartErr.alreadyExists c.file)) }, [])
    | none => (d, { c with pc := StartPC.provision }, [])
  | StartPC.provision =>
    let logDir := baseLogDir ++ "/" ++ c.containerID ++ "/"
    let stdErrFile := logDir ++ "stderr"
    let stdOutFile := logDir ++ "stdout"
    if env.newLogFile stdErrFile then
      if env.newLogFile stdOutFile then
        match env.openFifo c.file with
        | none =>
          (d, { c with pc := StartPC.returned (some (StartErr.openFifo c.file)) },
            [Effect.mkdirAll logDir, Effect.newLogFile stdErrFile, Effect.newLogFile stdOutFile,
             Effect.openFifo c.file])
        | some f =>
          (d, { c with pc := StartPC.insert f },
            [Effect.mkdirAll logDir, Effect.newLogFile stdErrFile, Effect.newLogFile stdOutFile,
             Effect.openFifo c.file])
      else
        (d, { c with pc := StartPC.returned (some (StartErr.newLogFile stdOutFile)) },
          [Effect.mkdirAll logDir, Effect.newLogFile stdErrFile, Effect.newLogFile stdOutFile])
    else
      (d, { c with pc := StartPC.returned (some (StartErr.newLogFile stdErrFile)) },
        [Effect.mkdirAll logDir, Effect.newLogFile stdErrFile])
  | StartPC.insert f =>
    ({ logs := fun k => if k = c.file then some { stream := f, ContainerID := c.containerID }
                        else d.logs k },
      { c with pc := StartPC.returned none }, [Effect.goConsumeLog c.file f])
  | StartPC.returned _ => (d, c, [])

/-- The two callers. -/
inductive Caller where
  | first
  | second
  deriving DecidableEq, Repr

/-- State of two concurrent calls: the registry, the two calls, and the collaborator calls
made so far, each with its caller. -/
structure TwoCalls where
  registry : driver
  a : StartCall
  b : StartCall
  effects : List (Caller × Effect)

/-- An interleaving: at each entry of the schedule the named caller makes its next step. -/
def runSchedule (env : Env) : List Caller → TwoCalls → TwoCalls
  | [], st => st
  | Caller.first :: rest, st =>
    match StartCall.step env st.registry st.a with
    | (d1, a1, effs) =>
      runSchedule env rest
        { st with registry := d1, a := a1,
                  effects := st.effects ++ effs.map (fun e => (Caller.first, e)) }
  | Caller.second :: rest, st =>
    match StartCall.step env st.registry st.b with
    | (d1, b1, effs) =>
      runSchedule env rest
        { st with registry := d1, b := b1,
                  effects := st.effects ++ effs.map (fun e => (Caller.second, e)) }

/-- A call run alone from its start to its return: three steps. -/
def runAlone (env : Env) (d : driver) (file containerID : String) :
    Option StartErr × driver × List Effect :=
  match StartCall.step env d { file := file, containerID := containerID, pc := StartPC.check } with
  | (d1, c1, e1) =>
    match StartCall.step env d1 c1 with
    | (d2, c2, e2) =>
      match StartCall.step env d2 c2 with
      | (d3, c3, e3) =>
        (match c3.pc with
         | StartPC.returned err => err
         | _ => none, d3, e1 ++ e2 ++ e3)

/-- Two calls for the same identifier on the empty registry, both about to start. -/
def twoStarts (file : String) : TwoCalls :=
  { registry := newDriver,
    a := { file := file, containerID := "c1", pc := StartPC.check },
    b := { file := file, containerID := "c1", pc := StartPC.check },
    effects := [] }

/-- Collaborators that never fail: every log file is created and every fifo opens. -/
def okEnv : Env := { newLogFile := fun _ => true, openFifo := fun _ => some 3 }

/-- A non-partial record whose line already ends with a line feed: `hello` and byte 10. -/
def helloNewlineEntry : LogEntry :=
  { Source := "stdout", TimeNano := 1000, Line := [104, 101, 108, 108, 111, 10], Partial := false,
    PartialLogMetadata := none }

/-! ## Readers that end each attempt short, sequences of calls, and the decoder invariant -/

/-- A stream on which each attempt of `readRecord` ends short: for each entry, its bytes
and then an end-of-stream that does not last. -/
def shortRounds : List (List Nat) → Stream
  | [] => []
  | bs :: rest => Chunk.data bs :: Chunk.fail IOErr.EOF :: shortRounds rest

/-- The invariant of the decoder between calls: the pending length is within the maximum,
`offset` is within the record being read (`nextMsgLen + 4` bytes; the 4 header bytes when
no length is pending), no length is pending while the buffer is nil, and a buffer, when
there is one, satisfies `bufOK` and has room for that record. -/
def decoderInv (d : decoder) : Prop :=
  d.nextMsgLen ≤ maxMsgLen ∧ d.offset ≤ d.nextMsgLen + encodeBinaryLen ∧
  (d.buf = none → d.nextMsgLen = 0) ∧
  ∀ b, d.buf = some b → bufOK b ∧ d.nextMsgLen + encodeBinaryLen ≤ b.cap

/-- A call on a decoder: `Decode`, with what the bound reader will deliver from then on, or
`Reset` with the identity of a reader. -/
inductive DecoderOp where
  | decode (s : Stream)
  | reset (rdr : Nat)

/-- A sequence of `Decode` and `Reset` calls; `none` when a call panics on a slice
expression out of bounds. -/
def runOps (unm : LogEntry → List Nat → Option LogEntry) : List DecoderOp → decoder → Option decoder
  | [], d => some d
  | DecoderOp.decode s :: rest, d =>
    match Decode unm d s with
    | (DecodeResult.panic, _, _) => none
    | (_, d1, _) => runOps unm rest d1
  | DecoderOp.reset rdr :: rest, d =>
    match Reset d rdr with
    | none => none
    | some d1 => runOps unm rest d1

/-- The results of `n` successive `Decode` calls on the same decoder and reader. -/
def decodeMany (unm : LogEntry → List Nat → Option LogEntry) : Nat → decoder → Stream →
    List DecodeResult
  | 0, _, _ => []
  | n + 1, d, s =>
    match Decode unm d s with
    | (res, d1, s1) => res :: decodeMany unm n d1 s1

/-- Two streams that deliver the same bytes, none of their reads failing, possibly split
into reads in different ways. -/
def sameBytes (s t : Stream) : Prop :=
  errorFree s = true ∧ errorFree t = true ∧ streamBytes s = streamBytes t

/-- The stream that delivers the given bytes one byte per read. -/
def byteByByte (bs : List Nat) : Stream := bs.map fun x => Chunk.data [x]

/-- The buffer `Decode` works with after lines 51-53: the buffer of the decoder, or a fresh
one of `initialBufSize` bytes when it is nil. -/
def viewBuf (d : decoder) : Buf :=
  match d.buf with
  | none => Buf.make initialBufSize
  | some b => b

/-- Two decoder states that no later `Decode` can tell apart: both satisfy the invariant,
they have the same offset, the same pending length and the same buffer length, and their
buffers hold the same bytes below the offset (the bytes already read of the record in
progress). The scratch record, reset at the start of every `Decode`, and the bytes at and
above the offset, overwritten before they are used, do not count. -/
def similar (d e : decoder) : Prop :=
  decoderInv d ∧ decoderInv e ∧ d.offset = e.offset ∧ d.nextMsgLen = e.nextMsgLen ∧
  (viewBuf d).len = (viewBuf e).len ∧
  (viewBuf d).data.take d.offset = (viewBuf e).data.take d.offset

/-- A decoder bound to reader 1 that was interrupted inside a record: a pending length of
18, two bytes of the record already in the buffer, and a scratch record in use. -/
def pendingDecoder : decoder :=
  { rdr := some 1, proto := some helloEntry,
    buf := some { data := [10, 6] ++ List.replicate 2046 0, len := initialBufSize },
    offset := 2, nextMsgLen := 18 }

/-- The bytes of two frames as `Decode` reads them, each a header, a body and four
trailing bytes: a frame of declared length 0, then the frame of `helloEntry`. -/
def emptyThenHello : List Nat :=
  [0, 0, 0, 0] ++ ([0, 0, 0, 0] ++ (putBE32 18 ++ (Proto.Marshal helloEntry ++ [0, 0, 0, 18])))

/-- A reader that delivers `emptyThenHello` without interruption: the header of the first
frame in one read, the rest in another. -/
def emptyFrameWhole : Stream :=
  [Chunk.data [0, 0, 0, 0],
   Chunk.data ([0, 0, 0, 0] ++ (putBE32 18 ++ (Proto.Marshal helloEntry ++ [0, 0, 0, 18])))]

/-- The same reader, reporting a passing end-of-stream right after the header of the first
frame. -/
def emptyFrameInterrupted : Stream :=
  [Chunk.data [0, 0, 0, 0], Chunk.fail IOErr.EOF,
   Chunk.data ([0, 0, 0, 0] ++ (putBE32 18 ++ (Proto.Marshal helloEntry ++ [0, 0, 0, 18])))]

/-- A reader that delivers the header of the frame of `helloEntry` and the first five bytes
of its body, and then reports end-of-stream twice. -/
def helloInterrupted : Stream :=
  [Chunk.data ([0, 0, 0, 18] ++ [10, 6, 115, 116, 100]), Chunk.fail IOErr.EOF,
   Chunk.fail IOErr.EOF]

/-- The same reader later on: the other thirteen bytes of the body and the four trailing
bytes. -/
def helloRest : Stream :=
  [Chunk.data ([111, 117, 116, 16, 232, 7, 26, 5, 104, 101, 108, 108, 111] ++ [0, 0, 0, 18])]

/-! # Theorems -/

/-! ## Reading from streams whose reads do not fail -/

theorem errorFree_cons_data (bs : List Nat) (rest : Stream) :
    errorFree (Chunk.data bs :: rest) = errorFree rest := by
  simp [errorFree, Chunk.isData]

theorem errorFree_cons_fail (e : IOErr) (rest : Stream) :
    errorFree (Chunk.fail e :: rest) = false := by
  simp [errorFree, Chunk.isData]

/-- With enough bytes ahead and no failing read, the loop of `ReadAtLeast` collects exactly
the next `need` bytes, however they are split into reads. -/
theorem readLoop_enough (s : Stream) : ∀ (need : Nat) (acc : List Nat),
    errorFree s = true → need ≤ (streamBytes s).length →
    ∃ s1, readLoop s need acc = (acc ++ (streamBytes s).take need, none, s1) ∧
      errorFree s1 = true ∧ streamBytes s1 = (streamBytes s).drop need := by
  induction s with
  | nil =>
    intro need acc _ hlen
    have h0 : need = 0 := by simpa [streamBytes] using hlen
    subst h0
    exact ⟨[], by simp [readLoop, streamBytes], rfl, by simp [streamBytes]⟩
  | cons c rest ih =>
    intro need acc hfree hlen
    cases c with
    | fail e => simp [errorFree_cons_fail] at hfree
    | data bs =>
      rw [errorFree_cons_data] at hfree
      cases need with
      | zero =>
        exact ⟨Chunk.data bs :: rest, by simp [readLoop],
          by rw [errorFree_cons_data]; exact hfree, by simp⟩
      | succ n =>
        by_cases hle : bs.length ≤ n + 1
        · have hlen1 : n + 1 - bs.length ≤ (streamBytes rest).length := by
            simp only [streamBytes, List.length_append] at hlen
            omega
          obtain ⟨s1, h1, h2, h3⟩ := ih (n + 1 - bs.length) (acc ++ bs) hfree hlen1
          refine ⟨s1, ?_, h2, ?_⟩
          · simp only [readLoop, hle, if_true, h1, streamBytes]
            rw [List.take_append_eq_append_take, List.take_of_length_le hle]
            simp
          · rw [h3]
            simp only [streamBytes]
            rw [List.drop_append_eq_append_drop, List.drop_of_length_le hle]
            simp
        · have hlt : n + 1 < bs.length := by omega
          refine ⟨Chunk.data (bs.drop (n + 1)) :: rest, ?_, ?_, ?_⟩
          · simp only [readLoop, hle, if_false, streamBytes]
            rw [List.take_append_eq_append_take]
            have : n + 1 - bs.length = 0 := by omega
            simp [this]
          · rw [errorFree_cons_data]; exact hfree
          · simp only [streamBytes]
            rw [List.drop_append_eq_append_drop]
            have : n + 1 - bs.length = 0 := by omega
            simp [this]

/-- With fewer bytes ahead than asked for and no failing read, the loop of `ReadAtLeast`
collects all of them and ends on the lasting end-of-stream. -/
theorem readLoop_short (s : Stream) : ∀ (need : Nat) (acc : List Nat),
    errorFree s = true → (streamBytes s).length < need →
    readLoop s need acc = (acc ++ streamBytes s, some IOErr.EOF, []) := by
  induction s with
  | nil =>
    intro need acc _ hlen
    cases need with
    | zero => simp [streamBytes] at hlen
    | succ n => simp [readLoop, streamBytes]
  | cons c rest ih =>
    intro need acc hfree hlen
    cases c with
    | fail e => simp [errorFree_cons_fail] at hfree
    | data bs =>
      rw [errorFree_cons_data] at hfree
      simp only [streamBytes, List.length_append] at hlen
      cases need with
      | zero => omega
      | succ n =>
        have hle : bs.length ≤ n + 1 := by omega
        have hlen1 : (streamBytes rest).length < n + 1 - bs.length := by omega
        simp only [readLoop, hle, if_true, ih _ _ hfree hlen1, streamBytes]
        simp

/-- `ReadFull` on a stream that holds enough bytes: it returns the next `k` bytes and no error. -/
theorem ReadFull_enough (s : Stream) (k : Nat) (hfree : errorFree s = true)
    (hlen : k ≤ (streamBytes s).length) :
    ∃ s1, ReadFull s k = ((streamBytes s).take k, none, s1) ∧
      errorFree s1 = true ∧ streamBytes s1 = (streamBytes s).drop k := by
  obtain ⟨s1, h1, h2, h3⟩ := readLoop_enough s k [] hfree hlen
  exact ⟨s1, by simp [ReadFull, h1], h2, h3⟩

/-- `ReadFull` on a stream that ends early: all remaining bytes are read, and the error is
`EOF` when there was none and `ErrUnexpectedEOF` otherwise. -/
theorem ReadFull_short (s : Stream) (k : Nat) (hfree : errorFree s = true)
    (hlen : (streamBytes s).length < k) :
    ReadFull s k = (streamBytes s,
      some (if (streamBytes s).length = 0 then IOErr.EOF else IOErr.ErrUnexpectedEOF), []) := by
  have h1 := readLoop_short s k [] hfree hlen
  simp only [ReadFull, h1, List.nil_append]
  have hk : ¬ k ≤ (streamBytes s).length := by omega
  by_cases h0 : (streamBytes s).length = 0
  · have hk0 : ¬ k = 0 := by omega
    simp [hk, h0, hk0]
  · have : 0 < (streamBytes s).length := by omega
    simp [hk, h0, this]

/-! ## Headers and buffers -/

theorem putBE32_length (n : Nat) : (putBE32 n).length = 4 := rfl

/-- A length below `2 ^ 32` is read back from its four header bytes. -/
theorem be32_putBE32 (n : Nat) (rest : List Nat) (h : n < 4294967296) :
    be32 (putBE32 n ++ rest) = n := by
  simp only [be32, putBE32, List.cons_append, List.nil_append, List.getD_cons_zero,
    List.getD_cons_succ]
  omega

theorem writeAt_zero (data bs : List Nat) : writeAt data 0 bs = bs ++ data.drop bs.length := by
  simp [writeAt]

theorem writeAt_length (data bs : List Nat) (off : Nat) (h : off + bs.length ≤ data.length) :
    (writeAt data off bs).length = data.length := by
  simp only [writeAt, List.length_append, List.length_take, List.length_drop]
  omega

theorem take_writeAt_zero (data bs : List Nat) (k : Nat) (h : k ≤ bs.length) :
    (writeAt data 0 bs).take k = bs.take k := by
  rw [writeAt_zero, List.take_append_of_le_length h]

theorem resetProto_eq (p : LogEntry) : resetProto p = zeroLogEntry := rfl

theorem ensure_proto (d : decoder) : (ensureBuf (ensureProto d)).proto = some zeroLogEntry := by
  cases hp : d.proto <;> simp [ensureBuf, ensureProto, hp, resetProto_eq]

theorem ensure_offset (d : decoder) : (ensureBuf (ensureProto d)).offset = d.offset := rfl

theorem ensure_nextMsgLen (d : decoder) : (ensureBuf (ensureProto d)).nextMsgLen = d.nextMsgLen :=
  rfl

theorem ensure_rdr (d : decoder) : (ensureBuf (ensureProto d)).rdr = d.rdr := rfl

theorem bufOK_make (n : Nat) (h : initialBufSize ≤ n) : bufOK (Buf.make n) := by
  simp [bufOK, Buf.make, Buf.cap, h]

/-- After lines 51-53 the buffer exists; it is the old one, or a fresh one of
`initialBufSize` bytes. -/
theorem ensure_buf (d : decoder) (h : ∀ b, d.buf = some b → bufOK b) :
    ∃ b, (ensureBuf (ensureProto d)).buf = some b ∧ bufOK b ∧
      (∀ b0, d.buf = some b0 → b = b0) ∧ (d.buf = none → b = Buf.make initialBufSize) := by
  cases hb : d.buf with
  | none =>
    exact ⟨Buf.make initialBufSize, by simp [ensureBuf, ensureProto, hb],
      bufOK_make _ (Nat.le_refl _), by simp, by simp⟩
  | some b0 =>
    exact ⟨b0, by simp [ensureBuf, ensureProto, hb], h b0 hb, by simp, by simp⟩

/-- The buffer adjustment of `Decode` never panics on a buffer that satisfies the
invariant, keeps the invariant, and leaves room for the body and the four bytes after it. -/
theorem resizeBuf_ok (b : Buf) (msgLen : Nat) (h : bufOK b) :
    ∃ b1, resizeBuf b msgLen = some b1 ∧ bufOK b1 ∧ msgLen + encodeBinaryLen ≤ b1.cap := by
  obtain ⟨h1, h2⟩ := h
  unfold resizeBuf
  by_cases hlt : b.len < msgLen + encodeBinaryLen
  · refine ⟨Buf.make (msgLen + encodeBinaryLen), by simp [hlt], bufOK_make _ (by omega), ?_⟩
    simp [Buf.make, Buf.cap]
  · by_cases hle : msgLen ≤ initialBufSize
    · have hcap : initialBufSize ≤ b.cap := by omega
      refine ⟨{ b with len := initialBufSize }, by simp [hlt, hle, hcap], ?_, ?_⟩
      · exact ⟨Nat.le_refl _, hcap⟩
      · show msgLen + encodeBinaryLen ≤ b.cap
        omega
    · have hcap : msgLen + encodeBinaryLen ≤ b.cap := by omega
      refine ⟨{ b with len := msgLen + encodeBinaryLen }, by simp [hlt, hle, hcap], ?_, hcap⟩
      exact ⟨by show initialBufSize ≤ msgLen + encodeBinaryLen; omega, hcap⟩

/-- One successful `ReadFull` makes `readRecord` succeed at its first attempt: the bytes
are stored from `offset` on and `offset` is set back to 0. -/
theorem readRecord_ok (d : decoder) (s s1 : Stream) (size : Nat) (b : Buf) (bs : List Nat)
    (hb : d.buf = some b) (hoff : d.offset ≤ size) (hcap : size ≤ b.cap)
    (hread : ReadFull s (size - d.offset) = (bs, none, s1)) :
    readRecord d s size =
      (ReadResult.ok,
        { d with buf := some { b with data := writeAt b.data d.offset bs }, offset := 0 }, s1) := by
  have hfuel : maxDecodeRetry = 19999 + 1 := rfl
  unfold readRecord
  rw [hfuel]
  simp only [readRecordLoop, hb, hoff, hcap, and_self, if_true, hread]

/-! ## Steps of `Decode` on streams whose reads do not fail -/

/-- Reading the size header from a decoder at a frame boundary: the next four bytes are
consumed and returned as a big-endian number. -/
theorem decodeSizeHeader_ok (d : decoder) (b : Buf) (s : Stream) (hb : d.buf = some b)
    (hoff : d.offset = 0) (hcap : encodeBinaryLen ≤ b.cap) (hfree : errorFree s = true)
    (hlen : 4 ≤ (streamBytes s).length) :
    ∃ s1, decodeSizeHeader d s =
        (some (Except.ok (be32 ((streamBytes s).take 4))),
          { d with buf := some { b with data := writeAt b.data 0 ((streamBytes s).take 4) },
                   offset := 0 }, s1) ∧
      errorFree s1 = true ∧ streamBytes s1 = (streamBytes s).drop 4 := by
  obtain ⟨s1, h1, h2, h3⟩ := ReadFull_enough s 4 hfree hlen
  refine ⟨s1, ?_, h2, h3⟩
  have hread : ReadFull s (encodeBinaryLen - d.offset) = ((streamBytes s).take 4, none, s1) := by
    rw [hoff]; exact h1
  have hrr := readRecord_ok d s s1 encodeBinaryLen b _ hb (by omega) hcap hread
  have hl4 : ((streamBytes s).take 4).length = 4 := by
    rw [List.length_take]; omega
  have hcap1 : encodeBinaryLen ≤
      (writeAt b.data 0 ((streamBytes s).take 4)).length := by
    rw [writeAt_length _ _ _ (by unfold Buf.cap encodeBinaryLen at hcap; omega)]
    exact hcap
  have htake : (writeAt b.data 0 ((streamBytes s).take 4)).take encodeBinaryLen =
      (streamBytes s).take 4 := by
    rw [take_writeAt_zero _ _ _ (by unfold encodeBinaryLen; omega)]
    exact List.take_of_length_le (by unfold encodeBinaryLen; omega)
  unfold decodeSizeHeader
  rw [hrr, hoff]
  simp only [Buf.cap, hcap1, if_true, htake]

/-- First half of `Decode` at a frame boundary, for a header that can be read: a length
above `maxMsgLen` is refused on the spot; any other length adjusts the buffer and goes on
to `decodeLogEntry`. -/
theorem Decode_header (unm : LogEntry → List Nat → Option LogEntry) (d : decoder) (s : Stream)
    (hnext : d.nextMsgLen = 0) (hoff : d.offset = 0) (hbuf : ∀ b, d.buf = some b → bufOK b)
    (hfree : errorFree s = true) (hlen : 4 ≤ (streamBytes s).length) :
    ∃ (b : Buf) (s1 : Stream),
      (ensureBuf (ensureProto d)).buf = some b ∧ bufOK b ∧
      errorFree s1 = true ∧ streamBytes s1 = (streamBytes s).drop 4 ∧
      (maxMsgLen < be32 ((streamBytes s).take 4) →
        Decode unm d s =
          (DecodeResult.err (DecodeErr.tooLarge (be32 ((streamBytes s).take 4))),
            { ensureBuf (ensureProto d) with
                buf := some { b with data := writeAt b.data 0 ((streamBytes s).take 4) },
                offset := 0 }, s1)) ∧
      (be32 ((streamBytes s).take 4) ≤ maxMsgLen →
        ∃ b1, bufOK b1 ∧ be32 ((streamBytes s).take 4) + encodeBinaryLen ≤ b1.cap ∧
          Decode unm d s =
            decodeLogEntry unm
              { ensureBuf (ensureProto d) with
                  buf := some b1, offset := 0,
                  nextMsgLen := be32 ((streamBytes s).take 4) } s1) := by
  obtain ⟨b, hb, hok, _, _⟩ := ensure_buf d hbuf
  have hcap : encodeBinaryLen ≤ b.cap := by
    have h1 := hok.1
    have h2 := hok.2
    unfold initialBufSize at h1
    unfold encodeBinaryLen
    omega
  obtain ⟨s1, hH, hf1, hb1⟩ :=
    decodeSizeHeader_ok (ensureBuf (ensureProto d)) b s hb hoff hcap hfree hlen
  have hl4 : ((streamBytes s).take 4).length = 4 := by
    rw [List.length_take]; omega
  have hwl : (writeAt b.data 0 ((streamBytes s).take 4)).length = b.data.length :=
    writeAt_length _ _ _ (by unfold Buf.cap encodeBinaryLen at hcap; omega)
  have hok1 : bufOK { b with data := writeAt b.data 0 ((streamBytes s).take 4) } := by
    refine ⟨hok.1, ?_⟩
    show b.len ≤ (writeAt b.data 0 ((streamBytes s).take 4)).length
    rw [hwl]; exact hok.2
  refine ⟨b, s1, hb, hok, hf1, hb1, ?_, ?_⟩
  · intro hbig
    unfold Decode
    simp only [ensure_nextMsgLen, hnext, if_true, hH, hbig]
  · intro hsmall
    obtain ⟨b1, hr, hok2, hcap2⟩ := resizeBuf_ok _ (be32 ((streamBytes s).take 4)) hok1
    refine ⟨b1, hok2, hcap2, ?_⟩
    have hnb : ¬ maxMsgLen < be32 ((streamBytes s).take 4) := by omega
    unfold Decode
    simp only [ensure_nextMsgLen, hnext, if_true, hH, hnb, if_false, hr]

/-- Second half of `Decode`: with the body and the four bytes after it on the stream,
`decodeLogEntry` reads `msgLen + 4` bytes, unmarshals the first `msgLen` of them and
returns the message of the record. -/
theorem decodeLogEntry_ok (unm : LogEntry → List Nat → Option LogEntry) (d : decoder) (b : Buf)
    (s : Stream) (r : LogEntry) (hb : d.buf = some b) (hoff : d.offset = 0)
    (hp : d.proto = some zeroLogEntry) (hcap : d.nextMsgLen + encodeBinaryLen ≤ b.cap)
    (hfree : errorFree s = true)
    (hlen : d.nextMsgLen + encodeBinaryLen ≤ (streamBytes s).length)
    (hunm : unm zeroLogEntry ((streamBytes s).take d.nextMsgLen) = some r) :
    ∃ s1, decodeLogEntry unm d s =
        (DecodeResult.ok (entryMessage r),
          { d with
              buf := some { b with
                data := writeAt b.data 0 ((streamBytes s).take (d.nextMsgLen + encodeBinaryLen)) },
              offset := 0, nextMsgLen := 0, proto := some r }, s1) ∧
      errorFree s1 = true ∧
      streamBytes s1 = (streamBytes s).drop (d.nextMsgLen + encodeBinaryLen) := by
  obtain ⟨s1, h1, h2, h3⟩ := ReadFull_enough s (d.nextMsgLen + encodeBinaryLen) hfree hlen
  refine ⟨s1, ?_, h2, h3⟩
  have hread : ReadFull s (d.nextMsgLen + encodeBinaryLen - d.offset) =
      ((streamBytes s).take (d.nextMsgLen + encodeBinaryLen), none, s1) := by
    rw [hoff]; exact h1
  have hrr := readRecord_ok d s s1 (d.nextMsgLen + encodeBinaryLen) b _ hb (by omega) hcap hread
  have hlt : ((streamBytes s).take (d.nextMsgLen + encodeBinaryLen)).length =
      d.nextMsgLen + encodeBinaryLen := by
    rw [List.length_take]; omega
  have hwl : (writeAt b.data 0 ((streamBytes s).take (d.nextMsgLen + encodeBinaryLen))).length =
      b.data.length :=
    writeAt_length _ _ _ (by unfold Buf.cap at hcap; omega)
  have hcap1 : d.nextMsgLen ≤
      (writeAt b.data 0 ((streamBytes s).take (d.nextMsgLen + encodeBinaryLen))).length := by
    rw [hwl]; unfold Buf.cap at hcap; omega
  have htake : (writeAt b.data 0 ((streamBytes s).take (d.nextMsgLen + encodeBinaryLen))).take
      d.nextMsgLen = (streamBytes s).take d.nextMsgLen := by
    rw [take_writeAt_zero _ _ _ (by omega), List.take_take]
    congr 1
    omega
  unfold decodeLogEntry
  simp only [hrr, hoff, hp, Buf.cap, hcap1, if_true, htake, hunm]

/-- Second half of `Decode` on a stream that ends before `msgLen + 4` bytes: the read of
the entry fails with end-of-stream, after the retry that follows a short read. -/
theorem decodeLogEntry_short (unm : LogEntry → List Nat → Option LogEntry) (d : decoder)
    (b : Buf) (s : Stream) (hb : d.buf = some b) (hoff : d.offset = 0)
    (hcap : d.nextMsgLen + encodeBinaryLen ≤ b.cap) (hfree : errorFree s = true)
    (hlen : (streamBytes s).length < d.nextMsgLen + encodeBinaryLen) :
    decodeLogEntry unm d s =
      (DecodeResult.err (DecodeErr.logEntry IOErr.EOF d.nextMsgLen),
        { d with buf := some { b with data := writeAt b.data 0 (streamBytes s) },
                 offset := (streamBytes s).length }, []) := by
  have hshort := ReadFull_short s (d.nextMsgLen + encodeBinaryLen) hfree hlen
  have hfuel : maxDecodeRetry = 19998 + 1 + 1 := rfl
  have hcapd : d.nextMsgLen + encodeBinaryLen ≤ b.data.length := hcap
  have hwl : (writeAt b.data 0 (streamBytes s)).length = b.data.length :=
    writeAt_length _ _ _ (by omega)
  unfold decodeLogEntry readRecord
  rw [hfuel]
  by_cases h0 : (streamBytes s).length = 0
  · have hnil : streamBytes s = [] := List.length_eq_zero.mp h0
    simp [readRecordLoop, hb, hoff, Buf.cap, hcapd, hshort, hnil, writeAt]
  · have hpos : 0 < d.nextMsgLen + encodeBinaryLen - (streamBytes s).length := by omega
    obtain ⟨k, hk⟩ : ∃ k, d.nextMsgLen + encodeBinaryLen - (streamBytes s).length = k + 1 :=
      ⟨d.nextMsgLen + encodeBinaryLen - (streamBytes s).length - 1, by omega⟩
    have hsecond : ReadFull [] (d.nextMsgLen + encodeBinaryLen - (streamBytes s).length) =
        ([], some IOErr.EOF, []) := by
      rw [hk]; simp [ReadFull, readLoop]
    have hle : (streamBytes s).length ≤ d.nextMsgLen + encodeBinaryLen := by omega
    have hc2 : d.nextMsgLen + encodeBinaryLen ≤
        (streamBytes s).length + (b.data.length - (streamBytes s).length) := by omega
    simp [readRecordLoop, hb, hoff, Buf.cap, hcapd, hshort, h0, hle, hsecond, writeAt, hc2]

theorem take_four_header (n : Nat) (tail : List Nat) :
    (putBE32 n ++ tail).take 4 = putBE32 n := by
  have h : (putBE32 n).length = 4 := rfl
  rw [List.take_append_of_le_length (by omega)]
  exact List.take_of_length_le (by omega)

theorem drop_four_header (n : Nat) (tail : List Nat) :
    (putBE32 n ++ tail).drop 4 = tail := by
  have h : (putBE32 n).length = 4 := rfl
  rw [List.drop_append_eq_append_drop, List.drop_of_length_le (by omega)]
  simp [h]

/-- `Decode` at a frame boundary on a stream that continues with a header, the body it
announces, and four more bytes: the message of the record is returned, the decoder is at a
frame boundary again, and the stream stands right after those `4 + L + 4` bytes. -/
theorem Decode_frame (unm : LogEntry → List Nat → Option LogEntry) (d : decoder) (s : Stream)
    (body trailer rest : List Nat) (r : LogEntry)
    (hnext : d.nextMsgLen = 0) (hoff : d.offset = 0) (hbuf : ∀ b, d.buf = some b → bufOK b)
    (hfree : errorFree s = true)
    (hs : streamBytes s = putBE32 body.length ++ (body ++ (trailer ++ rest)))
    (hL : body.length ≤ maxMsgLen) (ht : trailer.length = encodeBinaryLen)
    (hunm : unm zeroLogEntry body = some r) :
    ∃ d1 s1, Decode unm d s = (DecodeResult.ok (entryMessage r), d1, s1) ∧
      errorFree s1 = true ∧ streamBytes s1 = rest ∧
      d1.nextMsgLen = 0 ∧ d1.offset = 0 ∧ d1.rdr = d.rdr ∧ (∀ b, d1.buf = some b → bufOK b) := by
  have hlen : 4 ≤ (streamBytes s).length := by
    rw [hs, List.length_append, putBE32_length]; omega
  obtain ⟨b, s1, _, _, hf1, hb1, _, hsmall⟩ := Decode_header unm d s hnext hoff hbuf hfree hlen
  have hmax : maxMsgLen < 4294967296 := by unfold maxMsgLen; omega
  have hbe : be32 ((streamBytes s).take 4) = body.length := by
    rw [hs, take_four_header, ← List.append_nil (putBE32 body.length),
      be32_putBE32 _ _ (by omega)]
  rw [hbe] at hsmall
  obtain ⟨b1, hok1, hcap1, hdec⟩ := hsmall hL
  rw [hs, drop_four_header] at hb1
  have hlen1 : body.length + encodeBinaryLen ≤ (streamBytes s1).length := by
    rw [hb1]; simp only [List.length_append]; omega
  have htake : (streamBytes s1).take body.length = body := by
    rw [hb1, List.take_append_of_le_length (Nat.le_refl _)]
    exact List.take_of_length_le (Nat.le_refl _)
  obtain ⟨s2, hentry, hf2, hb2⟩ :=
    decodeLogEntry_ok unm
      { ensureBuf (ensureProto d) with buf := some b1, offset := 0, nextMsgLen := body.length }
      b1 s1 r rfl rfl (ensure_proto d) hcap1 hf1 hlen1 (by rw [htake]; exact hunm)
  refine ⟨_, s2, hdec.trans hentry, hf2, ?_, rfl, rfl, rfl, ?_⟩
  · rw [hb2, hb1]
    show (body ++ (trailer ++ rest)).drop (body.length + encodeBinaryLen) = rest
    rw [← List.append_assoc, List.drop_append_eq_append_drop,
      List.drop_of_length_le (by simp only [List.length_append]; omega)]
    simp [ht]
  · intro b2 hb2eq
    have hcapd : body.length + encodeBinaryLen ≤ b1.data.length := hcap1
    have hlt : ((streamBytes s1).take (body.length + encodeBinaryLen)).length =
        body.length + encodeBinaryLen := by
      rw [List.length_take]; omega
    have hwl := writeAt_length b1.data
      ((streamBytes s1).take (body.length + encodeBinaryLen)) 0 (by omega)
    simp only [Option.some.injEq] at hb2eq
    subst hb2eq
    exact ⟨hok1.1, by show b1.len ≤ (writeAt _ _ _).length; rw [hwl]; exact hok1.2⟩

/-- `Decode` at a frame boundary on a stream that ends right after the body, without the
four bytes that `decodeLogEntry` reads after it: the call fails with end-of-stream. -/
theorem Decode_missing_trailer (unm : LogEntry → List Nat → Option LogEntry) (d : decoder)
    (s : Stream) (body : List Nat)
    (hnext : d.nextMsgLen = 0) (hoff : d.offset = 0) (hbuf : ∀ b, d.buf = some b → bufOK b)
    (hfree : errorFree s = true) (hs : streamBytes s = putBE32 body.length ++ body)
    (hL : body.length ≤ maxMsgLen) :
    (Decode unm d s).1 = DecodeResult.err (DecodeErr.logEntry IOErr.EOF body.length) := by
  have hlen : 4 ≤ (streamBytes s).length := by
    rw [hs, List.length_append, putBE32_length]; omega
  obtain ⟨b, s1, _, _, hf1, hb1, _, hsmall⟩ := Decode_header unm d s hnext hoff hbuf hfree hlen
  have hmax : maxMsgLen < 4294967296 := by unfold maxMsgLen; omega
  have hbe : be32 ((streamBytes s).take 4) = body.length := by
    rw [hs, take_four_header, ← List.append_nil (putBE32 body.length),
      be32_putBE32 _ _ (by omega)]
  rw [hbe] at hsmall
  obtain ⟨b1, hok1, hcap1, hdec⟩ := hsmall hL
  rw [hs, drop_four_header] at hb1
  have hshort := decodeLogEntry_short unm
    { ensureBuf (ensureProto d) with buf := some b1, offset := 0, nextMsgLen := body.length }
    b1 s1 rfl rfl hcap1 hf1 (by rw [hb1]; show body.length < body.length + encodeBinaryLen
                                unfold encodeBinaryLen; omega)
  rw [hdec, hshort]

/-- `decodeLogEntry` has no path that reports a too-large length. -/
theorem decodeLogEntry_ne_tooLarge (unm : LogEntry → List Nat → Option LogEntry) (d : decoder)
    (s : Stream) (n : Nat) :
    (decodeLogEntry unm d s).1 ≠ DecodeResult.err (DecodeErr.tooLarge n) := by
  intro h
  simp only [decodeLogEntry] at h
  split at h
  · simp at h
  · simp at h
  · split at h
    · split at h
      · split at h <;> simp at h
      · simp at h
    · simp at h

/-! ## C1: wire-format round trip of the decoder -/

/-- C1 (counterexample): the record of scenario A serializes to 18 bytes; a fresh decoder
bound to a stream that holds exactly the 4-byte header and those 18 bytes, then the
lasting end-of-stream, does not return the message from `Decode`: the call fails with
end-of-stream while reading the entry, because `decodeLogEntry` reads `L + 4` bytes. -/
theorem Decode_bare_frame_fails :
    Proto.Marshal helloEntry =
      [10, 6, 115, 116, 100, 111, 117, 116, 16, 232, 7, 26, 5, 104, 101, 108, 108, 111] ∧
    Proto.Unmarshal zeroLogEntry (Proto.Marshal helloEntry) = some helloEntry ∧
    (Proto.Marshal helloEntry).length ≤ maxMsgLen ∧
    (Decode Proto.Unmarshal (decodeFunc 0)
        [Chunk.data (putBE32 (Proto.Marshal helloEntry).length ++ Proto.Marshal helloEntry)]).1 =
      DecodeResult.err (DecodeErr.logEntry IOErr.EOF 18) := by
  refine ⟨by decide, by decide, by decide, ?_⟩
  exact Decode_missing_trailer Proto.Unmarshal (decodeFunc 0) _ (Proto.Marshal helloEntry)
    rfl rfl (by intro b hb; cases hb) (by decide) (by simp [streamBytes]) (by decide)

/-- C1 (amended): for every record `r` and every serialized body of it (bytes that
`Unmarshal` turns into `r`) of length `L ≤ maxMsgLen`, a fresh decoder bound to a stream
that holds exactly `BE32(L) ++ body ++ trailer` with four trailing bytes, in reads of any
sizes and then the lasting end-of-stream, returns from one `Decode` call, without error,
the message of `r` (`entryMessage r`), having read all `4 + L + 4` bytes; the decoder is
left with offset 0 and no pending length. -/
theorem Decode_round_trip (unm : LogEntry → List Nat → Option LogEntry) (rdr : Nat) (s : Stream)
    (body trailer : List Nat) (r : LogEntry)
    (hfree : errorFree s = true)
    (hs : streamBytes s = putBE32 body.length ++ (body ++ trailer))
    (hL : body.length ≤ maxMsgLen) (ht : trailer.length = encodeBinaryLen)
    (hunm : unm zeroLogEntry body = some r) :
    ∃ d1 s1, Decode unm (decodeFunc rdr) s = (DecodeResult.ok (entryMessage r), d1, s1) ∧
      (streamBytes s).length = 4 + body.length + 4 ∧ streamBytes s1 = [] ∧
      errorFree s1 = true ∧ d1.offset = 0 ∧ d1.nextMsgLen = 0 := by
  obtain ⟨d1, s1, hdec, hf1, hb1, hn1, ho1, _, _⟩ :=
    Decode_frame unm (decodeFunc rdr) s body trailer [] r rfl rfl (by intro b hb; cases hb)
      hfree (by rw [hs, List.append_nil]) hL ht hunm
  refine ⟨d1, s1, hdec, ?_, hb1, hf1, ho1, hn1⟩
  rw [hs]
  simp only [List.length_append, putBE32_length, ht, encodeBinaryLen]
  omega

/-- C1 (witness): the amended round trip at the record of scenario A, its 18-byte body and
the trailer `[0, 0, 0, 18]`, delivered in one read. -/
theorem Decode_round_trip_witness :
    ∃ d1 s1,
      Decode Proto.Unmarshal (decodeFunc 0)
          [Chunk.data (putBE32 18 ++ (Proto.Marshal helloEntry ++ [0, 0, 0, 18]))] =
        (DecodeResult.ok (entryMessage helloEntry), d1, s1) ∧
      (streamBytes
          [Chunk.data (putBE32 18 ++ (Proto.Marshal helloEntry ++ [0, 0, 0, 18]))]).length =
        4 + (Proto.Marshal helloEntry).length + 4 ∧
      streamBytes s1 = [] ∧ errorFree s1 = true ∧ d1.offset = 0 ∧ d1.nextMsgLen = 0 :=
  Decode_round_trip Proto.Unmarshal 0
    [Chunk.data (putBE32 18 ++ (Proto.Marshal helloEntry ++ [0, 0, 0, 18]))]
    (Proto.Marshal helloEntry) [0, 0, 0, 18] helloEntry (by decide) (by decide) (by decide)
    (by decide) (by decide)

/-! ## C2: translation of a record into a message -/

/-- C2 (counterexample): the partial metadata and the terminator of the message follow the
`partial` flag of the record, not the presence of `partial_log_metadata`. A record with the
flag set and no metadata yields a message with (zero) partial metadata and no appended line
feed; a record with metadata and the flag unset yields a message without partial metadata
and with an appended line feed. -/
theorem entryMessage_follows_flag :
    (flagOnlyEntry.PartialLogMetadata = none ∧
      (entryMessage flagOnlyEntry).PLogMetaData = some { Last := false, ID := "", Ordinal := 0 } ∧
      (entryMessage flagOnlyEntry).Line = flagOnlyEntry.Line) ∧
    (metadataOnlyEntry.PartialLogMetadata = some { Last := true, Id := "abc", Ordinal := 1 } ∧
      (entryMessage metadataOnlyEntry).PLogMetaData = none ∧
      (entryMessage metadataOnlyEntry).Line = metadataOnlyEntry.Line ++ [10]) := by
  decide

/-- C2 (amended): for every deserialized record, the message of `decodeLogEntry` has the
record's source and `time_nano` as timestamp; when the record's `partial` flag is set it
carries partial metadata whose `{id, ordinal, last}` are those of `partial_log_metadata`
(zero values when that is absent) and its line is the record's line unchanged; when the
flag is not set it carries no partial metadata and its line is the record's line followed
by exactly one line feed. -/
theorem entryMessage_translation (r : LogEntry) :
    (entryMessage r).Source = r.Source ∧
    (entryMessage r).Timestamp = r.TimeNano ∧
    (entryMessage r).PLogMetaData =
      (if r.Partial then
        some (match r.PartialLogMetadata with
              | some md => { Last := md.Last, ID := md.Id, Ordinal := md.Ordinal }
              | none => { Last := false, ID := "", Ordinal := 0 })
       else none) ∧
    (entryMessage r).Line = (if r.Partial then r.Line else r.Line ++ [10]) := by
  cases hp : r.Partial <;> cases hm : r.PartialLogMetadata <;>
    simp [entryMessage, protoToMessage, getMetadata, hp, hm]

/-! ## C3: maximum frame size -/

/-- C3: for a decoder at a frame boundary (no pending length, offset 0, buffer nil or
satisfying the buffer invariant) and a stream that delivers a header, `Decode` reports a
too-large length exactly when the header value `L` exceeds `maxMsgLen`, so `L = maxMsgLen`
is not refused; and when `L > maxMsgLen` the call returns that error and no message with
the stream standing right after the four header bytes (no body byte read), the buffer of
the same length and capacity as on entry (`initialBufSize` when it was nil), the pending
length still 0 and the offset 0. -/
theorem Decode_maxMsgLen (unm : LogEntry → List Nat → Option LogEntry) (d : decoder) (s : Stream)
    (hnext : d.nextMsgLen = 0) (hoff : d.offset = 0) (hbuf : ∀ b, d.buf = some b → bufOK b)
    (hfree : errorFree s = true) (hlen : 4 ≤ (streamBytes s).length) :
    ((∃ n, (Decode unm d s).1 = DecodeResult.err (DecodeErr.tooLarge n)) ↔
      maxMsgLen < be32 ((streamBytes s).take 4)) ∧
    (maxMsgLen < be32 ((streamBytes s).take 4) →
      ∃ d1 s1 b1,
        Decode unm d s =
          (DecodeResult.err (DecodeErr.tooLarge (be32 ((streamBytes s).take 4))), d1, s1) ∧
        streamBytes s1 = (streamBytes s).drop 4 ∧
        d1.nextMsgLen = 0 ∧ d1.offset = 0 ∧ d1.buf = some b1 ∧
        (∀ b0, d.buf = some b0 → b1.len = b0.len ∧ b1.cap = b0.cap) ∧
        (d.buf = none → b1.len = initialBufSize ∧ b1.cap = initialBufSize)) := by
  obtain ⟨b, s1, hb, hok, hf1, hb1, hbig, hsmall⟩ :=
    Decode_header unm d s hnext hoff hbuf hfree hlen
  obtain ⟨b', hb', _, hsame, hfresh⟩ := ensure_buf d hbuf
  have hbb : b' = b := by
    rw [hb] at hb'; exact (Option.some.inj hb').symm
  subst hbb
  have hl4 : ((streamBytes s).take 4).length = 4 := by
    rw [List.length_take]; omega
  have hcapd : 4 ≤ b'.data.length := by
    have h1 := hok.1
    have h2 : b'.len ≤ b'.data.length := hok.2
    unfold initialBufSize at h1
    omega
  have hwl : (writeAt b'.data 0 ((streamBytes s).take 4)).length = b'.data.length :=
    writeAt_length _ _ _ (by omega)
  constructor
  · constructor
    · rintro ⟨n, hn⟩
      by_contra hnot
      obtain ⟨b1, _, _, hdec⟩ := hsmall (by omega)
      rw [hdec] at hn
      exact decodeLogEntry_ne_tooLarge unm _ _ n hn
    · intro h
      exact ⟨_, by rw [hbig h]⟩
  · intro h
    refine ⟨_, s1, { b' with data := writeAt b'.data 0 ((streamBytes s).take 4) }, hbig h, hb1,
      hnext, rfl, rfl, ?_, ?_⟩
    · intro b0 h0
      have := hsame b0 h0
      subst this
      exact ⟨rfl, hwl⟩
    · intro h0
      have := hfresh h0
      subst this
      refine ⟨rfl, ?_⟩
      show (writeAt _ 0 _).length = initialBufSize
      rw [hwl]
      simp [Buf.make]

/-- C3 (witness): a fresh decoder on a stream whose header declares 2,000,000 bytes fails
without reading past the header, and one whose header declares exactly 1,000,000 bytes is
not refused as too large. -/
theorem Decode_maxMsgLen_witness :
    (∃ d1 s1 b1,
        Decode Proto.Unmarshal (decodeFunc 0) [Chunk.data [0, 30, 132, 128, 1, 2, 3]] =
          (DecodeResult.err (DecodeErr.tooLarge
            (be32 ((streamBytes [Chunk.data [0, 30, 132, 128, 1, 2, 3]]).take 4))), d1, s1) ∧
        streamBytes s1 = (streamBytes [Chunk.data [0, 30, 132, 128, 1, 2, 3]]).drop 4 ∧
        d1.nextMsgLen = 0 ∧ d1.offset = 0 ∧ d1.buf = some b1 ∧
        (∀ b0, (decodeFunc 0).buf = some b0 → b1.len = b0.len ∧ b1.cap = b0.cap) ∧
        ((decodeFunc 0).buf = none → b1.len = initialBufSize ∧ b1.cap = initialBufSize)) ∧
    ¬ (∃ n, (Decode Proto.Unmarshal (decodeFunc 0) [Chunk.data [0, 15, 66, 64, 1, 2, 3]]).1 =
        DecodeResult.err (DecodeErr.tooLarge n)) :=
  ⟨(Decode_maxMsgLen Proto.Unmarshal (decodeFunc 0) [Chunk.data [0, 30, 132, 128, 1, 2, 3]]
      rfl rfl (by intro b hb; cases hb) (by decide) (by decide)).2 (by decide),
   fun h => absurd
    ((Decode_maxMsgLen Proto.Unmarshal (decodeFunc 0) [Chunk.data [0, 15, 66, 64, 1, 2, 3]]
      rfl rfl (by intro b hb; cases hb) (by decide) (by decide)).1.mp h) (by decide)⟩

/-! ## C10: what follows a too-large frame -/

/-- After a `Decode` that fails on a too-large header the decoder stands at a frame boundary
right after the header, and the next `Decode` starts with a fresh header. -/
theorem Decode_tooLarge_step (unm : LogEntry → List Nat → Option LogEntry) (d : decoder)
    (s : Stream) (hnext : d.nextMsgLen = 0) (hoff : d.offset = 0)
    (hbuf : ∀ b, d.buf = some b → bufOK b) (hfree : errorFree s = true)
    (hlen : 4 ≤ (streamBytes s).length)
    (hbig : maxMsgLen < be32 ((streamBytes s).take 4)) :
    ∃ d1 s1,
      Decode unm d s =
        (DecodeResult.err (DecodeErr.tooLarge (be32 ((streamBytes s).take 4))), d1, s1) ∧
      streamBytes s1 = (streamBytes s).drop 4 ∧
      d1.nextMsgLen = 0 ∧ d1.offset = 0 ∧ d1.rdr = d.rdr ∧ (∀ b, d1.buf = some b → bufOK b) ∧
      (4 ≤ (streamBytes s1).length → maxMsgLen < be32 ((streamBytes s1).take 4) →
        (Decode unm d1 s1).1 =
          DecodeResult.err (DecodeErr.tooLarge (be32 ((streamBytes s1).take 4)))) ∧
      (∀ (body trailer rest : List Nat) (r : LogEntry),
        streamBytes s1 = putBE32 body.length ++ (body ++ (trailer ++ rest)) →
        body.length ≤ maxMsgLen → trailer.length = encodeBinaryLen →
        unm zeroLogEntry body = some r →
        ∃ d2 s2, Decode unm d1 s1 = (DecodeResult.ok (entryMessage r), d2, s2) ∧
          streamBytes s2 = rest) := by
  obtain ⟨b, s1, hb, hok, hf1, hb1, hdec, _⟩ := Decode_header unm d s hnext hoff hbuf hfree hlen
  have hcapd : 4 ≤ b.data.length := by
    have h1 := hok.1
    have h2 : b.len ≤ b.data.length := hok.2
    unfold initialBufSize at h1
    omega
  have hwl : (writeAt b.data 0 ((streamBytes s).take 4)).length = b.data.length :=
    writeAt_length _ _ _ (by simp only [List.length_take]; omega)
  obtain ⟨d1, hd1⟩ : ∃ d1 : decoder, d1 = { ensureBuf (ensureProto d) with
      buf := some { b with data := writeAt b.data 0 ((streamBytes s).take 4) },
      offset := 0 } := ⟨_, rfl⟩
  have hn1 : d1.nextMsgLen = 0 := by rw [hd1]; exact hnext
  have ho1 : d1.offset = 0 := by rw [hd1]
  have hr1 : d1.rdr = d.rdr := by rw [hd1]; rfl
  have hbuf1 : ∀ b2, d1.buf = some b2 → bufOK b2 := by
    intro b2 hb2
    rw [hd1] at hb2
    simp only [Option.some.injEq] at hb2
    subst hb2
    exact ⟨hok.1, by show b.len ≤ (writeAt _ _ _).length; rw [hwl]; exact hok.2⟩
  have hdec1 : Decode unm d s =
      (DecodeResult.err (DecodeErr.tooLarge (be32 ((streamBytes s).take 4))), d1, s1) := by
    rw [hd1]; exact hdec hbig
  refine ⟨d1, s1, hdec1, hb1, hn1, ho1, hr1, hbuf1, ?_, ?_⟩
  · intro hlen1 hbig1
    obtain ⟨_, s2, _, _, _, _, hdec2, _⟩ := Decode_header unm d1 s1 hn1 ho1 hbuf1 hf1 hlen1
    rw [hdec2 hbig1]
  · intro body trailer rest r hs1 hL ht hunm
    obtain ⟨d2, s2, hdec2, _, hrest, _⟩ :=
      Decode_frame unm d1 s1 body trailer rest r hn1 ho1 hbuf1 hf1 hs1 hL ht hunm
    exact ⟨d2, s2, hdec2, hrest⟩


/-- C10 (counterexample): a stream that holds an oversized header (2,000,000) followed by a
well-formed frame of the record of scenario A and four more bytes. The first `Decode` of a
fresh decoder fails because the length is too large; the next `Decode` on the same decoder,
without `Reset`, succeeds and returns the message of that record. -/
theorem Decode_after_tooLarge_succeeds :
    ∃ d1 s1 d2 s2,
      Decode Proto.Unmarshal (decodeFunc 0)
          [Chunk.data ([0, 30, 132, 128] ++
            (putBE32 18 ++ (Proto.Marshal helloEntry ++ [0, 0, 0, 18])))] =
        (DecodeResult.err (DecodeErr.tooLarge 2000000), d1, s1) ∧
      Decode Proto.Unmarshal d1 s1 = (DecodeResult.ok (entryMessage helloEntry), d2, s2) := by
  obtain ⟨d1, s1, hdec, hb1, _, _, _, _, _, hnextframe⟩ :=
    Decode_tooLarge_step Proto.Unmarshal (decodeFunc 0)
      [Chunk.data ([0, 30, 132, 128] ++
        (putBE32 18 ++ (Proto.Marshal helloEntry ++ [0, 0, 0, 18])))]
      rfl rfl (by intro b hb; cases hb) (by decide) (by decide) (by decide)
  have hL : be32 ((streamBytes [Chunk.data ([0, 30, 132, 128] ++
      (putBE32 18 ++ (Proto.Marshal helloEntry ++ [0, 0, 0, 18])))]).take 4) = 2000000 := by
    decide
  rw [hL] at hdec
  obtain ⟨d2, s2, hdec2, _⟩ :=
    hnextframe (Proto.Marshal helloEntry) [0, 0, 0, 18] [] helloEntry
      (by rw [hb1]; decide) (by decide) (by decide) (by decide)
  exact ⟨d1, s1, d2, s2, hdec, hdec2⟩

/-- C10 (amended): a `Decode` call that fails because the header length exceeds `maxMsgLen`
leaves the decoder at a frame boundary (offset 0, no pending length, buffer invariant kept,
same reader) with the stream right after the four header bytes, and records nothing about
the failure: a later `Decode` on the same decoder reads the next four bytes as a new
header; it fails again as too large when they declare more than `maxMsgLen`, and it
returns the message of a record when they begin a well-formed frame of it. -/
theorem Decode_tooLarge_then_next (unm : LogEntry → List Nat → Option LogEntry) (d : decoder)
    (s : Stream) (hnext : d.nextMsgLen = 0) (hoff : d.offset = 0)
    (hbuf : ∀ b, d.buf = some b → bufOK b) (hfree : errorFree s = true)
    (hlen : 4 ≤ (streamBytes s).length)
    (hbig : maxMsgLen < be32 ((streamBytes s).take 4)) :
    ∃ d1 s1,
      Decode unm d s =
        (DecodeResult.err (DecodeErr.tooLarge (be32 ((streamBytes s).take 4))), d1, s1) ∧
      streamBytes s1 = (streamBytes s).drop 4 ∧
      d1.nextMsgLen = 0 ∧ d1.offset = 0 ∧ d1.rdr = d.rdr ∧ (∀ b, d1.buf = some b → bufOK b) ∧
      (4 ≤ (streamBytes s1).length → maxMsgLen < be32 ((streamBytes s1).take 4) →
        (Decode unm d1 s1).1 =
          DecodeResult.err (DecodeErr.tooLarge (be32 ((streamBytes s1).take 4)))) ∧
      (∀ (body trailer rest : List Nat) (r : LogEntry),
        streamBytes s1 = putBE32 body.length ++ (body ++ (trailer ++ rest)) →
        body.length ≤ maxMsgLen → trailer.length = encodeBinaryLen →
        unm zeroLogEntry body = some r →
        ∃ d2 s2, Decode unm d1 s1 = (DecodeResult.ok (entryMessage r), d2, s2) ∧
          streamBytes s2 = rest) :=
  Decode_tooLarge_step unm d s hnext hoff hbuf hfree hlen hbig

/-- C10 (witness): the amended statement at a fresh decoder and the stream of the
counterexample, whose first header declares 2,000,000 bytes. -/
theorem Decode_tooLarge_then_next_witness :
    ∃ d1 s1,
      Decode Proto.Unmarshal (decodeFunc 0)
          [Chunk.data ([0, 30, 132, 128] ++
            (putBE32 18 ++ (Proto.Marshal helloEntry ++ [0, 0, 0, 18])))] =
        (DecodeResult.err (DecodeErr.tooLarge (be32 ((streamBytes
          [Chunk.data ([0, 30, 132, 128] ++
            (putBE32 18 ++ (Proto.Marshal helloEntry ++ [0, 0, 0, 18])))]).take 4))), d1, s1) ∧
      streamBytes s1 = (streamBytes
          [Chunk.data ([0, 30, 132, 128] ++
            (putBE32 18 ++ (Proto.Marshal helloEntry ++ [0, 0, 0, 18])))]).drop 4 ∧
      d1.nextMsgLen = 0 ∧ d1.offset = 0 ∧ d1.rdr = (decodeFunc 0).rdr ∧
      (∀ b, d1.buf = some b → bufOK b) ∧
      (4 ≤ (streamBytes s1).length → maxMsgLen < be32 ((streamBytes s1).take 4) →
        (Decode Proto.Unmarshal d1 s1).1 =
          DecodeResult.err (DecodeErr.tooLarge (be32 ((streamBytes s1).take 4)))) ∧
      (∀ (body trailer rest : List Nat) (r : LogEntry),
        streamBytes s1 = putBE32 body.length ++ (body ++ (trailer ++ rest)) →
        body.length ≤ maxMsgLen → trailer.length = encodeBinaryLen →
        Proto.Unmarshal zeroLogEntry body = some r →
        ∃ d2 s2, Decode Proto.Unmarshal d1 s1 = (DecodeResult.ok (entryMessage r), d2, s2) ∧
          streamBytes s2 = rest) :=
  Decode_tooLarge_then_next Proto.Unmarshal (decodeFunc 0)
    [Chunk.data ([0, 30, 132, 128] ++
      (putBE32 18 ++ (Proto.Marshal helloEntry ++ [0, 0, 0, 18])))]
    rfl rfl (by intro b hb; cases hb) (by decide) (by decide) (by decide)

/-! ## The frame reader and the loop of `consumeLog` -/

/-- The loop of `ReadAtLeast` never gives bytes back to the stream, and takes something
from a non-exhausted stream when asked for at least one byte. -/
theorem readLoop_weight (s : Stream) : ∀ (need : Nat) (acc : List Nat),
    streamWeight (readLoop s need acc).2.2 ≤ streamWeight s ∧
    (0 < need → s ≠ [] → streamWeight (readLoop s need acc).2.2 < streamWeight s) := by
  induction s with
  | nil =>
    intro need acc
    cases need <;> simp [readLoop, streamWeight]
  | cons c rest ih =>
    intro need acc
    cases need with
    | zero => simp [readLoop]
    | succ n =>
      cases c with
      | fail e => simp [readLoop, streamWeight]
      | data bs =>
        by_cases hle : bs.length ≤ n + 1
        · have h := (ih (n + 1 - bs.length) (acc ++ bs)).1
          simp only [readLoop, hle, if_true, streamWeight]
          constructor
          · omega
          · intro _ _; omega
        · simp only [readLoop, hle, if_false, streamWeight, List.length_drop]
          constructor
          · omega
          · intro _ _; omega

theorem ReadFull_stream (s : Stream) (k : Nat) : (ReadFull s k).2.2 = (readLoop s k []).2.2 := by
  unfold ReadFull
  rcases readLoop s k [] with ⟨bs, e, s1⟩
  cases e with
  | none => rfl
  | some e =>
    simp only
    split
    · rfl
    · split <;> rfl

theorem ReadFull_weight_le (s : Stream) (k : Nat) :
    streamWeight (ReadFull s k).2.2 ≤ streamWeight s := by
  rw [ReadFull_stream]; exact (readLoop_weight s k []).1

theorem ReadFull_weight_lt (s : Stream) (k : Nat) (hk : 0 < k) (hs : s ≠ []) :
    streamWeight (ReadFull s k).2.2 < streamWeight s := by
  rw [ReadFull_stream]; exact (readLoop_weight s k []).2 hk hs

theorem ReadFull_nil (k : Nat) (hk : 0 < k) : ReadFull [] k = ([], some IOErr.EOF, []) := by
  cases k with
  | zero => omega
  | succ n => simp [ReadFull, readLoop]

/-- The reader after `ReadMsg` is never ahead of the reader before it. -/
theorem ReadMsg_weight_le (unm : LogEntry → List Nat → Option LogEntry) (maxSize : Nat)
    (s : Stream) : streamWeight (ReadMsg unm maxSize s).2 ≤ streamWeight s := by
  have h1 := ReadFull_weight_le s 4
  unfold ReadMsg
  rcases hr : ReadFull s 4 with ⟨lenBuf, e, s1⟩
  rw [hr] at h1
  cases e with
  | some e => exact h1
  | none =>
    simp only
    split
    · exact h1
    · have h2 := ReadFull_weight_le s1 (be32 lenBuf)
      rcases hr2 : ReadFull s1 (be32 lenBuf) with ⟨body, e2, s2⟩
      rw [hr2] at h2
      have h3 : streamWeight s2 ≤ streamWeight s := Nat.le_trans h2 h1
      cases e2 with
      | some e2 => exact h3
      | none =>
        simp only
        split <;> exact h3

/-- Unless `ReadMsg` reports end-of-stream, it has taken something from the stream. -/
theorem ReadMsg_weight_lt (unm : LogEntry → List Nat → Option LogEntry) (maxSize : Nat)
    (s : Stream) (h : (ReadMsg unm maxSize s).1 ≠ Except.error (ReadMsgErr.io IOErr.EOF)) :
    streamWeight (ReadMsg unm maxSize s).2 < streamWeight s := by
  cases s with
  | nil =>
    exfalso
    apply h
    simp [ReadMsg, ReadFull_nil]
  | cons c rest =>
    have h1 := ReadFull_weight_lt (c :: rest) 4 (by omega) (by simp)
    unfold ReadMsg
    rcases hr : ReadFull (c :: rest) 4 with ⟨lenBuf, e, s1⟩
    rw [hr] at h1
    cases e with
    | some e => exact h1
    | none =>
      simp only
      split
      · exact h1
      · have h2 := ReadFull_weight_le s1 (be32 lenBuf)
        rcases hr2 : ReadFull s1 (be32 lenBuf) with ⟨body, e2, s2⟩
        rw [hr2] at h2
        have h3 : streamWeight s2 < streamWeight (c :: rest) := Nat.lt_of_le_of_lt h2 h1
        cases e2 with
        | some e2 => exact h3
        | none =>
          simp only
          split <;> exact h3

/-- With a budget above the weight of the stream the loop of `consumeLog` ends, and a
larger budget changes nothing. -/
theorem consumeLoop_ends (unm : LogEntry → List Nat → Option LogEntry)
    (writeOk : Sink → Message → Bool) : ∀ (fuel : Nat) (s : Stream), streamWeight s < fuel →
    (consumeLoop unm writeOk fuel s).2 ≠ Exit.running ∧
    ∀ fuel1, streamWeight s < fuel1 →
      consumeLoop unm writeOk fuel1 s = consumeLoop unm writeOk fuel s := by
  intro fuel
  induction fuel with
  | zero => intro s h; omega
  | succ n ih =>
    intro s hw
    have step : ∀ s1, streamWeight s1 < streamWeight s →
        (consumeLoop unm writeOk n s1).2 ≠ Exit.running ∧
        ∀ m, streamWeight s < m + 1 →
          consumeLoop unm writeOk m s1 = consumeLoop unm writeOk n s1 := by
      intro s1 hlt
      have h1 := ih s1 (by omega)
      exact ⟨h1.1, fun m hm => h1.2 m (by omega)⟩
    have hlt := ReadMsg_weight_lt unm maxMsgLen s
    constructor
    · simp only [consumeLoop]
      rcases hr : ReadMsg unm maxMsgLen s with ⟨res, s1⟩
      rw [hr] at hlt
      cases res with
      | error e =>
        simp only
        split
        · simp
        · rename_i hne
          exact (step s1 (hlt (by simpa using hne))).1
      | ok buf =>
        have hs1 := step s1 (hlt (by simp))
        simp only
        split
        · simp
        · split
          · split
            · exact hs1.1
            · simp
          · split
            · split
              · exact hs1.1
              · simp
            · exact hs1.1
    · intro fuel1 hf1
      cases fuel1 with
      | zero => omega
      | succ m =>
        simp only [consumeLoop]
        rcases hr : ReadMsg unm maxMsgLen s with ⟨res, s1⟩
        rw [hr] at hlt
        cases res with
        | error e =>
          simp only
          split
          · rfl
          · rename_i hne
            exact (step s1 (hlt (by simpa using hne))).2 m hf1
        | ok buf =>
          have hs1 := (step s1 (hlt (by simp))).2 m hf1
          simp only [hs1]

/-- `consumeLog` always ends: by return or by a panic. -/
theorem consumeLog_ends (unm : LogEntry → List Nat → Option LogEntry)
    (writeOk : Sink → Message → Bool) (s : Stream) :
    (consumeLog unm writeOk s).2 ≠ Exit.running := by
  have h := (consumeLoop_ends unm writeOk (streamWeight s + 1) s (by omega)).1
  unfold consumeLog
  rcases hc : consumeLoop unm writeOk (streamWeight s + 1) s with ⟨evs, exit⟩
  rw [hc] at h
  cases exit <;> simp_all

/-- `ReadMsg` on a stream that continues with a whole frame: the record is returned and the
stream stands right after the frame. -/
theorem ReadMsg_frame (unm : LogEntry → List Nat → Option LogEntry) (maxSize : Nat) (s : Stream)
    (body rest : List Nat) (r : LogEntry) (hfree : errorFree s = true)
    (hs : streamBytes s = frameOf body ++ rest) (hL : body.length ≤ maxSize)
    (h32 : body.length < 4294967296) (hunm : unm zeroLogEntry body = some r) :
    ∃ s1, ReadMsg unm maxSize s = (Except.ok r, s1) ∧ errorFree s1 = true ∧
      streamBytes s1 = rest := by
  have hs1 : streamBytes s = putBE32 body.length ++ (body ++ rest) := by
    rw [hs, frameOf, List.append_assoc]
  have hlen : 4 ≤ (streamBytes s).length := by
    rw [hs1, List.length_append, putBE32_length]; omega
  obtain ⟨sA, hA, hfA, hbA⟩ := ReadFull_enough s 4 hfree hlen
  rw [hs1, take_four_header] at hA
  rw [hs1, drop_four_header] at hbA
  have hbe : be32 (putBE32 body.length) = body.length := by
    have := be32_putBE32 body.length [] h32
    rwa [List.append_nil] at this
  obtain ⟨sB, hB, hfB, hbB⟩ := ReadFull_enough sA body.length hfA
    (by rw [hbA, List.length_append]; omega)
  have htake : (streamBytes sA).take body.length = body := by
    rw [hbA, List.take_append_of_le_length (Nat.le_refl _)]
    exact List.take_of_length_le (Nat.le_refl _)
  have hdrop : (streamBytes sA).drop body.length = rest := by
    rw [hbA, List.drop_append_eq_append_drop, List.drop_of_length_le (Nat.le_refl _)]
    simp
  rw [htake] at hB
  rw [hdrop] at hbB
  refine ⟨sB, ?_, hfB, hbB⟩
  have hnot : ¬ maxSize < body.length := by omega
  simp only [ReadMsg, hA, hbe, hnot, if_false, hB, hunm]

/-- `ReadMsg` on a stream whose next header declares more than `maxSize` bytes: the call
fails with `io.ErrShortBuffer` and the stream stands right after the four header bytes. -/
theorem ReadMsg_tooLarge (unm : LogEntry → List Nat → Option LogEntry) (maxSize : Nat)
    (s : Stream) (hfree : errorFree s = true) (hlen : 4 ≤ (streamBytes s).length)
    (hbig : maxSize < be32 ((streamBytes s).take 4)) :
    ∃ s1, ReadMsg unm maxSize s = (Except.error (ReadMsgErr.io IOErr.ErrShortBuffer), s1) ∧
      errorFree s1 = true ∧ streamBytes s1 = (streamBytes s).drop 4 := by
  obtain ⟨sA, hA, hfA, hbA⟩ := ReadFull_enough s 4 hfree hlen
  exact ⟨sA, by simp only [ReadMsg, hA, hbig, if_true], hfA, hbA⟩

/-- `ReadMsg` on a stream that holds no more bytes reports end-of-stream. -/
theorem ReadMsg_eof (unm : LogEntry → List Nat → Option LogEntry) (maxSize : Nat)
    (s : Stream) (hfree : errorFree s = true) (hs : streamBytes s = []) :
    (ReadMsg unm maxSize s).1 = Except.error (ReadMsgErr.io IOErr.EOF) := by
  have h := ReadFull_short s 4 hfree (by rw [hs]; simp)
  simp only [ReadMsg, h, hs, List.length_nil, if_true]

theorem buildMessage_plain (r : LogEntry) (h : r.PartialLogMetadata = none) :
    buildMessage r = some (plainMessage r) := by
  simp [buildMessage, h, plainMessage]

theorem buildMessage_metadata (r : LogEntry) (md : PartialLogEntryMetadata)
    (h : r.PartialLogMetadata = some md) : buildMessage r = none := by
  simp [buildMessage, h, storeThrough]

/-- An iteration of `consumeLog` whose `ReadMsg` reports end-of-stream closes the stream
and returns. -/
theorem consumeLoop_eof (unm : LogEntry → List Nat → Option LogEntry)
    (writeOk : Sink → Message → Bool) (fuel : Nat) (s : Stream)
    (h : (ReadMsg unm maxMsgLen s).1 = Except.error (ReadMsgErr.io IOErr.EOF)) :
    consumeLoop unm writeOk (fuel + 1) s = ([Event.closeStream], Exit.returned) := by
  rcases hr : ReadMsg unm maxMsgLen s with ⟨res, s1⟩
  rw [hr] at h
  simp only at h
  subst h
  simp only [consumeLoop, hr, if_true]

/-- An iteration of `consumeLog` whose `ReadMsg` fails otherwise writes nothing and goes on
with the rest of the stream. -/
theorem consumeLoop_skip (unm : LogEntry → List Nat → Option LogEntry)
    (writeOk : Sink → Message → Bool) (fuel : Nat) (s s1 : Stream) (e : ReadMsgErr)
    (h : ReadMsg unm maxMsgLen s = (Except.error e, s1)) (he : e ≠ ReadMsgErr.io IOErr.EOF) :
    consumeLoop unm writeOk (fuel + 1) s = consumeLoop unm writeOk fuel s1 := by
  simp only [consumeLoop, h, he, if_false]

/-- An iteration of `consumeLog` on a record without partial metadata: the message is
written to the sink of its tag, or to none when the tag is neither `stdout` nor `stderr`,
and the loop goes on with the next frame unless the write fails. -/
theorem consumeLoop_route (unm : LogEntry → List Nat → Option LogEntry)
    (writeOk : Sink → Message → Bool) (fuel : Nat) (s s1 : Stream) (r : LogEntry)
    (h : ReadMsg unm maxMsgLen s = (Except.ok r, s1)) (hmd : r.PartialLogMetadata = none) :
    consumeLoop unm writeOk (fuel + 1) s =
      if r.Source = "stdout" then
        if writeOk Sink.stdOut (plainMessage r) then
          (Event.write Sink.stdOut (plainMessage r) :: (consumeLoop unm writeOk fuel s1).1,
            (consumeLoop unm writeOk fuel s1).2)
        else ([Event.write Sink.stdOut (plainMessage r)], Exit.panicWrite)
      else if r.Source = "stderr" then
        if writeOk Sink.stdErr (plainMessage r) then
          (Event.write Sink.stdErr (plainMessage r) :: (consumeLoop unm writeOk fuel s1).1,
            (consumeLoop unm writeOk fuel s1).2)
        else ([Event.write Sink.stdErr (plainMessage r)], Exit.panicWrite)
      else consumeLoop unm writeOk fuel s1 := by
  simp only [consumeLoop, h, buildMessage_plain r hmd]
  rfl

/-- An iteration of `consumeLog` on a record that carries partial metadata panics on the
store through the nil `msg.PLogMetaData`, before any sink is called. -/
theorem consumeLoop_metadata (unm : LogEntry → List Nat → Option LogEntry)
    (writeOk : Sink → Message → Bool) (fuel : Nat) (s s1 : Stream) (r : LogEntry)
    (md : PartialLogEntryMetadata)
    (h : ReadMsg unm maxMsgLen s = (Except.ok r, s1)) (hmd : r.PartialLogMetadata = some md) :
    consumeLoop unm writeOk (fuel + 1) s = ([], Exit.panicNilPointer) := by
  simp only [consumeLoop, h, buildMessage_metadata r md hmd]

/-- A run of the loop that returns has written to sinks, then closed the stream once, and
done nothing after that. -/
theorem consumeLoop_returned (unm : LogEntry → List Nat → Option LogEntry)
    (writeOk : Sink → Message → Bool) : ∀ (fuel : Nat) (s : Stream),
    (consumeLoop unm writeOk fuel s).2 = Exit.returned →
    ∃ ws, (consumeLoop unm writeOk fuel s).1 = ws ++ [Event.closeStream] ∧
      ∀ e ∈ ws, Event.isWrite e = true := by
  intro fuel
  induction fuel with
  | zero => intro s h; simp [consumeLoop] at h
  | succ n ih =>
    intro s h
    rcases hr : ReadMsg unm maxMsgLen s with ⟨res, s1⟩
    simp only [consumeLoop, hr] at h ⊢
    cases res with
    | error e =>
      simp only at h ⊢
      split
      · exact ⟨[], by simp, by simp⟩
      · rename_i hne
        rw [if_neg hne] at h
        exact ih s1 h
    | ok buf =>
      simp only at h ⊢
      cases hb : buildMessage buf with
      | none => rw [hb] at h; simp at h
      | some msg =>
        rw [hb] at h
        simp only at h ⊢
        by_cases h1 : msg.Source = "stdout"
        · rw [if_pos h1] at h ⊢
          by_cases hw : writeOk Sink.stdOut msg = true
          · rw [if_pos hw] at h ⊢
            obtain ⟨ws, hws, hall⟩ := ih s1 h
            refine ⟨Event.write Sink.stdOut msg :: ws, by simp [hws], ?_⟩
            intro e he
            rcases List.mem_cons.mp he with rfl | he1
            · rfl
            · exact hall e he1
          · rw [if_neg hw] at h; simp at h
        · rw [if_neg h1] at h ⊢
          by_cases h2 : msg.Source = "stderr"
          · rw [if_pos h2] at h ⊢
            by_cases hw : writeOk Sink.stdErr msg = true
            · rw [if_pos hw] at h ⊢
              obtain ⟨ws, hws, hall⟩ := ih s1 h
              refine ⟨Event.write Sink.stdErr msg :: ws, by simp [hws], ?_⟩
              intro e he
              rcases List.mem_cons.mp he with rfl | he1
              · rfl
              · exact hall e he1
            · rw [if_neg hw] at h; simp at h
          · rw [if_neg h2] at h ⊢
            exact ih s1 h

/-! ## C4: routing by source tag -/

/-- C4 (failing inputs): a stream with one well-formed frame whose record is tagged
`stderr` and carries partial metadata, and one whose record has an unknown tag and carries
partial metadata. In both runs `consumeLog` panics on the store through the nil
`msg.PLogMetaData` before the tag is inspected: the `stderr` sink receives no write for the
first record, and the second record, instead of being dropped silently, ends the run with
a panic. -/
theorem consumeLog_tagged_metadata_panics :
    consumeLog Proto.Unmarshal (fun _ _ => true)
        [Chunk.data (frameOf (Proto.Marshal stderrChunk))] =
      ([Event.closeDec], Exit.panicNilPointer) ∧
    Proto.Unmarshal zeroLogEntry (Proto.Marshal stderrChunk) = some stderrChunk ∧
    consumeLog Proto.Unmarshal (fun _ _ => true)
        [Chunk.data (frameOf (Proto.Marshal unknownTagChunk))] =
      ([Event.closeDec], Exit.panicNilPointer) ∧
    Proto.Unmarshal zeroLogEntry (Proto.Marshal unknownTagChunk) = some unknownTagChunk := by
  decide

/-! ## C5: end-of-stream shutdown -/

/-- C5 (counterexample): in scenario A the stream handle receives two `Close` calls, not
one: the call of line 114 and the one the deferred `dec.Close()` passes on to the stream. -/
theorem consumeLog_closes_twice :
    consumeLog Proto.Unmarshal (fun _ _ => true)
        [Chunk.data (frameOf (Proto.Marshal helloEntry))] =
      ([Event.write Sink.stdOut (plainMessage helloEntry), Event.closeStream, Event.closeDec],
        Exit.returned) ∧
    streamCloseCalls (consumeLog Proto.Unmarshal (fun _ _ => true)
        [Chunk.data (frameOf (Proto.Marshal helloEntry))]).1 = 2 := by
  decide

/-- C5 (amended): whenever the frame reader reports end-of-stream, the iteration of
`consumeLog` calls `Close` on the stream handle and returns; every run that returns
consists of sink writes, then that one `Close` call of `consumeLog` itself, then the
deferred `dec.Close()` of the frame reader, with no sink write after the `Close` of the
stream. In particular, for a stream holding the single frame of
`{source:"stdout", line:"hello", time_nano:1000, partial:false}` and then the lasting
end-of-stream, with a `stdout` sink that accepts the write, exactly one message is
written, to the `stdout` sink, its bytes under `marshalFunc` are `hello` and a line feed,
the `stderr` sink receives nothing, and the stream is then closed and the run returns. -/
theorem consumeLog_end_of_stream (unm : LogEntry → List Nat → Option LogEntry)
    (writeOk : Sink → Message → Bool) (s : Stream) (body : List Nat)
    (hfree : errorFree s = true) (hs : streamBytes s = frameOf body)
    (hL : body.length ≤ maxMsgLen) (hunm : unm zeroLogEntry body = some helloEntry)
    (hw : writeOk Sink.stdOut (plainMessage helloEntry) = true) :
    (∀ fuel s0, (ReadMsg unm maxMsgLen s0).1 = Except.error (ReadMsgErr.io IOErr.EOF) →
      consumeLoop unm writeOk (fuel + 1) s0 = ([Event.closeStream], Exit.returned)) ∧
    (∀ s0, (consumeLog unm writeOk s0).2 = Exit.returned →
      ∃ ws, (consumeLog unm writeOk s0).1 = ws ++ [Event.closeStream, Event.closeDec] ∧
        ∀ e ∈ ws, Event.isWrite e = true) ∧
    consumeLog unm writeOk s =
      ([Event.write Sink.stdOut (plainMessage helloEntry), Event.closeStream, Event.closeDec],
        Exit.returned) ∧
    marshalFunc (plainMessage helloEntry) = [104, 101, 108, 108, 111, 10] ∧
    sinkWrites Sink.stdErr (consumeLog unm writeOk s).1 = [] := by
  have hrun : consumeLog unm writeOk s =
      ([Event.write Sink.stdOut (plainMessage helloEntry), Event.closeStream, Event.closeDec],
        Exit.returned) := by
    have hmax : maxMsgLen < 4294967296 := by unfold maxMsgLen; omega
    obtain ⟨s1, hread, hf1, hb1⟩ := ReadMsg_frame unm maxMsgLen s body [] helloEntry hfree
      (by rw [hs, List.append_nil]) hL (by omega) hunm
    have hfuel := (consumeLoop_ends unm writeOk (streamWeight s + 1) s (by omega)).2
      (streamWeight s + 1 + 1) (by omega)
    have hstep := consumeLoop_route unm writeOk (streamWeight s + 1) s s1 helloEntry hread rfl
    have hsrc : helloEntry.Source = "stdout" := rfl
    rw [if_pos hsrc, if_pos hw,
      consumeLoop_eof unm writeOk (streamWeight s) s1 (ReadMsg_eof unm maxMsgLen s1 hf1 hb1)]
      at hstep
    unfold consumeLog
    rw [← hfuel, hstep]
    rfl
  refine ⟨fun fuel s0 h => consumeLoop_eof unm writeOk fuel s0 h, ?_, hrun, by decide, ?_⟩
  · intro s0 h
    unfold consumeLog at h ⊢
    rcases hc : consumeLoop unm writeOk (streamWeight s0 + 1) s0 with ⟨evs, exit⟩
    rw [hc] at h
    have hshape := consumeLoop_returned unm writeOk (streamWeight s0 + 1) s0
    rw [hc] at hshape
    cases exit with
    | running => simp at h
    | panicNilPointer => simp at h
    | panicWrite => simp at h
    | returned =>
      obtain ⟨ws, hws, hall⟩ := hshape rfl
      simp only at hws
      exact ⟨ws, by simp [hws], hall⟩
  · rw [hrun]
    decide

/-- C5 (witness): the amended statement at the generated-code model of `Unmarshal`, sinks
that accept every write, and the frame of scenario A delivered in one read. -/
theorem consumeLog_end_of_stream_witness :
    consumeLog Proto.Unmarshal (fun _ _ => true)
        [Chunk.data (frameOf (Proto.Marshal helloEntry))] =
      ([Event.write Sink.stdOut (plainMessage helloEntry), Event.closeStream, Event.closeDec],
        Exit.returned) ∧
    marshalFunc (plainMessage helloEntry) = [104, 101, 108, 108, 111, 10] :=
  ⟨(consumeLog_end_of_stream Proto.Unmarshal (fun _ _ => true)
      [Chunk.data (frameOf (Proto.Marshal helloEntry))] (Proto.Marshal helloEntry)
      (by decide) (by decide) (by decide) (by decide) rfl).2.2.1,
   (consumeLog_end_of_stream Proto.Unmarshal (fun _ _ => true)
      [Chunk.data (frameOf (Proto.Marshal helloEntry))] (Proto.Marshal helloEntry)
      (by decide) (by decide) (by decide) (by decide) rfl).2.2.2.1⟩

/-! ## C8: partial chunks -/

/-- C8 (failing input): scenario D, two frames for `stdout` whose records carry the partial
metadata `{id:"abc", ordinal:0, last:false}` and `{id:"abc", ordinal:1, last:true}`, with
sinks that accept every write. `consumeLog` forwards neither chunk: it panics on the
first record, at the store through the nil `msg.PLogMetaData`, and the `stdout` sink
receives nothing. -/
theorem consumeLog_scenario_D_panics :
    Proto.Unmarshal zeroLogEntry (Proto.Marshal chunkOne) = some chunkOne ∧
    Proto.Unmarshal zeroLogEntry (Proto.Marshal chunkTwo) = some chunkTwo ∧
    consumeLog Proto.Unmarshal (fun _ _ => true)
        [Chunk.data (frameOf (Proto.Marshal chunkOne)),
         Chunk.data (frameOf (Proto.Marshal chunkTwo))] =
      ([Event.closeDec], Exit.panicNilPointer) ∧
    sinkWrites Sink.stdOut (consumeLog Proto.Unmarshal (fun _ _ => true)
        [Chunk.data (frameOf (Proto.Marshal chunkOne)),
         Chunk.data (frameOf (Proto.Marshal chunkTwo))]).1 = [] := by
  decide

/-! ## C9: an oversized frame in the consumer -/

/-- C9 (counterexample): a stream whose first header declares 2,000,000 bytes and which
continues with the frame of scenario A. The read of the oversized header fails, yet
`consumeLog` goes on: it decodes the bytes after the header as a frame and writes its
message to the `stdout` sink, and ends only at the end of the stream. -/
theorem consumeLog_writes_after_oversized :
    be32 [0, 30, 132, 128] = 2000000 ∧
    consumeLog Proto.Unmarshal (fun _ _ => true)
        [Chunk.data ([0, 30, 132, 128] ++ frameOf (Proto.Marshal helloEntry))] =
      ([Event.write Sink.stdOut (plainMessage helloEntry), Event.closeStream, Event.closeDec],
        Exit.returned) := by
  decide

/-- C9 (amended): for every stream whose next frame header declares a length above the
1,000,000 maximum, whatever bytes follow, the read of that frame fails (`io.ErrShortBuffer`)
with only the four header bytes consumed and no sink write for it, and `consumeLog` goes on
with a fresh frame reader at the byte after the header: its run is the run on the rest of
the stream, so bytes after the header are decoded as frames and may be written; the run
ends at end-of-stream or on a panic. -/
theorem consumeLog_oversized_header (unm : LogEntry → List Nat → Option LogEntry)
    (writeOk : Sink → Message → Bool) (s : Stream) (hfree : errorFree s = true)
    (hlen : 4 ≤ (streamBytes s).length)
    (hbig : maxMsgLen < be32 ((streamBytes s).take 4)) :
    ∃ s1, ReadMsg unm maxMsgLen s = (Except.error (ReadMsgErr.io IOErr.ErrShortBuffer), s1) ∧
      streamBytes s1 = (streamBytes s).drop 4 ∧
      consumeLog unm writeOk s = consumeLog unm writeOk s1 ∧
      (consumeLog unm writeOk s).2 ≠ Exit.running := by
  obtain ⟨s1, hread, _, hb1⟩ := ReadMsg_tooLarge unm maxMsgLen s hfree hlen hbig
  refine ⟨s1, hread, hb1, ?_, consumeLog_ends unm writeOk s⟩
  have hlt : streamWeight s1 < streamWeight s := by
    have h := ReadMsg_weight_lt unm maxMsgLen s (by rw [hread]; simp)
    rwa [hread] at h
  have hskip := consumeLoop_skip unm writeOk (streamWeight s) s s1 _ hread (by simp)
  have hfuel := (consumeLoop_ends unm writeOk (streamWeight s1 + 1) s1 (by omega)).2
    (streamWeight s) hlt
  unfold consumeLog
  rw [hskip, hfuel]

/-- C9 (witness): the amended statement at the stream of the counterexample. -/
theorem consumeLog_oversized_header_witness :
    ∃ s1,
      ReadMsg Proto.Unmarshal maxMsgLen
          [Chunk.data ([0, 30, 132, 128] ++ frameOf (Proto.Marshal helloEntry))] =
        (Except.error (ReadMsgErr.io IOErr.ErrShortBuffer), s1) ∧
      streamBytes s1 = (streamBytes
          [Chunk.data ([0, 30, 132, 128] ++ frameOf (Proto.Marshal helloEntry))]).drop 4 ∧
      consumeLog Proto.Unmarshal (fun _ _ => true)
          [Chunk.data ([0, 30, 132, 128] ++ frameOf (Proto.Marshal helloEntry))] =
        consumeLog Proto.Unmarshal (fun _ _ => true) s1 ∧
      (consumeLog Proto.Unmarshal (fun _ _ => true)
          [Chunk.data ([0, 30, 132, 128] ++ frameOf (Proto.Marshal helloEntry))]).2 ≠
        Exit.running :=
  consumeLog_oversized_header Proto.Unmarshal (fun _ _ => true)
    [Chunk.data ([0, 30, 132, 128] ++ frameOf (Proto.Marshal helloEntry))]
    (by decide) (by decide) (by decide)

/-! ## C6 and C7: the registry -/

/-- C6: for every registry in which an entry for `file` exists, `StartLogging` returns the
already-exists error, leaves the registry exactly as it was, and makes no call on its
collaborators: no directory is created, no sink is constructed, no stream is opened (or
closed) and no consumer is started. -/
theorem StartLogging_duplicate (env : Env) (d : driver) (file containerID : String)
    (e : dockerInput) (h : d.logs file = some e) :
    StartLogging env d file containerID = (some (StartErr.alreadyExists file), d, []) := by
  simp only [StartLogging, h]

/-- C6 (witness): a registry holding an entry for `/run/docker/fifo-a`. -/
theorem StartLogging_duplicate_witness :
    StartLogging { newLogFile := fun _ => true, openFifo := fun _ => some 2 }
        { logs := fun k => if k = "/run/docker/fifo-a"
                           then some { stream := 1, ContainerID := "c1" } else none }
        "/run/docker/fifo-a" "c2" =
      (some (StartErr.alreadyExists "/run/docker/fifo-a"),
        { logs := fun k => if k = "/run/docker/fifo-a"
                           then some { stream := 1, ContainerID := "c1" } else none }, []) :=
  StartLogging_duplicate _ _ "/run/docker/fifo-a" "c2" { stream := 1, ContainerID := "c1" }
    (by decide)

/-- C7: for every registry and every `file`, `StopLogging` returns no error; afterwards the
registry has no entry for `file` and every entry under another identifier is unchanged;
a second `StopLogging` of the same `file` returns no error and leaves the registry
unchanged, and so does `StopLogging` of an identifier that has no entry. -/
theorem StopLogging_idempotent (d : driver) (file : String) :
    (StopLogging d file).1 = none ∧
    (StopLogging d file).2.logs file = none ∧
    (∀ k, k ≠ file → (StopLogging d file).2.logs k = d.logs k) ∧
    StopLogging (StopLogging d file).2 file = (none, (StopLogging d file).2) ∧
    (d.logs file = none → StopLogging d file = (none, d)) := by
  cases h : d.logs file with
  | none =>
    refine ⟨by simp [StopLogging, h], by simp [StopLogging, h], ?_, ?_, ?_⟩
    · intro k _; simp [StopLogging, h]
    · simp [StopLogging, h]
    · intro _; simp [StopLogging, h]
  | some e =>
    refine ⟨by simp [StopLogging, h], by simp [StopLogging, h], ?_, ?_, ?_⟩
    · intro k hk; simp [StopLogging, h, hk]
    · simp [StopLogging, h]
    · intro h0; cases h0

/-- C7 (witness): stopping an identifier that was never started, on the empty registry. -/
theorem StopLogging_idempotent_witness :
    StopLogging newDriver "/run/docker/fifo-a" = (none, newDriver) :=
  (StopLogging_idempotent newDriver "/run/docker/fifo-a").2.2.2.2 rfl

/-! ## C13: the terminator of non-partial records -/

/-- C13 (counterexample): the non-partial record whose line is `hello` followed by a line
feed. Its serialized body, framed with four trailing bytes, is decoded by a fresh decoder
into a message whose line is `hello` followed by two line feeds: the terminator is appended
although the line already ends with one. -/
theorem Decode_appends_second_terminator :
    Proto.Unmarshal zeroLogEntry (Proto.Marshal helloNewlineEntry) = some helloNewlineEntry ∧
    ∃ d1 s1 msg,
      Decode Proto.Unmarshal (decodeFunc 0)
          [Chunk.data (putBE32 (Proto.Marshal helloNewlineEntry).length ++
            (Proto.Marshal helloNewlineEntry ++ [0, 0, 0, 19]))] =
        (DecodeResult.ok msg, d1, s1) ∧
      msg.Line = [104, 101, 108, 108, 111, 10, 10] ∧
      msg.Line ≠ helloNewlineEntry.Line := by
  refine ⟨by decide, ?_⟩
  obtain ⟨d1, s1, hdec, _⟩ :=
    Decode_frame Proto.Unmarshal (decodeFunc 0)
      [Chunk.data (putBE32 (Proto.Marshal helloNewlineEntry).length ++
        (Proto.Marshal helloNewlineEntry ++ [0, 0, 0, 19]))]
      (Proto.Marshal helloNewlineEntry) [0, 0, 0, 19] [] helloNewlineEntry rfl rfl
      (by intro b hb; cases hb) (by decide) (by decide) (by decide) (by decide) (by decide)
  exact ⟨d1, s1, entryMessage helloNewlineEntry, hdec, by decide, by decide⟩

/-- C13 (amended): for every record whose `partial` flag is not set, the line of the decoded
message is the line of the record followed by exactly one appended line feed, whether or
not the line of the record already ends with a line feed; so a line that ends with a line
feed decodes to a line that ends with two. -/
theorem entryMessage_always_terminates (r : LogEntry) (h : r.Partial = false) :
    (entryMessage r).Line = r.Line ++ [10] ∧
    (entryMessage r).Line.length = r.Line.length + 1 ∧
    (∀ pre, r.Line = pre ++ [10] → (entryMessage r).Line = pre ++ [10, 10]) := by
  have hline : (entryMessage r).Line = r.Line ++ [10] := by
    simp [entryMessage, protoToMessage, h]
  refine ⟨hline, by simp [hline], ?_⟩
  intro pre hpre
  rw [hline, hpre]
  simp

/-- C13 (witness): the amended statement at the record whose line is `hello` and a line
feed. -/
theorem entryMessage_always_terminates_witness :
    (entryMessage helloNewlineEntry).Line = helloNewlineEntry.Line ++ [10] ∧
    (entryMessage helloNewlineEntry).Line.length = helloNewlineEntry.Line.length + 1 ∧
    (∀ pre, helloNewlineEntry.Line = pre ++ [10] →
      (entryMessage helloNewlineEntry).Line = pre ++ [10, 10]) :=
  entryMessage_always_terminates helloNewlineEntry rfl

/-! ## C14: lifecycle of a registry entry -/

/-- C14 (counterexample): on the empty registry `StartLogging` for a fifo succeeds; its
consumer task then runs on a stream that is already at its end and returns; the registry
still holds the entry, and a new `StartLogging` for the same fifo is rejected as a
duplicate. -/
theorem entry_survives_consumer :
    (StartLogging okEnv newDriver "/run/docker/fifo-a" "c1").1 = none ∧
    (consumerTask Proto.Unmarshal (fun _ _ => true)
        (StartLogging okEnv newDriver "/run/docker/fifo-a" "c1").2.1 []).2 =
      ([Event.closeStream, Event.closeDec], Exit.returned) ∧
    (consumerTask Proto.Unmarshal (fun _ _ => true)
        (StartLogging okEnv newDriver "/run/docker/fifo-a" "c1").2.1 []).1.logs
        "/run/docker/fifo-a" = some { stream := 3, ContainerID := "c1" } ∧
    (StartLogging okEnv
        (consumerTask Proto.Unmarshal (fun _ _ => true)
          (StartLogging okEnv newDriver "/run/docker/fifo-a" "c1").2.1 []).1
        "/run/docker/fifo-a" "c1").1 = some (StartErr.alreadyExists "/run/docker/fifo-a") := by
  decide

/-- C14 (amended): an entry is created by a successful `StartLogging(id)` and is removed
from the registry by `StopLogging(id)` only. The end of the consumer task, whatever its
stream held, leaves the registry as it was: after the task has ended the registry still
holds the entry and a new `StartLogging(id)` is rejected as a duplicate, until
`StopLogging(id)` has removed the entry. -/
theorem entry_lifecycle (env : Env) (d : driver) (file containerID : String)
    (unm : LogEntry → List Nat → Option LogEntry) (writeOk : Sink → Message → Bool) (s : Stream)
    (hstart : (StartLogging env d file containerID).1 = none) :
    (∃ e, (StartLogging env d file containerID).2.1.logs file = some e) ∧
    (consumerTask unm writeOk (StartLogging env d file containerID).2.1 s).2.2 ≠ Exit.running ∧
    (consumerTask unm writeOk (StartLogging env d file containerID).2.1 s).1 =
      (StartLogging env d file containerID).2.1 ∧
    (StartLogging env
        (consumerTask unm writeOk (StartLogging env d file containerID).2.1 s).1
        file containerID).1 = some (StartErr.alreadyExists file) ∧
    (StopLogging
        (consumerTask unm writeOk (StartLogging env d file containerID).2.1 s).1 file).2.logs
      file = none ∧
    (StartLogging env
        (StopLogging
          (consumerTask unm writeOk (StartLogging env d file containerID).2.1 s).1 file).2
        file containerID).1 ≠ some (StartErr.alreadyExists file) := by
  have hentry : ∃ e, (StartLogging env d file containerID).2.1.logs file = some e := by
    unfold StartLogging at hstart ⊢
    cases h0 : d.logs file with
    | some e0 => rw [h0] at hstart; simp at hstart
    | none =>
      rw [h0] at hstart
      simp only at hstart ⊢
      by_cases h1 : env.newLogFile (baseLogDir ++ "/" ++ containerID ++ "/" ++ "stderr") = true
      · rw [if_pos h1] at hstart ⊢
        by_cases h2 : env.newLogFile (baseLogDir ++ "/" ++ containerID ++ "/" ++ "stdout") = true
        · rw [if_pos h2] at hstart ⊢
          cases h3 : env.openFifo file with
          | none => rw [h3] at hstart; simp at hstart
          | some f =>
            simp only
            exact ⟨{ stream := f, ContainerID := containerID }, by simp⟩
        · rw [if_neg h2] at hstart; simp at hstart
      · rw [if_neg h1] at hstart; simp at hstart
  obtain ⟨e, he⟩ := hentry
  have hstop : (StopLogging (StartLogging env d file containerID).2.1 file).2.logs file =
      none := by
    simp [StopLogging, he]
  refine ⟨⟨e, he⟩, consumeLog_ends unm writeOk s, rfl, ?_, hstop, ?_⟩
  · show (StartLogging env (StartLogging env d file containerID).2.1 file containerID).1 = _
    generalize (StartLogging env d file containerID).2.1 = d1 at he
    simp [StartLogging, he]
  · show (StartLogging env (StopLogging (StartLogging env d file containerID).2.1 file).2
      file containerID).1 ≠ _
    generalize (StopLogging (StartLogging env d file containerID).2.1 file).2 = d2 at hstop
    unfold StartLogging
    rw [hstop]
    simp only
    split
    · split
      · split <;> simp
      · simp
    · simp

/-- C14 (witness): the amended statement on the empty registry, with collaborators that
never fail and a consumer whose stream holds the frame of scenario A. -/
theorem entry_lifecycle_witness :
    (StartLogging okEnv
        (consumerTask Proto.Unmarshal (fun _ _ => true)
          (StartLogging okEnv newDriver "/run/docker/fifo-a" "c1").2.1
          [Chunk.data (frameOf (Proto.Marshal helloEntry))]).1
        "/run/docker/fifo-a" "c1").1 = some (StartErr.alreadyExists "/run/docker/fifo-a") :=
  (entry_lifecycle okEnv newDriver "/run/docker/fifo-a" "c1" Proto.Unmarshal (fun _ _ => true)
    [Chunk.data (frameOf (Proto.Marshal helloEntry))] (by decide)).2.2.2.1

/-! ## C16: two concurrent `StartLogging` calls -/

/-- The steps of one call, run without interleaving, are `StartLogging`. -/
theorem runAlone_eq_StartLogging (env : Env) (d : driver) (file containerID : String) :
    runAlone env d file containerID = StartLogging env d file containerID := by
  unfold runAlone StartLogging
  cases h0 : d.logs file with
  | some e0 => simp [StartCall.step, h0]
  | none =>
    by_cases h1 : env.newLogFile (baseLogDir ++ "/" ++ containerID ++ "/" ++ "stderr") = true
    · by_cases h2 : env.newLogFile (baseLogDir ++ "/" ++ containerID ++ "/" ++ "stdout") = true
      · cases h3 : env.openFifo file <;> simp [StartCall.step, h0, h1, h2, h3]
      · simp [StartCall.step, h0, h1, h2]
    · simp [StartCall.step, h0, h1]

/-- C16 (failing input): two calls for the same fifo on the empty registry, interleaved so
that both make their first locked section (the check) before either makes its second (the
insert). Both checks find no entry, both calls open the stream, construct their sinks,
insert an entry, start a consumer and return no error: two successes instead of one
success and one duplicate error. Run one after the other, the same two calls give one
success and one duplicate error. -/
theorem two_starts_both_succeed :
    (runSchedule okEnv
        [Caller.first, Caller.second, Caller.first, Caller.first, Caller.second, Caller.second]
        (twoStarts "/run/docker/fifo-a")).a.pc = StartPC.returned none ∧
    (runSchedule okEnv
        [Caller.first, Caller.second, Caller.first, Caller.first, Caller.second, Caller.second]
        (twoStarts "/run/docker/fifo-a")).b.pc = StartPC.returned none ∧
    ((runSchedule okEnv
        [Caller.first, Caller.second, Caller.first, Caller.first, Caller.second, Caller.second]
        (twoStarts "/run/docker/fifo-a")).effects.filter
          (fun e => decide (e.2 = Effect.openFifo "/run/docker/fifo-a"))).length = 2 ∧
    ((runSchedule okEnv
        [Caller.first, Caller.second, Caller.first, Caller.first, Caller.second, Caller.second]
        (twoStarts "/run/docker/fifo-a")).effects.filter
          (fun e => decide (e.2 = Effect.goConsumeLog "/run/docker/fifo-a" 3))).length = 2 ∧
    (runSchedule okEnv
        [Caller.first, Caller.first, Caller.first, Caller.second, Caller.second, Caller.second]
        (twoStarts "/run/docker/fifo-a")).a.pc = StartPC.returned none ∧
    (runSchedule okEnv
        [Caller.first, Caller.first, Caller.first, Caller.second, Caller.second, Caller.second]
        (twoStarts "/run/docker/fifo-a")).b.pc =
      StartPC.returned (some (StartErr.alreadyExists "/run/docker/fifo-a")) := by
  decide

/-! ## C17: the loop body of `consumeLog` on a record with partial metadata -/

/-- C17 (failing inputs): for every stream that begins with a well-formed frame whose record
carries `partial_log_metadata`, even with sinks whose writes all succeed, `consumeLog`
panics while it builds the message: the first store through `msg.PLogMetaData`, a nil
pointer, is a nil-pointer dereference. No sink is called, and only the deferred
`dec.Close()` runs. -/
theorem consumeLog_panics_on_metadata (unm : LogEntry → List Nat → Option LogEntry)
    (s : Stream) (body rest : List Nat) (r : LogEntry) (md : PartialLogEntryMetadata)
    (hfree : errorFree s = true) (hs : streamBytes s = frameOf body ++ rest)
    (hL : body.length ≤ maxMsgLen) (hunm : unm zeroLogEntry body = some r)
    (hmd : r.PartialLogMetadata = some md) :
    buildMessage r = none ∧
    consumeLog unm (fun _ _ => true) s = ([Event.closeDec], Exit.panicNilPointer) := by
  have hmax : maxMsgLen < 4294967296 := by unfold maxMsgLen; omega
  obtain ⟨s1, hread, _, _⟩ := ReadMsg_frame unm maxMsgLen s body rest r hfree hs hL
    (by omega) hunm
  refine ⟨buildMessage_metadata r md hmd, ?_⟩
  unfold consumeLog
  rw [consumeLoop_metadata unm _ (streamWeight s) s s1 r md hread hmd]
  rfl

/-- C17 (witness): the stream that holds the first chunk of scenario D. -/
theorem consumeLog_panics_on_metadata_witness :
    buildMessage chunkOne = none ∧
    consumeLog Proto.Unmarshal (fun _ _ => true)
        [Chunk.data (frameOf (Proto.Marshal chunkOne))] =
      ([Event.closeDec], Exit.panicNilPointer) :=
  consumeLog_panics_on_metadata Proto.Unmarshal
    [Chunk.data (frameOf (Proto.Marshal chunkOne))] (Proto.Marshal chunkOne) [] chunkOne
    { Last := false, Id := "abc", Ordinal := 0 } (by decide) (by decide) (by decide)
    (by decide) rfl

/-! ## `ReadFull` and `readRecord` on any stream -/

/-- The loop of `ReadAtLeast` on any stream: the bytes it adds are the next bytes of the
stream, at most `need` of them, and exactly `need` when it ends without an error. -/
theorem readLoop_spec (s : Stream) : ∀ (need : Nat) (acc : List Nat),
    ∃ bs, (readLoop s need acc).1 = acc ++ bs ∧ bs.length ≤ need ∧
      streamBytes s = bs ++ streamBytes (readLoop s need acc).2.2 ∧
      ((readLoop s need acc).2.1 = none → bs.length = need) ∧
      ((readLoop s need acc).2.1 ≠ none → bs.length < need) := by
  induction s with
  | nil =>
    intro need acc
    cases need with
    | zero => exact ⟨[], by simp [readLoop]⟩
    | succ n => exact ⟨[], by simp [readLoop]⟩
  | cons c rest ih =>
    intro need acc
    cases need with
    | zero => exact ⟨[], by simp [readLoop]⟩
    | succ n =>
      cases c with
      | fail e => exact ⟨[], by simp [readLoop, streamBytes]⟩
      | data bs =>
        by_cases hle : bs.length ≤ n + 1
        · obtain ⟨bs2, h1, h2, h3, h4, h5⟩ := ih (n + 1 - bs.length) (acc ++ bs)
          refine ⟨bs ++ bs2, ?_, ?_, ?_, ?_, ?_⟩
          · simp only [readLoop, hle, if_true, h1, List.append_assoc]
          · simp only [List.length_append]; omega
          · simp only [readLoop, hle, if_true, streamBytes, List.append_assoc]
            rw [← h3]
          · intro hn
            simp only [readLoop, hle, if_true] at hn
            have := h4 hn
            simp only [List.length_append]; omega
          · intro hn
            simp only [readLoop, hle, if_true] at hn
            have := h5 hn
            simp only [List.length_append]; omega
        · refine ⟨bs.take (n + 1), ?_, ?_, ?_, ?_, ?_⟩
          · simp only [readLoop, hle, if_false]
          · simp only [List.length_take]; omega
          · simp only [readLoop, hle, if_false, streamBytes]
            rw [← List.append_assoc, List.take_append_drop]
          · intro _
            simp only [List.length_take]; omega
          · intro hn
            simp [readLoop, hle] at hn

/-- `ReadFull` on any stream: the bytes returned are the next bytes of the stream; there are
`k` of them when no error is returned and fewer otherwise, and none when the error is
`EOF`. -/
theorem ReadFull_spec (s : Stream) (k : Nat) :
    (ReadFull s k).1.length ≤ k ∧
    streamBytes s = (ReadFull s k).1 ++ streamBytes (ReadFull s k).2.2 ∧
    ((ReadFull s k).2.1 = none → (ReadFull s k).1.length = k) ∧
    ((ReadFull s k).2.1 ≠ none → (ReadFull s k).1.length < k) ∧
    ((ReadFull s k).2.1 = some IOErr.EOF → (ReadFull s k).1 = []) := by
  obtain ⟨bs, h1, h2, h3, h4, h5⟩ := readLoop_spec s k []
  unfold ReadFull
  rcases hr : readLoop s k [] with ⟨got, e, s1⟩
  rw [hr] at h1 h3 h4 h5
  simp only [List.nil_append] at h1
  subst h1
  cases e with
  | none => exact ⟨h2, h3, fun _ => h4 rfl, fun h => absurd rfl h, fun h => by simp at h⟩
  | some e =>
    have hlt : got.length < k := h5 (by simp)
    have hk : ¬ k ≤ got.length := by omega
    simp only [hk, if_false]
    by_cases hc : 0 < got.length ∧ e = IOErr.EOF
    · simp only [hc, and_self, if_true]
      refine ⟨h2, h3, fun h => by simp at h, fun _ => hlt, fun h => by simp at h⟩
    · simp only [hc, if_false]
      refine ⟨h2, h3, fun h => by simp at h, fun _ => hlt, ?_⟩
      intro he
      simp only [Option.some.injEq] at he
      subst he
      simp only [and_true, Nat.pos_iff_ne_zero, ne_eq, not_not] at hc
      exact List.length_eq_zero.mp hc

theorem writeAt_nil (data : List Nat) (off : Nat) : writeAt data off [] = data := by
  simp [writeAt]

/-- Two stores one after the other are one store of the concatenation. -/
theorem writeAt_writeAt (data a b : List Nat) (off : Nat) (h : off ≤ data.length) :
    writeAt (writeAt data off a) (off + a.length) b = writeAt data off (a ++ b) := by
  have h1 : (data.take off ++ a).length = off + a.length := by
    simp only [List.length_append, List.length_take]; omega
  have htake : (data.take off ++ a ++ data.drop (off + a.length)).take (off + a.length) =
      data.take off ++ a := by
    rw [List.take_append_of_le_length (by omega)]
    exact List.take_of_length_le (by omega)
  have hdrop : (data.take off ++ a ++ data.drop (off + a.length)).drop
      (off + a.length + b.length) = data.drop (off + (a ++ b).length) := by
    rw [List.drop_append_eq_append_drop, List.drop_of_length_le (by omega), h1]
    simp only [List.nil_append, List.drop_drop, List.length_append]
    congr 1
    omega
  unfold writeAt
  rw [htake, hdrop]
  simp only [List.append_assoc]

/-- The part of the array up to the end of a store is the old part before it and the
stored bytes. -/
theorem take_writeAt (data bs : List Nat) (off : Nat) (h : off ≤ data.length) :
    (writeAt data off bs).take (off + bs.length) = data.take off ++ bs := by
  have h1 : (data.take off ++ bs).length = off + bs.length := by
    simp only [List.length_append, List.length_take]; omega
  unfold writeAt
  rw [List.take_append_of_le_length (by omega)]
  exact List.take_of_length_le (by omega)

theorem decoder_eta (d : decoder) (b : Buf) (hb : d.buf = some b) :
    ({ d with buf := some { b with data := writeAt b.data d.offset [] },
              offset := d.offset + ([] : List Nat).length } : decoder) = d := by
  cases d
  simp only [writeAt_nil] at *
  simp [hb]

/-- The loop of `readRecord` from a state whose slice bounds hold (`offset ≤ size ≤ cap`),
on any stream: it never panics; what it read are the next bytes `bs` of the stream, stored
from `offset` on; on success they complete the record and `offset` is 0; on an error
`offset` has advanced by their number; nothing else of the decoder changes. -/
theorem readRecordLoop_spec (size : Nat) : ∀ (fuel : Nat) (d : decoder) (s : Stream)
    (last : Option IOErr) (b : Buf), d.buf = some b → d.offset ≤ size → size ≤ b.cap →
    ∃ bs, d.offset + bs.length ≤ size ∧
      streamBytes s = bs ++ streamBytes (readRecordLoop size fuel d s last).2.2 ∧
      (readRecordLoop size fuel d s last).2.1 =
        { d with buf := some { b with data := writeAt b.data d.offset bs },
                 offset := if (readRecordLoop size fuel d s last).1 = ReadResult.ok then 0
                           else d.offset + bs.length } ∧
      (readRecordLoop size fuel d s last).1 ≠ ReadResult.panic ∧
      ((readRecordLoop size fuel d s last).1 = ReadResult.ok → (fuel ≠ 0 ∨ last ≠ none) →
        d.offset + bs.length = size) := by
  intro fuel
  induction fuel with
  | zero =>
    intro d s last b hb hoff hcap
    refine ⟨[], by simpa using hoff, by simp [readRecordLoop]; cases last <;> simp, ?_, ?_, ?_⟩
    · cases last with
      | none =>
        simp only [readRecordLoop, if_true, writeAt_nil]
        cases d
        simp at hb ⊢
        exact hb
      | some e =>
        simp only [readRecordLoop]
        have := decoder_eta d b hb
        simp only [reduceCtorEq, if_false]
        exact this.symm
    · cases last <;> simp [readRecordLoop]
    · cases last <;> simp [readRecordLoop]
  | succ n ih =>
    intro d s last b hb hoff hcap
    obtain ⟨hr1, hr2, hr3, hr4, hr5⟩ := ReadFull_spec s (size - d.offset)
    rcases hr : ReadFull s (size - d.offset) with ⟨bs1, e, s1⟩
    rw [hr] at hr1 hr2 hr3 hr4 hr5
    simp only at hr1 hr2 hr3 hr4 hr5
    have hstep : readRecordLoop size (n + 1) d s last =
        (match e with
         | some e1 =>
           if e1 = IOErr.ErrUnexpectedEOF then
             readRecordLoop size n
               { d with buf := some { b with data := writeAt b.data d.offset bs1 },
                        offset := d.offset + bs1.length } s1 (some e1)
           else (ReadResult.err e1,
               { d with buf := some { b with data := writeAt b.data d.offset bs1 },
                        offset := d.offset + bs1.length }, s1)
         | none => (ReadResult.ok,
               { d with buf := some { b with data := writeAt b.data d.offset bs1 },
                        offset := 0 }, s1)) := by
      simp only [readRecordLoop, hb, hoff, hcap, and_self, if_true, hr]
      cases e <;> rfl
    rw [hstep]
    cases e with
    | none =>
      have hl := hr3 rfl
      exact ⟨bs1, by omega, hr2, by simp, by simp, fun _ _ => by omega⟩
    | some e1 =>
      by_cases hu : e1 = IOErr.ErrUnexpectedEOF
      · simp only [hu, if_true]
        have hcapd : size ≤ b.data.length := hcap
        have hwl : (writeAt b.data d.offset bs1).length = b.data.length :=
          writeAt_length _ _ _ (by omega)
        obtain ⟨bs2, h1, h2, h3, h4, h5⟩ :=
          ih { d with buf := some { b with data := writeAt b.data d.offset bs1 },
                      offset := d.offset + bs1.length } s1 (some IOErr.ErrUnexpectedEOF)
            { b with data := writeAt b.data d.offset bs1 } rfl (by show d.offset + bs1.length ≤ size; omega)
            (by show size ≤ (writeAt b.data d.offset bs1).length; omega)
        simp only at h1 h2 h3 h4 h5
        refine ⟨bs1 ++ bs2, ?_, ?_, ?_, h4, ?_⟩
        · simp only [List.length_append]; omega
        · rw [hr2, h2, List.append_assoc]
        · rw [h3, writeAt_writeAt _ _ _ _ (by omega)]
          simp only [List.length_append, Nat.add_assoc]
        · intro hok _
          have := h5 hok (Or.inr (by simp))
          simp only [List.length_append]; omega
      · simp only [hu, if_false]
        exact ⟨bs1, by omega, hr2, by simp, by simp, fun h => by simp at h⟩

/-! ## C12: the retry policy of `readRecord` -/

theorem cap_make (n : Nat) : (Buf.make n).cap = n := by
  simp [Buf.make, Buf.cap]

/-- An attempt on a stream that delivers fewer bytes than asked and then reports an
end-of-stream: `ReadFull` returns the bytes with `ErrUnexpectedEOF`. -/
theorem ReadFull_short_round (r : List Nat) (tail : Stream) (k : Nat) (hr : r ≠ [])
    (hk : r.length < k) :
    ReadFull (Chunk.data r :: Chunk.fail IOErr.EOF :: tail) k =
      (r, some IOErr.ErrUnexpectedEOF, tail) := by
  have hpos : 0 < r.length := List.length_pos.mpr hr
  obtain ⟨n, hn⟩ : ∃ n, k = n + 1 := ⟨k - 1, by omega⟩
  obtain ⟨m, hm⟩ : ∃ m, n + 1 - r.length = m + 1 := ⟨n - r.length, by omega⟩
  have hle : r.length ≤ n + 1 := by omega
  have hnk : ¬ n + 1 ≤ r.length := by omega
  subst hn
  simp [ReadFull, readLoop, hle, hm, hnk, hpos]

/-- One attempt of the loop of `readRecord` that ends with `ErrUnexpectedEOF`: the offset
advances by the bytes read and the loop goes on with one attempt less. -/
theorem readRecordLoop_retry (size fuel : Nat) (d : decoder) (s s1 : Stream)
    (last : Option IOErr) (b : Buf) (bs : List Nat) (hb : d.buf = some b)
    (hoff : d.offset ≤ size) (hcap : size ≤ b.cap)
    (hread : ReadFull s (size - d.offset) = (bs, some IOErr.ErrUnexpectedEOF, s1)) :
    readRecordLoop size (fuel + 1) d s last =
      readRecordLoop size fuel
        { d with buf := some { b with data := writeAt b.data d.offset bs },
                 offset := d.offset + bs.length } s1 (some IOErr.ErrUnexpectedEOF) := by
  simp only [readRecordLoop, hb, hoff, hcap, and_self, if_true, hread]

/-- One attempt of the loop of `readRecord` that ends with another error: the loop returns
it at once, the offset advanced by the bytes read. -/
theorem readRecordLoop_fail (size fuel : Nat) (d : decoder) (s s1 : Stream)
    (last : Option IOErr) (b : Buf) (bs : List Nat) (e : IOErr) (hb : d.buf = some b)
    (hoff : d.offset ≤ size) (hcap : size ≤ b.cap) (he : e ≠ IOErr.ErrUnexpectedEOF)
    (hread : ReadFull s (size - d.offset) = (bs, some e, s1)) :
    readRecordLoop size (fuel + 1) d s last =
      (ReadResult.err e,
        { d with buf := some { b with data := writeAt b.data d.offset bs },
                 offset := d.offset + bs.length }, s1) := by
  simp only [readRecordLoop, hb, hoff, hcap, and_self, if_true, hread, he, if_false]

/-- As many attempts as the loop has left, all ending short: the loop returns
`ErrUnexpectedEOF` with the bytes of all attempts stored and counted in `offset`, and
leaves what follows on the stream. -/
theorem readRecordLoop_shortRounds (size : Nat) (rest : Stream) :
    ∀ (rounds : List (List Nat)) (d : decoder) (b : Buf) (last : Option IOErr),
    d.buf = some b → size ≤ b.cap → d.offset + rounds.flatten.length < size →
    (∀ r ∈ rounds, r ≠ []) → (rounds ≠ [] ∨ last = some IOErr.ErrUnexpectedEOF) →
    readRecordLoop size rounds.length d (shortRounds rounds ++ rest) last =
      (ReadResult.err IOErr.ErrUnexpectedEOF,
        { d with buf := some { b with data := writeAt b.data d.offset rounds.flatten },
                 offset := d.offset + rounds.flatten.length }, rest) := by
  intro rounds
  induction rounds with
  | nil =>
    intro d b last hb _ _ _ hlast
    rcases hlast with h | h
    · exact absurd rfl h
    · subst h
      have := decoder_eta d b hb
      simp only [List.length_nil] at this
      simp only [List.flatten_nil, List.length_nil, shortRounds, List.nil_append, readRecordLoop]
      rw [this]
  | cons r rs ih =>
    intro d b last hb hcap hlen hne _
    have hr : r ≠ [] := hne r (List.mem_cons_self _ _)
    simp only [List.flatten_cons, List.length_append] at hlen
    have hread := ReadFull_short_round r (shortRounds rs ++ rest) (size - d.offset) hr
      (by omega)
    have hcapd : size ≤ b.data.length := hcap
    have hwl : (writeAt b.data d.offset r).length = b.data.length :=
      writeAt_length _ _ _ (by omega)
    have hstep := readRecordLoop_retry size rs.length d
      (Chunk.data r :: Chunk.fail IOErr.EOF :: (shortRounds rs ++ rest))
      (shortRounds rs ++ rest) last b r hb (by omega) hcap hread
    have hrec := ih
      { d with buf := some { b with data := writeAt b.data d.offset r },
               offset := d.offset + r.length }
      { b with data := writeAt b.data d.offset r } (some IOErr.ErrUnexpectedEOF) rfl
      (by show size ≤ (writeAt b.data d.offset r).length; omega)
      (by show d.offset + r.length + rs.flatten.length < size; omega)
      (fun x hx => hne x (List.mem_cons_of_mem _ hx)) (Or.inr rfl)
    simp only [List.length_cons, shortRounds, List.cons_append, List.flatten_cons]
    rw [hstep, hrec]
    simp only [writeAt_writeAt _ _ _ _ (show d.offset ≤ b.data.length by omega),
      List.length_append, Nat.add_assoc]

/-- C12: the policy of `readRecord(size)` from a state whose slice bounds hold. (1) An
attempt that reads no byte and meets end-of-stream makes `readRecord` return `io.EOF` after
that single attempt, the decoder and its offset unchanged. (2) An attempt that ends short
with `io.ErrUnexpectedEOF` after `n` bytes advances `offset` by `n` and is followed by an
attempt from the new offset, with one attempt less left. (3) `readRecord` starts with
`maxDecodeRetry` attempts; when that many attempts have each read some bytes and ended
short, it returns `io.ErrUnexpectedEOF` with the accumulated offset kept, and reads nothing
of what follows on the stream. (4) An attempt that fills the record makes `readRecord`
return nil with `offset` 0, and `offset` is 0 whenever `readRecord` returns nil. -/
theorem readRecord_retry_policy (d : decoder) (b : Buf) (s : Stream) (size : Nat)
    (hb : d.buf = some b) (hoff : d.offset ≤ size) (hcap : size ≤ b.cap) :
    (∀ s1, ReadFull s (size - d.offset) = ([], some IOErr.EOF, s1) →
      readRecord d s size = (ReadResult.err IOErr.EOF, d, s1)) ∧
    (∀ fuel last bs s1,
      ReadFull s (size - d.offset) = (bs, some IOErr.ErrUnexpectedEOF, s1) →
      readRecordLoop size (fuel + 1) d s last =
        readRecordLoop size fuel
          { d with buf := some { b with data := writeAt b.data d.offset bs },
                   offset := d.offset + bs.length } s1 (some IOErr.ErrUnexpectedEOF)) ∧
    readRecord d s size = readRecordLoop size maxDecodeRetry d s none ∧
    (∀ rounds rest, rounds.length = maxDecodeRetry → (∀ r ∈ rounds, r ≠ []) →
      d.offset + rounds.flatten.length < size →
      readRecord d (shortRounds rounds ++ rest) size =
        (ReadResult.err IOErr.ErrUnexpectedEOF,
          { d with buf := some { b with data := writeAt b.data d.offset rounds.flatten },
                   offset := d.offset + rounds.flatten.length }, rest)) ∧
    (∀ bs s1, ReadFull s (size - d.offset) = (bs, none, s1) →
      readRecord d s size =
        (ReadResult.ok,
          { d with buf := some { b with data := writeAt b.data d.offset bs }, offset := 0 },
          s1)) ∧
    ((readRecord d s size).1 = ReadResult.ok → (readRecord d s size).2.1.offset = 0) := by
  have hfuel : maxDecodeRetry = 19999 + 1 := rfl
  refine ⟨?_, ?_, rfl, ?_, ?_, ?_⟩
  · intro s1 hread
    unfold readRecord
    rw [hfuel, readRecordLoop_fail size 19999 d s s1 none b [] IOErr.EOF hb hoff hcap
      (by simp) hread, decoder_eta d b hb]
  · intro fuel last bs s1 hread
    exact readRecordLoop_retry size fuel d s s1 last b bs hb hoff hcap hread
  · intro rounds rest hlen hne htot
    unfold readRecord
    rw [← hlen]
    exact readRecordLoop_shortRounds size rest rounds d b none hb hcap htot hne
      (Or.inl (by intro h; rw [h] at hlen; simp [maxDecodeRetry] at hlen))
  · intro bs s1 hread
    exact readRecord_ok d s s1 size b bs hb hoff hcap hread
  · intro hok
    obtain ⟨bs, _, _, h3, _, _⟩ := readRecordLoop_spec size maxDecodeRetry d s none b hb hoff hcap
    unfold readRecord at hok ⊢
    rw [h3]
    simp [hok]

/-- C12 (witness): a decoder with a fresh buffer of `initialBufSize` bytes reading a 4-byte
header; on the exhausted stream `readRecord` returns `io.EOF` with the decoder unchanged,
and on a stream holding four bytes it returns nil. -/
theorem readRecord_retry_policy_witness :
    readRecord { rdr := some 0, proto := none, buf := some (Buf.make initialBufSize),
                 offset := 0, nextMsgLen := 0 } [] 4 =
      (ReadResult.err IOErr.EOF,
        { rdr := some 0, proto := none, buf := some (Buf.make initialBufSize),
          offset := 0, nextMsgLen := 0 }, []) ∧
    (readRecord { rdr := some 0, proto := none, buf := some (Buf.make initialBufSize),
                  offset := 0, nextMsgLen := 0 } [Chunk.data [0, 0, 0, 18]] 4).1 =
      ReadResult.ok :=
  ⟨(readRecord_retry_policy
      { rdr := some 0, proto := none, buf := some (Buf.make initialBufSize),
        offset := 0, nextMsgLen := 0 } (Buf.make initialBufSize) [] 4 rfl (by decide)
      (by rw [cap_make]; decide)).1 [] (by decide),
   by
    rw [(readRecord_retry_policy
      { rdr := some 0, proto := none, buf := some (Buf.make initialBufSize),
        offset := 0, nextMsgLen := 0 } (Buf.make initialBufSize) [Chunk.data [0, 0, 0, 18]] 4
      rfl (by decide) (by rw [cap_make]; decide)).2.2.2.2.1
      [0, 0, 0, 18] [] (by decide)]⟩

/-! ## C19: slice expressions stay in bounds -/

/-- `readRecord` from a state whose slice bounds hold, on any stream. -/
theorem readRecord_spec (d : decoder) (s : Stream) (size : Nat) (b : Buf)
    (hb : d.buf = some b) (hoff : d.offset ≤ size) (hcap : size ≤ b.cap) :
    ∃ bs, d.offset + bs.length ≤ size ∧
      streamBytes s = bs ++ streamBytes (readRecord d s size).2.2 ∧
      (readRecord d s size).2.1 =
        { d with buf := some { b with data := writeAt b.data d.offset bs },
                 offset := if (readRecord d s size).1 = ReadResult.ok then 0
                           else d.offset + bs.length } ∧
      (readRecord d s size).1 ≠ ReadResult.panic ∧
      ((readRecord d s size).1 = ReadResult.ok → d.offset + bs.length = size) := by
  obtain ⟨bs, h1, h2, h3, h4, h5⟩ :=
    readRecordLoop_spec size maxDecodeRetry d s none b hb hoff hcap
  exact ⟨bs, h1, h2, h3, h4, fun hok => h5 hok (Or.inl (by decide))⟩

theorem bufOK_writeAt (b : Buf) (off : Nat) (bs : List Nat) (h : bufOK b)
    (hin : off + bs.length ≤ b.cap) : bufOK { b with data := writeAt b.data off bs } := by
  refine ⟨h.1, ?_⟩
  show b.len ≤ (writeAt b.data off bs).length
  rw [writeAt_length _ _ _ hin]
  exact h.2

/-- `decodeLogEntry` from a state in which the pending record fits the buffer: it does not
panic and leaves a state that satisfies the invariant. -/
theorem decodeLogEntry_inv (unm : LogEntry → List Nat → Option LogEntry) (d : decoder)
    (s : Stream) (b : Buf) (p : LogEntry) (hb : d.buf = some b) (hp : d.proto = some p)
    (hok : bufOK b) (hmax : d.nextMsgLen ≤ maxMsgLen)
    (hoff : d.offset ≤ d.nextMsgLen + encodeBinaryLen)
    (hcap : d.nextMsgLen + encodeBinaryLen ≤ b.cap) :
    (decodeLogEntry unm d s).1 ≠ DecodeResult.panic ∧
    decoderInv (decodeLogEntry unm d s).2.1 := by
  obtain ⟨bs, h1, _, h3, h4, h5⟩ :=
    readRecord_spec d s (d.nextMsgLen + encodeBinaryLen) b hb hoff hcap
  have hcapd : d.nextMsgLen + encodeBinaryLen ≤ b.data.length := hcap
  have hwl : (writeAt b.data d.offset bs).length = b.data.length :=
    writeAt_length _ _ _ (by omega)
  have hokw := bufOK_writeAt b d.offset bs hok (by show _ ≤ b.data.length; omega)
  simp only [decodeLogEntry]
  rcases hR : readRecord d s (d.nextMsgLen + encodeBinaryLen) with ⟨res, d1, s1⟩
  rw [hR] at h3 h4 h5
  simp only at h3 h4 h5
  rw [h3]
  cases res with
  | panic => exact absurd rfl h4
  | err e =>
    refine ⟨by simp, ?_⟩
    simp only [reduceCtorEq, if_false]
    refine ⟨hmax, by show d.offset + bs.length ≤ d.nextMsgLen + encodeBinaryLen; omega,
      by simp, ?_⟩
    intro b2 hb2
    simp only [Option.some.injEq] at hb2
    subst hb2
    exact ⟨hokw, by show d.nextMsgLen + encodeBinaryLen ≤ (writeAt b.data d.offset bs).length
                    omega⟩
  | ok =>
    have hcap2 : d.nextMsgLen ≤ (writeAt b.data d.offset bs).length := by omega
    simp only [if_true, hp, Buf.cap, hcap2]
    have hinv : ∀ q : Option LogEntry, decoderInv
        { rdr := d.rdr, proto := q,
          buf := some { data := writeAt b.data d.offset bs, len := b.len },
          offset := 0, nextMsgLen := 0 } := by
      intro q
      refine ⟨Nat.zero_le _, Nat.zero_le _, by simp, ?_⟩
      intro b2 hb2
      simp only [Option.some.injEq] at hb2
      subst hb2
      refine ⟨hokw, ?_⟩
      show 0 + encodeBinaryLen ≤ (writeAt b.data d.offset bs).length
      omega
    cases unm p (List.take d.nextMsgLen (writeAt b.data d.offset bs)) with
    | none => exact ⟨by simp, hinv _⟩
    | some p1 => exact ⟨by simp, hinv _⟩

/-- From a state that satisfies the invariant, `Decode` on any stream evaluates no slice
expression out of bounds (it does not panic) and leaves a state that satisfies the
invariant. -/
theorem Decode_inv (unm : LogEntry → List Nat → Option LogEntry) (d : decoder) (s : Stream)
    (hinv : decoderInv d) :
    (Decode unm d s).1 ≠ DecodeResult.panic ∧ decoderInv (Decode unm d s).2.1 := by
  obtain ⟨hmax, hoff, hnone, hsome⟩ := hinv
  have hproto := ensure_proto d
  obtain ⟨b, hb, hok, hsame, hfresh⟩ := ensure_buf d (fun b hb => (hsome b hb).1)
  have hcap : d.nextMsgLen + encodeBinaryLen ≤ b.cap := by
    cases hd : d.buf with
    | none =>
      have h0 := hnone hd
      have := hfresh hd
      subst this
      rw [h0, cap_make]
      decide
    | some b0 =>
      have := hsame b0 hd
      subst this
      exact (hsome b hd).2
  by_cases hnext : d.nextMsgLen = 0
  · have hoff4 : (ensureBuf (ensureProto d)).offset ≤ encodeBinaryLen := by
      show d.offset ≤ encodeBinaryLen
      omega
    have hcap4 : encodeBinaryLen ≤ b.cap := by omega
    obtain ⟨bs, h1, _, h3, h4, h5⟩ :=
      readRecord_spec (ensureBuf (ensureProto d)) s encodeBinaryLen b hb hoff4 hcap4
    have hoffd : (ensureBuf (ensureProto d)).offset = d.offset := rfl
    rw [hoffd] at h1 h3 h5
    have hcapd : encodeBinaryLen ≤ b.data.length := hcap4
    have hwl : (writeAt b.data d.offset bs).length = b.data.length :=
      writeAt_length _ _ _ (by omega)
    have hokw := bufOK_writeAt b d.offset bs hok (by show _ ≤ b.data.length; omega)
    simp only [Decode, ensure_nextMsgLen, hnext, if_true, decodeSizeHeader]
    rcases hR : readRecord (ensureBuf (ensureProto d)) s encodeBinaryLen with ⟨res, d1, s1⟩
    rw [hR] at h3 h4 h5
    simp only at h3 h4 h5
    rw [h3]
    cases res with
    | panic => exact absurd rfl h4
    | err e =>
      refine ⟨by simp, ?_⟩
      simp only [reduceCtorEq, if_false]
      refine ⟨by show d.nextMsgLen ≤ _; omega, ?_, by simp, ?_⟩
      · show d.offset + bs.length ≤ d.nextMsgLen + encodeBinaryLen
        omega
      · intro b2 hb2
        simp only [Option.some.injEq] at hb2
        subst hb2
        exact ⟨hokw, by show d.nextMsgLen + encodeBinaryLen ≤ (writeAt b.data d.offset bs).length
                        omega⟩
    | ok =>
      have hcap2 : encodeBinaryLen ≤ (writeAt b.data d.offset bs).length := by omega
      simp only [if_true, Buf.cap, hcap2]
      by_cases hbig : maxMsgLen <
          be32 (List.take encodeBinaryLen (writeAt b.data d.offset bs))
      · simp only [hbig, if_true]
        refine ⟨by simp, by show d.nextMsgLen ≤ _; omega, ?_, by simp, ?_⟩
        · show 0 ≤ d.nextMsgLen + encodeBinaryLen
          omega
        · intro b2 hb2
          simp only [Option.some.injEq] at hb2
          subst hb2
          exact ⟨hokw, by show d.nextMsgLen + encodeBinaryLen ≤
                            (writeAt b.data d.offset bs).length
                          omega⟩
      · simp only [hbig, if_false]
        obtain ⟨b1, hr, hok1, hcap1⟩ := resizeBuf_ok _
          (be32 (List.take encodeBinaryLen (writeAt b.data d.offset bs))) hokw
        simp only [hr]
        exact decodeLogEntry_inv unm _ s1 b1 zeroLogEntry rfl hproto hok1 (by
          show be32 _ ≤ maxMsgLen
          omega) (by show 0 ≤ _; omega) hcap1
  · simp only [Decode, ensure_nextMsgLen, hnext, if_false]
    exact decodeLogEntry_inv unm _ s b zeroLogEntry hb hproto hok hmax hoff hcap

/-- From a state that satisfies the invariant, `Reset` evaluates its slice expression in
bounds and leaves a state that satisfies the invariant. -/
theorem Reset_inv (d : decoder) (rdr : Nat) (hinv : decoderInv d) :
    ∃ d1, Reset d rdr = some d1 ∧ decoderInv d1 := by
  obtain ⟨hmax, hoff, hnone, hsome⟩ := hinv
  unfold Reset
  by_cases hr : d.rdr = some rdr
  · exact ⟨d, by simp [hr], hmax, hoff, hnone, hsome⟩
  · simp only [hr, if_false]
    cases hd : d.buf with
    | none =>
      refine ⟨_, rfl, Nat.zero_le _, Nat.zero_le _, by simp, ?_⟩
      intro b hb
      simp [hd] at hb
    | some b =>
      have hb := (hsome b hd).1
      have hcap : initialBufSize ≤ b.cap := Nat.le_trans hb.1 hb.2
      simp only [hcap, if_true]
      refine ⟨_, rfl, Nat.zero_le _, Nat.zero_le _, by simp, ?_⟩
      intro b2 hb2
      simp only [Option.some.injEq] at hb2
      subst hb2
      refine ⟨⟨Nat.le_refl _, hcap⟩, ?_⟩
      show 0 + encodeBinaryLen ≤ b.cap
      have : encodeBinaryLen ≤ initialBufSize := by decide
      omega

theorem decodeFunc_inv (rdr : Nat) : decoderInv (decodeFunc rdr) := by
  refine ⟨Nat.zero_le _, Nat.zero_le _, fun _ => rfl, ?_⟩
  intro b hb
  cases hb

/-- Every sequence of `Decode` and `Reset` calls from a state that satisfies the invariant
runs without a panic and ends in a state that satisfies the invariant. -/
theorem runOps_inv (unm : LogEntry → List Nat → Option LogEntry) :
    ∀ (ops : List DecoderOp) (d : decoder), decoderInv d →
    ∃ d1, runOps unm ops d = some d1 ∧ decoderInv d1 := by
  intro ops
  induction ops with
  | nil => intro d h; exact ⟨d, rfl, h⟩
  | cons op rest ih =>
    intro d h
    cases op with
    | decode s =>
      obtain ⟨h1, h2⟩ := Decode_inv unm d s h
      rcases hD : Decode unm d s with ⟨res, d1, s1⟩
      rw [hD] at h1 h2
      obtain ⟨d2, hrun, hinv2⟩ := ih d1 h2
      refine ⟨d2, ?_, hinv2⟩
      simp only [runOps, hD]
      cases res with
      | panic => exact absurd rfl h1
      | ok m => exact hrun
      | err e => exact hrun
    | reset rdr =>
      obtain ⟨d1, h1, h2⟩ := Reset_inv d rdr h
      obtain ⟨d2, hrun, hinv2⟩ := ih d1 h2
      exact ⟨d2, by simp only [runOps, h1]; exact hrun, hinv2⟩

/-- C19: for every sequence of `Decode` and `Reset` calls on a decoder created by
`decodeFunc`, whatever the readers deliver at each call (bytes in reads of any sizes,
end-of-stream or errors at any point, any header values), no call evaluates a slice
expression out of bounds: the run does not panic, and after it the decoder satisfies the
invariant, so that a non-nil buffer has capacity at least `initialBufSize`, the next
`readRecord(size)` call has `offset ≤ size ≤ cap(buf)`, and the next unmarshal has
`msgLen ≤ cap(buf)`. -/
theorem slices_in_bounds (unm : LogEntry → List Nat → Option LogEntry) (rdr : Nat)
    (ops : List DecoderOp) :
    ∃ d, runOps unm ops (decodeFunc rdr) = some d ∧ decoderInv d ∧
      (∀ b, d.buf = some b →
        initialBufSize ≤ b.cap ∧ d.offset ≤ d.nextMsgLen + encodeBinaryLen ∧
        d.nextMsgLen + encodeBinaryLen ≤ b.cap ∧ d.nextMsgLen ≤ b.cap) ∧
      (∀ s, (Decode unm d s).1 ≠ DecodeResult.panic) ∧
      (∀ r, Reset d r ≠ none) := by
  obtain ⟨d, hrun, hinv⟩ := runOps_inv unm ops (decodeFunc rdr) (decodeFunc_inv rdr)
  refine ⟨d, hrun, hinv, ?_, fun s => (Decode_inv unm d s hinv).1, ?_⟩
  · intro b hb
    obtain ⟨_, hoff, _, hsome⟩ := hinv
    obtain ⟨hok, hcap⟩ := hsome b hb
    exact ⟨Nat.le_trans hok.1 hok.2, hoff, hcap, by omega⟩
  · intro r
    obtain ⟨d1, h1, _⟩ := Reset_inv d r hinv
    rw [h1]
    simp

/-- C19 (witness): a `Decode` on a stream that breaks off inside a header, a `Reset` to
another reader, and a `Decode` on a stream with an oversized header. -/
theorem slices_in_bounds_witness :
    ∃ d,
      runOps Proto.Unmarshal
          [DecoderOp.decode [Chunk.data [0, 0], Chunk.fail (IOErr.other 5)], DecoderOp.reset 1,
           DecoderOp.decode [Chunk.data [255, 255, 255, 255, 1]]]
          (decodeFunc 0) = some d ∧
      decoderInv d ∧
      (∀ b, d.buf = some b →
        initialBufSize ≤ b.cap ∧ d.offset ≤ d.nextMsgLen + encodeBinaryLen ∧
        d.nextMsgLen + encodeBinaryLen ≤ b.cap ∧ d.nextMsgLen ≤ b.cap) ∧
      (∀ s, (Decode Proto.Unmarshal d s).1 ≠ DecodeResult.panic) ∧
      (∀ r, Reset d r ≠ none) :=
  slices_in_bounds Proto.Unmarshal 0
    [DecoderOp.decode [Chunk.data [0, 0], Chunk.fail (IOErr.other 5)], DecoderOp.reset 1,
     DecoderOp.decode [Chunk.data [255, 255, 255, 255, 1]]]

/-! ## C20: the buffer adjustment of `Decode` -/

/-- The three branches of the buffer adjustment, for a buffer that satisfies the invariant:
a new array of `L + 4` bytes when the length is below `L + 4`; otherwise the same array,
with length `initialBufSize` when `L ≤ initialBufSize` and `L + 4` when not. -/
theorem resizeBuf_policy (b : Buf) (L : Nat) (h : bufOK b) :
    ∃ b1, resizeBuf b L = some b1 ∧ bufOK b1 ∧ L + encodeBinaryLen ≤ b1.cap ∧
      (b.len < L + encodeBinaryLen → b1 = Buf.make (L + encodeBinaryLen)) ∧
      (L + encodeBinaryLen ≤ b.len → b1.data = b.data) ∧
      (L + encodeBinaryLen ≤ initialBufSize → b1.len = initialBufSize) ∧
      (L + encodeBinaryLen ≤ b.len → L ≤ initialBufSize → b1.len = initialBufSize) ∧
      (L + encodeBinaryLen ≤ b.len → initialBufSize < L → b1.len = L + encodeBinaryLen) := by
  obtain ⟨b1, hr, hok1, hcap1⟩ := resizeBuf_ok b L h
  refine ⟨b1, hr, hok1, hcap1, ?_, ?_, ?_, ?_, ?_⟩
  · intro hlt
    simp only [resizeBuf, hlt, if_true, Option.some.injEq] at hr
    exact hr.symm
  · intro hge
    have hnlt : ¬ b.len < L + encodeBinaryLen := by omega
    simp only [resizeBuf, hnlt, if_false] at hr
    split at hr
    · split at hr
      · simp only [Option.some.injEq] at hr; rw [← hr]
      · cases hr
    · split at hr
      · simp only [Option.some.injEq] at hr; rw [← hr]
      · cases hr
  · intro hsmall
    have h1 := h.1
    have hnlt : ¬ b.len < L + encodeBinaryLen := by omega
    have hle : L ≤ initialBufSize := by omega
    have hcap : initialBufSize ≤ b.cap := Nat.le_trans h.1 h.2
    simp only [resizeBuf, hnlt, if_false, hle, if_true, hcap, Option.some.injEq] at hr
    rw [← hr]
  · intro hge hle
    have hnlt : ¬ b.len < L + encodeBinaryLen := by omega
    have hcap : initialBufSize ≤ b.cap := Nat.le_trans h.1 h.2
    simp only [resizeBuf, hnlt, if_false, hle, if_true, hcap, Option.some.injEq] at hr
    rw [← hr]
  · intro hge hgt
    have hnlt : ¬ b.len < L + encodeBinaryLen := by omega
    have hnle : ¬ L ≤ initialBufSize := by omega
    have hcap : L + encodeBinaryLen ≤ b.cap := Nat.le_trans hge h.2
    simp only [resizeBuf, hnlt, if_false, hnle, hcap, if_true, Option.some.injEq] at hr
    rw [← hr]

/-- `decodeLogEntry` keeps the length and the capacity of the buffer. -/
theorem decodeLogEntry_buf (unm : LogEntry → List Nat → Option LogEntry) (d : decoder)
    (s : Stream) (b : Buf) (hb : d.buf = some b)
    (hoff : d.offset ≤ d.nextMsgLen + encodeBinaryLen)
    (hcap : d.nextMsgLen + encodeBinaryLen ≤ b.cap) :
    ∃ b2, (decodeLogEntry unm d s).2.1.buf = some b2 ∧ b2.len = b.len ∧ b2.cap = b.cap := by
  obtain ⟨bs, h1, _, h3, h4, h5⟩ :=
    readRecord_spec d s (d.nextMsgLen + encodeBinaryLen) b hb hoff hcap
  have hcapd : d.nextMsgLen + encodeBinaryLen ≤ b.data.length := hcap
  have hwl : (writeAt b.data d.offset bs).length = b.data.length :=
    writeAt_length _ _ _ (by omega)
  simp only [decodeLogEntry]
  rcases hR : readRecord d s (d.nextMsgLen + encodeBinaryLen) with ⟨res, d1, s1⟩
  rw [hR] at h3 h4 h5
  simp only at h3 h4 h5
  rw [h3]
  cases res with
  | panic => exact absurd rfl h4
  | err e => exact ⟨_, rfl, rfl, hwl⟩
  | ok =>
    simp only [if_true]
    cases hp : d.proto with
    | none => exact ⟨_, rfl, rfl, hwl⟩
    | some p =>
      have hcap2 : d.nextMsgLen ≤ (writeAt b.data d.offset bs).length := by omega
      simp only [Buf.cap, hcap2, if_true]
      cases unm p (List.take d.nextMsgLen (writeAt b.data d.offset bs)) with
      | none => exact ⟨_, rfl, rfl, hwl⟩
      | some p1 => exact ⟨_, rfl, rfl, hwl⟩

/-- `Decode` at a frame boundary on a stream that delivers a header of value `L` within the
maximum: the buffer after the call has the length and the capacity that the adjustment
gives for the buffer on entry. -/
theorem Decode_resize (unm : LogEntry → List Nat → Option LogEntry) (d : decoder) (s : Stream)
    (hnext : d.nextMsgLen = 0) (hoff : d.offset = 0) (hbuf : ∀ b, d.buf = some b → bufOK b)
    (hfree : errorFree s = true) (hlen : 4 ≤ (streamBytes s).length)
    (hL : be32 ((streamBytes s).take 4) ≤ maxMsgLen) :
    ∃ b0 b1 b2, (ensureBuf (ensureProto d)).buf = some b0 ∧ bufOK b0 ∧
      resizeBuf { b0 with data := writeAt b0.data 0 ((streamBytes s).take 4) }
        (be32 ((streamBytes s).take 4)) = some b1 ∧
      (Decode unm d s).2.1.buf = some b2 ∧ b2.len = b1.len ∧ b2.cap = b1.cap := by
  obtain ⟨b, hb, hok, _, _⟩ := ensure_buf d hbuf
  have hcap : encodeBinaryLen ≤ b.cap := by
    have h1 := hok.1
    have h2 := hok.2
    unfold initialBufSize at h1
    unfold encodeBinaryLen
    omega
  obtain ⟨s1, hH, hf1, hb1⟩ :=
    decodeSizeHeader_ok (ensureBuf (ensureProto d)) b s hb hoff hcap hfree hlen
  have hl4 : ((streamBytes s).take 4).length = 4 := by
    rw [List.length_take]; omega
  have hok1 : bufOK { b with data := writeAt b.data 0 ((streamBytes s).take 4) } :=
    bufOK_writeAt b 0 _ hok (by unfold encodeBinaryLen at hcap; omega)
  obtain ⟨b1, hr, hok2, hcap2⟩ := resizeBuf_ok _ (be32 ((streamBytes s).take 4)) hok1
  have hnb : ¬ maxMsgLen < be32 ((streamBytes s).take 4) := by omega
  have hdec : Decode unm d s =
      decodeLogEntry unm
        { ensureBuf (ensureProto d) with
            buf := some b1, offset := 0, nextMsgLen := be32 ((streamBytes s).take 4) } s1 := by
    unfold Decode
    simp only [ensure_nextMsgLen, hnext, if_true, hH, hnb, if_false, hr]
  obtain ⟨b2, h1, h2, h3⟩ := decodeLogEntry_buf unm
    { ensureBuf (ensureProto d) with
        buf := some b1, offset := 0, nextMsgLen := be32 ((streamBytes s).take 4) } s1 b1 rfl
    (Nat.zero_le _) hcap2
  exact ⟨b, b1, b2, hb, hok, hr, by rw [hdec]; exact h1, h2, h3⟩

/-- What the buffer is after a `Decode` that has processed a header of value `L`: shared
content of the statements on the buffer policy. -/
theorem Decode_buffer_after (unm : LogEntry → List Nat → Option LogEntry) (d : decoder)
    (s : Stream) (hnext : d.nextMsgLen = 0) (hoff : d.offset = 0)
    (hbuf : ∀ b, d.buf = some b → bufOK b) (hfree : errorFree s = true)
    (hlen : 4 ≤ (streamBytes s).length) (hL : be32 ((streamBytes s).take 4) ≤ maxMsgLen) :
    ∃ b0 b2, (ensureBuf (ensureProto d)).buf = some b0 ∧
      (Decode unm d s).2.1.buf = some b2 ∧
      be32 ((streamBytes s).take 4) + encodeBinaryLen ≤ b2.cap ∧
      (b0.len < be32 ((streamBytes s).take 4) + encodeBinaryLen →
        b2.len = be32 ((streamBytes s).take 4) + encodeBinaryLen ∧
        b2.cap = be32 ((streamBytes s).take 4) + encodeBinaryLen) ∧
      (be32 ((streamBytes s).take 4) + encodeBinaryLen ≤ b0.len → b2.cap = b0.cap) ∧
      (be32 ((streamBytes s).take 4) + encodeBinaryLen ≤ initialBufSize →
        b2.len = initialBufSize) ∧
      (be32 ((streamBytes s).take 4) + encodeBinaryLen ≤ b0.len →
        be32 ((streamBytes s).take 4) ≤ initialBufSize → b2.len = initialBufSize) ∧
      (be32 ((streamBytes s).take 4) + encodeBinaryLen ≤ b0.len →
        initialBufSize < be32 ((streamBytes s).take 4) →
        b2.len = be32 ((streamBytes s).take 4) + encodeBinaryLen) := by
  obtain ⟨b0, b1, b2, hb0, hok0, hr, hb2, hlen2, hcap2⟩ :=
    Decode_resize unm d s hnext hoff hbuf hfree hlen hL
  have hl4 : ((streamBytes s).take 4).length = 4 := by
    rw [List.length_take]; omega
  have hcap0 : 4 ≤ b0.data.length := by
    have h1 := hok0.1
    have h2 : b0.len ≤ b0.data.length := hok0.2
    unfold initialBufSize at h1
    omega
  have hok1 : bufOK { b0 with data := writeAt b0.data 0 ((streamBytes s).take 4) } :=
    bufOK_writeAt b0 0 _ hok0 (by show _ ≤ b0.data.length; omega)
  have hwl : (writeAt b0.data 0 ((streamBytes s).take 4)).length = b0.data.length :=
    writeAt_length _ _ _ (by omega)
  obtain ⟨b1', hr', _, hc, hgrow, hkeep, hsmall, hshrink, hlarge⟩ :=
    resizeBuf_policy _ (be32 ((streamBytes s).take 4)) hok1
  rw [hr] at hr'
  simp only [Option.some.injEq] at hr'
  subst hr'
  refine ⟨b0, b2, hb0, hb2, by rw [hcap2]; exact hc, ?_, ?_, ?_, ?_, ?_⟩
  · intro hlt
    have := hgrow hlt
    subst this
    rw [hlen2, hcap2, cap_make]
    exact ⟨rfl, rfl⟩
  · intro hge
    have := hkeep hge
    rw [hcap2]
    show b1.data.length = b0.data.length
    rw [this]
    exact hwl
  · intro h; rw [hlen2]; exact hsmall h
  · intro h1 h2; rw [hlen2]; exact hshrink h1 h2
  · intro h1 h2; rw [hlen2]; exact hlarge h1 h2

/-- C20 (counterexample): a fresh decoder on a stream whose header declares 2046 bytes,
less than `initialBufSize`. After the call the buffer has length 2050, not
`initialBufSize`: the fresh buffer of 2048 bytes is shorter than `2046 + 4`, so a new one
is allocated. And for a buffer of length 5000 the adjustment for the same header gives
length 2048, less than the 2050 bytes the body read needs (the capacity stays 5000). -/
theorem buffer_not_back_at_initial :
    (∃ b2, (Decode Proto.Unmarshal (decodeFunc 0) [Chunk.data [0, 0, 7, 254]]).2.1.buf = some b2 ∧
      b2.len = 2050 ∧ be32 [0, 0, 7, 254] = 2046) ∧
    (∃ b1, resizeBuf (Buf.make 5000) 2046 = some b1 ∧ b1.len = 2048 ∧ b1.cap = 5000) := by
  constructor
  · obtain ⟨b0, b2, hb0, hb2, _, hgrow, _⟩ :=
      Decode_buffer_after Proto.Unmarshal (decodeFunc 0) [Chunk.data [0, 0, 7, 254]] rfl rfl
        (by intro b hb; cases hb) (by decide) (by decide) (by decide)
    have hb0' : b0 = Buf.make initialBufSize := by
      have : (ensureBuf (ensureProto (decodeFunc 0))).buf = some (Buf.make initialBufSize) := rfl
      rw [this] at hb0
      exact (Option.some.inj hb0).symm
    have hL : be32 ((streamBytes [Chunk.data [0, 0, 7, 254]]).take 4) = 2046 := by decide
    rw [hL] at hgrow
    have h := hgrow (by rw [hb0']; decide)
    exact ⟨b2, hb2, h.1, by decide⟩
  · obtain ⟨b1, hr, _, _, _, hkeep, _, hshrink, _⟩ :=
      resizeBuf_policy (Buf.make 5000) 2046 (bufOK_make 5000 (by decide))
    refine ⟨b1, hr, hshrink (by decide) (by decide), ?_⟩
    have := hkeep (by decide)
    show b1.data.length = 5000
    rw [this]
    exact cap_make 5000

/-- C20 (amended): after `Decode` has processed a frame header of value `L` (at most
`maxMsgLen`), the capacity of the buffer is at least `L + 4`, what the body read needs;
a new buffer, of length and capacity `L + 4`, is allocated only when the length on entry
is below `L + 4`, and otherwise the capacity is unchanged; for every `L` with
`L + 4 ≤ initialBufSize`, whatever the length was before, the length after the call is
exactly `initialBufSize`; when the buffer is kept its length is `initialBufSize` for
`L ≤ initialBufSize` and `L + 4` for larger `L`. -/
theorem Decode_buffer_policy (unm : LogEntry → List Nat → Option LogEntry) (d : decoder)
    (s : Stream) (hnext : d.nextMsgLen = 0) (hoff : d.offset = 0)
    (hbuf : ∀ b, d.buf = some b → bufOK b) (hfree : errorFree s = true)
    (hlen : 4 ≤ (streamBytes s).length) (hL : be32 ((streamBytes s).take 4) ≤ maxMsgLen) :
    ∃ b0 b2, (ensureBuf (ensureProto d)).buf = some b0 ∧
      (Decode unm d s).2.1.buf = some b2 ∧
      be32 ((streamBytes s).take 4) + encodeBinaryLen ≤ b2.cap ∧
      (b0.len < be32 ((streamBytes s).take 4) + encodeBinaryLen →
        b2.len = be32 ((streamBytes s).take 4) + encodeBinaryLen ∧
        b2.cap = be32 ((streamBytes s).take 4) + encodeBinaryLen) ∧
      (be32 ((streamBytes s).take 4) + encodeBinaryLen ≤ b0.len → b2.cap = b0.cap) ∧
      (be32 ((streamBytes s).take 4) + encodeBinaryLen ≤ initialBufSize →
        b2.len = initialBufSize) ∧
      (be32 ((streamBytes s).take 4) + encodeBinaryLen ≤ b0.len →
        be32 ((streamBytes s).take 4) ≤ initialBufSize → b2.len = initialBufSize) ∧
      (be32 ((streamBytes s).take 4) + encodeBinaryLen ≤ b0.len →
        initialBufSize < be32 ((streamBytes s).take 4) →
        b2.len = be32 ((streamBytes s).take 4) + encodeBinaryLen) :=
  Decode_buffer_after unm d s hnext hoff hbuf hfree hlen hL

/-- C20 (witness): a fresh decoder on a stream that holds the frame of scenario A and four
more bytes; its header declares 18 bytes and the buffer stays at `initialBufSize`. -/
theorem Decode_buffer_policy_witness :
    ∃ b2,
      (Decode Proto.Unmarshal (decodeFunc 0)
        [Chunk.data (putBE32 18 ++ (Proto.Marshal helloEntry ++ [0, 0, 0, 18]))]).2.1.buf =
        some b2 ∧ b2.len = initialBufSize := by
  obtain ⟨b0, b2, _, hb2, _, _, _, hsmall, _⟩ :=
    Decode_buffer_policy Proto.Unmarshal (decodeFunc 0)
      [Chunk.data (putBE32 18 ++ (Proto.Marshal helloEntry ++ [0, 0, 0, 18]))] rfl rfl
      (by intro b hb; cases hb) (by decide) (by decide) (by decide)
  exact ⟨b2, hb2, hsmall (by decide)⟩

/-! ## C11: short reads -/

theorem sameBytes_nil : sameBytes [] [] := ⟨rfl, rfl, rfl⟩

/-- `ReadFull` returns the same bytes and the same error on two streams that deliver the
same bytes, and leaves two such streams. -/
theorem ReadFull_sameBytes (s t : Stream) (k : Nat) (h : sameBytes s t) :
    (ReadFull s k).1 = (ReadFull t k).1 ∧ (ReadFull s k).2.1 = (ReadFull t k).2.1 ∧
    sameBytes (ReadFull s k).2.2 (ReadFull t k).2.2 := by
  obtain ⟨hs, ht, hst⟩ := h
  by_cases hk : k ≤ (streamBytes s).length
  · obtain ⟨s1, h1, h2, h3⟩ := ReadFull_enough s k hs hk
    obtain ⟨t1, g1, g2, g3⟩ := ReadFull_enough t k ht (by rw [← hst]; exact hk)
    rw [h1, g1, hst]
    exact ⟨rfl, rfl, h2, g2, by rw [h3, g3, hst]⟩
  · have h1 := ReadFull_short s k hs (by omega)
    have g1 := ReadFull_short t k ht (by rw [← hst]; omega)
    rw [h1, g1, hst]
    exact ⟨rfl, rfl, sameBytes_nil⟩

/-- The loop of `readRecord` gives the same result and the same decoder on two streams
that deliver the same bytes. -/
theorem readRecordLoop_sameBytes (size : Nat) : ∀ (fuel : Nat) (d : decoder) (s t : Stream)
    (last : Option IOErr), sameBytes s t →
    (readRecordLoop size fuel d s last).1 = (readRecordLoop size fuel d t last).1 ∧
    (readRecordLoop size fuel d s last).2.1 = (readRecordLoop size fuel d t last).2.1 ∧
    sameBytes (readRecordLoop size fuel d s last).2.2 (readRecordLoop size fuel d t last).2.2 := by
  intro fuel
  induction fuel with
  | zero =>
    intro d s t last h
    cases last <;> exact ⟨rfl, rfl, h⟩
  | succ n ih =>
    intro d s t last h
    simp only [readRecordLoop]
    cases hb : d.buf with
    | none => exact ⟨rfl, rfl, h⟩
    | some b =>
      simp only
      by_cases hbd : d.offset ≤ size ∧ size ≤ b.cap
      · simp only [hbd, and_self, if_true]
        obtain ⟨h1, h2, h3⟩ := ReadFull_sameBytes s t (size - d.offset) h
        rcases hrs : ReadFull s (size - d.offset) with ⟨bs, e, s1⟩
        rcases hrt : ReadFull t (size - d.offset) with ⟨bt, f, t1⟩
        rw [hrs, hrt] at h1 h2 h3
        simp only at h1 h2 h3
        subst h1 h2
        cases e with
        | none => exact ⟨rfl, rfl, h3⟩
        | some e1 =>
          simp only
          by_cases hu : e1 = IOErr.ErrUnexpectedEOF
          · simp only [hu, if_true]
            exact ih _ s1 t1 _ h3
          · simp only [hu, if_false]
            exact ⟨trivial, trivial, h3⟩
      · simp only [hbd, if_false]
        exact ⟨trivial, trivial, h⟩

theorem readRecord_sameBytes (d : decoder) (s t : Stream) (size : Nat) (h : sameBytes s t) :
    (readRecord d s size).1 = (readRecord d t size).1 ∧
    (readRecord d s size).2.1 = (readRecord d t size).2.1 ∧
    sameBytes (readRecord d s size).2.2 (readRecord d t size).2.2 :=
  readRecordLoop_sameBytes size maxDecodeRetry d s t none h

theorem decodeLogEntry_sameBytes (unm : LogEntry → List Nat → Option LogEntry) (d : decoder)
    (s t : Stream) (h : sameBytes s t) :
    (decodeLogEntry unm d s).1 = (decodeLogEntry unm d t).1 ∧
    (decodeLogEntry unm d s).2.1 = (decodeLogEntry unm d t).2.1 ∧
    sameBytes (decodeLogEntry unm d s).2.2 (decodeLogEntry unm d t).2.2 := by
  obtain ⟨h1, h2, h3⟩ := readRecord_sameBytes d s t (d.nextMsgLen + encodeBinaryLen) h
  simp only [decodeLogEntry]
  rcases hrs : readRecord d s (d.nextMsgLen + encodeBinaryLen) with ⟨res, d1, s1⟩
  rcases hrt : readRecord d t (d.nextMsgLen + encodeBinaryLen) with ⟨res2, d2, t1⟩
  rw [hrs, hrt] at h1 h2 h3
  simp only at h1 h2 h3
  subst h1 h2
  cases res with
  | panic => exact ⟨rfl, rfl, h3⟩
  | err e => exact ⟨rfl, rfl, h3⟩
  | ok =>
    simp only
    cases d1.proto with
    | none => exact ⟨rfl, rfl, h3⟩
    | some p =>
      cases d1.buf with
      | none => exact ⟨rfl, rfl, h3⟩
      | some b =>
        simp only
        split
        · split <;> exact ⟨rfl, rfl, h3⟩
        · exact ⟨rfl, rfl, h3⟩

theorem decodeSizeHeader_sameBytes (d : decoder) (s t : Stream) (h : sameBytes s t) :
    (decodeSizeHeader d s).1 = (decodeSizeHeader d t).1 ∧
    (decodeSizeHeader d s).2.1 = (decodeSizeHeader d t).2.1 ∧
    sameBytes (decodeSizeHeader d s).2.2 (decodeSizeHeader d t).2.2 := by
  obtain ⟨h1, h2, h3⟩ := readRecord_sameBytes d s t encodeBinaryLen h
  simp only [decodeSizeHeader]
  rcases hrs : readRecord d s encodeBinaryLen with ⟨res, d1, s1⟩
  rcases hrt : readRecord d t encodeBinaryLen with ⟨res2, d2, t1⟩
  rw [hrs, hrt] at h1 h2 h3
  simp only at h1 h2 h3
  subst h1 h2
  cases res with
  | panic => exact ⟨rfl, rfl, h3⟩
  | err e => exact ⟨rfl, rfl, h3⟩
  | ok =>
    simp only
    cases d1.buf with
    | none => exact ⟨rfl, rfl, h3⟩
    | some b =>
      simp only
      split <;> exact ⟨rfl, rfl, h3⟩

/-- `Decode` gives the same result and leaves the same decoder on two streams that deliver
the same bytes, and leaves two such streams. -/
theorem Decode_sameBytes (unm : LogEntry → List Nat → Option LogEntry) (d : decoder)
    (s t : Stream) (h : sameBytes s t) :
    (Decode unm d s).1 = (Decode unm d t).1 ∧
    (Decode unm d s).2.1 = (Decode unm d t).2.1 ∧
    sameBytes (Decode unm d s).2.2 (Decode unm d t).2.2 := by
  simp only [Decode]
  by_cases hn : (ensureBuf (ensureProto d)).nextMsgLen = 0
  · simp only [hn, if_true]
    obtain ⟨h1, h2, h3⟩ := decodeSizeHeader_sameBytes (ensureBuf (ensureProto d)) s t h
    rcases hrs : decodeSizeHeader (ensureBuf (ensureProto d)) s with ⟨res, d1, s1⟩
    rcases hrt : decodeSizeHeader (ensureBuf (ensureProto d)) t with ⟨res2, d2, t1⟩
    rw [hrs, hrt] at h1 h2 h3
    simp only at h1 h2 h3
    subst h1 h2
    cases res with
    | none => exact ⟨rfl, rfl, h3⟩
    | some r =>
      cases r with
      | error e => exact ⟨rfl, rfl, h3⟩
      | ok msgLen =>
        simp only
        split
        · exact ⟨rfl, rfl, h3⟩
        · cases d1.buf with
          | none => exact ⟨rfl, rfl, h3⟩
          | some b =>
            simp only
            cases resizeBuf b msgLen with
            | none => exact ⟨rfl, rfl, h3⟩
            | some b1 => exact decodeLogEntry_sameBytes unm _ s1 t1 h3
  · simp only [hn, if_false]
    exact decodeLogEntry_sameBytes unm _ s t h

/-- The loop of `readRecord` leaves `offset` at 0 when it succeeds. -/
theorem readRecordLoop_ok_offset (size : Nat) : ∀ (fuel : Nat) (d : decoder) (s : Stream)
    (last : Option IOErr), (readRecordLoop size fuel d s last).1 = ReadResult.ok →
    (readRecordLoop size fuel d s last).2.1.offset = 0 := by
  intro fuel
  induction fuel with
  | zero =>
    intro d s last h
    cases last with
    | none => rfl
    | some e => simp [readRecordLoop] at h
  | succ n ih =>
    intro d s last h
    cases hb : d.buf with
    | none => simp [readRecordLoop, hb] at h
    | some b =>
      by_cases hbd : d.offset ≤ size ∧ size ≤ b.cap
      · rcases hr : ReadFull s (size - d.offset) with ⟨bs, e, s1⟩
        cases e with
        | none => simp [readRecordLoop, hb, hbd, hr]
        | some e1 =>
          by_cases hu : e1 = IOErr.ErrUnexpectedEOF
          · subst hu
            have hstep : readRecordLoop size (n + 1) d s last =
                readRecordLoop size n
                  { d with buf := some { b with data := writeAt b.data d.offset bs },
                           offset := d.offset + bs.length } s1
                  (some IOErr.ErrUnexpectedEOF) := by
              simp only [readRecordLoop, hb, hbd, and_self, if_true, hr]
            rw [hstep] at h ⊢
            exact ih _ _ _ h
          · simp [readRecordLoop, hb, hbd, hr, hu] at h
      · simp [readRecordLoop, hb, hbd] at h

/-- A `decodeLogEntry` that returns a message leaves offset 0 and no pending length. -/
theorem decodeLogEntry_ok_state (unm : LogEntry → List Nat → Option LogEntry) (d : decoder)
    (s : Stream) (m : Message) (h : (decodeLogEntry unm d s).1 = DecodeResult.ok m) :
    (decodeLogEntry unm d s).2.1.offset = 0 ∧ (decodeLogEntry unm d s).2.1.nextMsgLen = 0 := by
  have hoff := readRecordLoop_ok_offset (d.nextMsgLen + encodeBinaryLen) maxDecodeRetry d s none
  rcases hr : readRecord d s (d.nextMsgLen + encodeBinaryLen) with ⟨res, d1, s1⟩
  have hr2 : readRecordLoop (d.nextMsgLen + encodeBinaryLen) maxDecodeRetry d s none =
      (res, d1, s1) := hr
  rw [hr2] at hoff
  cases res with
  | panic => simp [decodeLogEntry, hr] at h
  | err e => simp [decodeLogEntry, hr] at h
  | ok =>
    have h0 : d1.offset = 0 := hoff rfl
    cases hp : d1.proto with
    | none => simp [decodeLogEntry, hr, hp] at h
    | some p =>
      cases hb : d1.buf with
      | none => simp [decodeLogEntry, hr, hp, hb] at h
      | some b =>
        by_cases hcap : d.nextMsgLen ≤ b.cap
        · cases hu : unm p (List.take d.nextMsgLen b.data) with
          | none => simp [decodeLogEntry, hr, hp, hb, hcap, hu] at h
          | some p1 => simp [decodeLogEntry, hr, hp, hb, hcap, hu, h0]
        · simp [decodeLogEntry, hr, hp, hb, hcap] at h

/-- A `Decode` that returns a message leaves offset 0 and no pending length. -/
theorem Decode_ok_state (unm : LogEntry → List Nat → Option LogEntry) (d : decoder)
    (s : Stream) (m : Message) (h : (Decode unm d s).1 = DecodeResult.ok m) :
    (Decode unm d s).2.1.offset = 0 ∧ (Decode unm d s).2.1.nextMsgLen = 0 := by
  by_cases hn : (ensureBuf (ensureProto d)).nextMsgLen = 0
  · rcases hr : decodeSizeHeader (ensureBuf (ensureProto d)) s with ⟨res, d1, s1⟩
    cases res with
    | none => simp [Decode, hn, hr] at h
    | some r =>
      cases r with
      | error e => simp [Decode, hn, hr] at h
      | ok msgLen =>
        by_cases hbig : maxMsgLen < msgLen
        · simp [Decode, hn, hr, hbig] at h
        · cases hb : d1.buf with
          | none => simp [Decode, hn, hr, hbig, hb] at h
          | some b =>
            cases hz : resizeBuf b msgLen with
            | none => simp [Decode, hn, hr, hbig, hb, hz] at h
            | some b1 =>
              have hD : Decode unm d s =
                  decodeLogEntry unm { d1 with buf := some b1, nextMsgLen := msgLen } s1 := by
                simp only [Decode, hn, if_true, hr, hbig, if_false, hb, hz]
              rw [hD] at h ⊢
              exact decodeLogEntry_ok_state unm _ s1 m h
  · have hD : Decode unm d s = decodeLogEntry unm (ensureBuf (ensureProto d)) s := by
      simp only [Decode, hn, if_false]
    rw [hD] at h ⊢
    exact decodeLogEntry_ok_state unm _ s m h

theorem errorFree_byteByByte (bs : List Nat) : errorFree (byteByByte bs) = true := by
  simp [errorFree, byteByByte, Chunk.isData]

theorem streamBytes_byteByByte (bs : List Nat) : streamBytes (byteByByte bs) = bs := by
  induction bs with
  | nil => rfl
  | cons x rest ih =>
    show streamBytes (Chunk.data [x] :: byteByByte rest) = x :: rest
    simp [streamBytes, ih]

/-- C11: for every decoder state and every stream none of whose reads fails, `Decode` on
the stream, however its bytes are split into reads, returns the same result (the same
message when the single-read delivery succeeds) as on the stream that delivers the same
bytes in a single read, leaves the same decoder state (offset 0 and no pending length
after a success), and leaves a stream with the same bytes ahead; this holds in particular
for the delivery one byte at a time. -/
theorem Decode_short_reads (unm : LogEntry → List Nat → Option LogEntry) (d : decoder)
    (s : Stream) (hfree : errorFree s = true) :
    (Decode unm d s).1 = (Decode unm d [Chunk.data (streamBytes s)]).1 ∧
    (Decode unm d s).2.1 = (Decode unm d [Chunk.data (streamBytes s)]).2.1 ∧
    streamBytes (Decode unm d s).2.2 =
      streamBytes (Decode unm d [Chunk.data (streamBytes s)]).2.2 ∧
    (∀ m, (Decode unm d [Chunk.data (streamBytes s)]).1 = DecodeResult.ok m →
      (Decode unm d s).1 = DecodeResult.ok m ∧ (Decode unm d s).2.1.offset = 0 ∧
      (Decode unm d s).2.1.nextMsgLen = 0) ∧
    (Decode unm d (byteByByte (streamBytes s))).1 = (Decode unm d s).1 ∧
    (Decode unm d (byteByByte (streamBytes s))).2.1 = (Decode unm d s).2.1 := by
  have hsame : sameBytes s [Chunk.data (streamBytes s)] :=
    ⟨hfree, by simp [errorFree, Chunk.isData], by simp [streamBytes]⟩
  have hsame2 : sameBytes (byteByByte (streamBytes s)) s :=
    ⟨errorFree_byteByByte _, hfree, streamBytes_byteByByte _⟩
  obtain ⟨h1, h2, h3⟩ := Decode_sameBytes unm d s _ hsame
  obtain ⟨g1, g2, _⟩ := Decode_sameBytes unm d _ s hsame2
  refine ⟨h1, h2, h3.2.2, ?_, g1, g2⟩
  intro m hm
  have hok : (Decode unm d s).1 = DecodeResult.ok m := by rw [h1]; exact hm
  exact ⟨hok, Decode_ok_state unm d s m hok⟩

/-- C11 (witness): the frame of scenario A with four trailing bytes, delivered to a fresh
decoder one byte per read. -/
theorem Decode_short_reads_witness :
    (Decode Proto.Unmarshal (decodeFunc 0)
        (byteByByte (putBE32 18 ++ (Proto.Marshal helloEntry ++ [0, 0, 0, 18])))).1 =
      (Decode Proto.Unmarshal (decodeFunc 0)
        [Chunk.data (streamBytes
          (byteByByte (putBE32 18 ++ (Proto.Marshal helloEntry ++ [0, 0, 0, 18]))))]).1 :=
  (Decode_short_reads Proto.Unmarshal (decodeFunc 0)
    (byteByByte (putBE32 18 ++ (Proto.Marshal helloEntry ++ [0, 0, 0, 18])))
    (by decide)).1

/-! ## Decoder states that behave alike -/

/-- One attempt of the loop of `readRecord` that fills the record: the loop returns nil
with `offset` 0. -/
theorem readRecordLoop_done (size fuel : Nat) (d : decoder) (s s1 : Stream)
    (last : Option IOErr) (b : Buf) (bs : List Nat) (hb : d.buf = some b)
    (hoff : d.offset ≤ size) (hcap : size ≤ b.cap)
    (hread : ReadFull s (size - d.offset) = (bs, none, s1)) :
    readRecordLoop size (fuel + 1) d s last =
      (ReadResult.ok,
        { d with buf := some { b with data := writeAt b.data d.offset bs }, offset := 0 },
        s1) := by
  simp only [readRecordLoop, hb, hoff, hcap, and_self, if_true, hread]

/-- The loop of `readRecord` run from two states with the same offset, both within their
slice bounds, on the same stream: the same result, the same stream afterwards, and the
same bytes stored at the same place in both buffers. -/
theorem readRecordLoop_pair (size : Nat) : ∀ (fuel : Nat) (d e : decoder) (s : Stream)
    (last : Option IOErr) (b c : Buf), d.buf = some b → e.buf = some c →
    d.offset = e.offset → d.offset ≤ size → size ≤ b.cap → size ≤ c.cap →
    (readRecordLoop size fuel d s last).1 = (readRecordLoop size fuel e s last).1 ∧
    (readRecordLoop size fuel d s last).2.2 = (readRecordLoop size fuel e s last).2.2 ∧
    ∃ bs, d.offset + bs.length ≤ size ∧
      (readRecordLoop size fuel d s last).2.1 =
        { d with buf := some { b with data := writeAt b.data d.offset bs },
                 offset := if (readRecordLoop size fuel d s last).1 = ReadResult.ok then 0
                           else d.offset + bs.length } ∧
      (readRecordLoop size fuel e s last).2.1 =
        { e with buf := some { c with data := writeAt c.data d.offset bs },
                 offset := if (readRecordLoop size fuel d s last).1 = ReadResult.ok then 0
                           else d.offset + bs.length } ∧
      ((readRecordLoop size fuel d s last).1 = ReadResult.ok → (fuel ≠ 0 ∨ last ≠ none) →
        d.offset + bs.length = size) := by
  intro fuel
  induction fuel with
  | zero =>
    intro d e s last b c hb hc hoe hoff _ _
    have hd := decoder_eta d b hb
    have he := decoder_eta e c hc
    rw [← hoe] at he
    cases last with
    | none =>
      refine ⟨rfl, rfl, [], by simpa using hoff, ?_, ?_, by simp⟩
      · simp only [readRecordLoop, if_true, writeAt_nil]
        cases d
        simp at hb ⊢
        exact hb
      · simp only [readRecordLoop, if_true, writeAt_nil]
        cases e
        simp at hc ⊢
        exact hc
    | some e1 =>
      refine ⟨rfl, rfl, [], by simpa using hoff, ?_, ?_, by simp [readRecordLoop]⟩
      · simp only [readRecordLoop, reduceCtorEq, if_false]
        exact hd.symm
      · simp only [readRecordLoop, reduceCtorEq, if_false]
        exact he.symm
  | succ n ih =>
    intro d e s last b c hb hc hoe hoff hcapb hcapc
    obtain ⟨hr1, _, hr3, _, _⟩ := ReadFull_spec s (size - d.offset)
    rcases hr : ReadFull s (size - d.offset) with ⟨bs1, err, s1⟩
    rw [hr] at hr1 hr3
    simp only at hr1 hr3
    have hre : ReadFull s (size - e.offset) = (bs1, err, s1) := by rw [← hoe]; exact hr
    have hoe' : e.offset ≤ size := by omega
    cases err with
    | none =>
      have hl := hr3 rfl
      rw [readRecordLoop_done size n d s s1 last b bs1 hb hoff hcapb hr,
        readRecordLoop_done size n e s s1 last c bs1 hc hoe' hcapc hre, ← hoe]
      exact ⟨rfl, rfl, bs1, by omega, by simp, by simp, fun _ _ => by omega⟩
    | some e1 =>
      by_cases hu : e1 = IOErr.ErrUnexpectedEOF
      · subst hu
        rw [readRecordLoop_retry size n d s s1 last b bs1 hb hoff hcapb hr,
          readRecordLoop_retry size n e s s1 last c bs1 hc hoe' hcapc hre, ← hoe]
        have hcapbd : size ≤ b.data.length := hcapb
        have hcapcd : size ≤ c.data.length := hcapc
        have hwb : (writeAt b.data d.offset bs1).length = b.data.length :=
          writeAt_length _ _ _ (by omega)
        have hwc : (writeAt c.data d.offset bs1).length = c.data.length :=
          writeAt_length _ _ _ (by omega)
        obtain ⟨h1, h2, bs2, h3, h4, h5, h6⟩ :=
          ih { d with buf := some { b with data := writeAt b.data d.offset bs1 },
                      offset := d.offset + bs1.length }
            { e with buf := some { c with data := writeAt c.data d.offset bs1 },
                     offset := d.offset + bs1.length } s1 (some IOErr.ErrUnexpectedEOF)
            { b with data := writeAt b.data d.offset bs1 }
            { c with data := writeAt c.data d.offset bs1 } rfl rfl rfl
            (by show d.offset + bs1.length ≤ size; omega)
            (by show size ≤ (writeAt b.data d.offset bs1).length; omega)
            (by show size ≤ (writeAt c.data d.offset bs1).length; omega)
        simp only at h1 h2 h3 h4 h5 h6
        refine ⟨h1, h2, bs1 ++ bs2, ?_, ?_, ?_, ?_⟩
        · simp only [List.length_append]; omega
        · rw [h4, writeAt_writeAt _ _ _ _ (by omega)]
          simp only [List.length_append, Nat.add_assoc]
        · rw [h5, writeAt_writeAt _ _ _ _ (by omega)]
          simp only [List.length_append, Nat.add_assoc]
        · intro hok _
          have := h6 hok (Or.inr (by simp))
          simp only [List.length_append]; omega
      · rw [readRecordLoop_fail size n d s s1 last b bs1 e1 hb hoff hcapb hu hr,
          readRecordLoop_fail size n e s s1 last c bs1 e1 hc hoe' hcapc hu hre, ← hoe]
        exact ⟨rfl, rfl, bs1, by omega, by simp, by simp, fun h => by simp at h⟩

theorem viewBuf_some (d : decoder) (b : Buf) (h : d.buf = some b) : viewBuf d = b := by
  simp [viewBuf, h]

theorem ensure_view (d : decoder) : (ensureBuf (ensureProto d)).buf = some (viewBuf d) := by
  cases h : d.buf <;> simp [ensureBuf, ensureProto, viewBuf, h]

/-- Under the invariant the buffer `Decode` works with satisfies `bufOK` and has room for
the pending record. -/
theorem viewBuf_inv (d : decoder) (h : decoderInv d) :
    bufOK (viewBuf d) ∧ d.nextMsgLen + encodeBinaryLen ≤ (viewBuf d).cap := by
  obtain ⟨_, _, hnone, hsome⟩ := h
  cases hb : d.buf with
  | none =>
    have h0 := hnone hb
    simp only [viewBuf, hb]
    refine ⟨bufOK_make _ (Nat.le_refl _), ?_⟩
    rw [h0, cap_make]
    decide
  | some b =>
    rw [viewBuf_some d b hb]
    exact hsome b hb

theorem take_of_take_eq (x y : List Nat) (n m : Nat) (hnm : n ≤ m)
    (h : x.take m = y.take m) : x.take n = y.take n := by
  have hx : x.take n = (x.take m).take n := by
    rw [List.take_take, Nat.min_eq_left hnm]
  have hy : y.take n = (y.take m).take n := by
    rw [List.take_take, Nat.min_eq_left hnm]
  rw [hx, hy, h]

/-- `readRecord` run from two states with the same offset whose buffers agree below the
offset, on the same stream: the same result and stream, the same new offset, buffers of
unchanged length and capacity that agree below the new offset and, on success, below
`size`. -/
theorem readRecord_pair (d e : decoder) (s : Stream) (size : Nat) (b c : Buf)
    (hb : d.buf = some b) (hc : e.buf = some c) (hoe : d.offset = e.offset)
    (hoff : d.offset ≤ size) (hcapb : size ≤ b.cap) (hcapc : size ≤ c.cap)
    (hpre : b.data.take d.offset = c.data.take d.offset) :
    ∃ (res : ReadResult) (s1 : Stream) (o : Nat) (wb wc : List Nat),
      readRecord d s size = (res, { d with buf := some { b with data := wb }, offset := o }, s1) ∧
      readRecord e s size = (res, { e with buf := some { c with data := wc }, offset := o }, s1) ∧
      wb.length = b.data.length ∧ wc.length = c.data.length ∧ o ≤ size ∧
      wb.take o = wc.take o ∧ res ≠ ReadResult.panic ∧
      (res = ReadResult.ok → o = 0 ∧ wb.take size = wc.take size) := by
  obtain ⟨h1, h2, bs, h3, h4, h5, h6⟩ :=
    readRecordLoop_pair size maxDecodeRetry d e s none b c hb hc hoe hoff hcapb hcapc
  obtain ⟨_, _, _, _, hnp, _⟩ := readRecordLoop_spec size maxDecodeRetry d s none b hb hoff hcapb
  have hcapbd : size ≤ b.data.length := hcapb
  have hcapcd : size ≤ c.data.length := hcapc
  have hwb : (writeAt b.data d.offset bs).length = b.data.length :=
    writeAt_length _ _ _ (by omega)
  have hwc : (writeAt c.data d.offset bs).length = c.data.length :=
    writeAt_length _ _ _ (by omega)
  have htake : (writeAt b.data d.offset bs).take (d.offset + bs.length) =
      (writeAt c.data d.offset bs).take (d.offset + bs.length) := by
    rw [take_writeAt _ _ _ (by omega), take_writeAt _ _ _ (by omega), hpre]
  unfold readRecord
  rcases hD : readRecordLoop size maxDecodeRetry d s none with ⟨res, d1, s1⟩
  rcases hE : readRecordLoop size maxDecodeRetry e s none with ⟨res2, e1, s2⟩
  rw [hD] at h1 h2 h4 h5 h6 hnp
  rw [hE] at h1 h2 h5
  simp only at h1 h2 h4 h5 h6 hnp
  subst h1 h2
  rw [h4, h5]
  refine ⟨res, s1, _, _, _, rfl, rfl, hwb, hwc, ?_, ?_, hnp, ?_⟩
  · split <;> omega
  · split
    · simp
    · exact htake
  · intro hok
    have hsz := h6 hok (Or.inl (by decide))
    rw [← hsz]
    exact ⟨by simp [hok], htake⟩

/-- `decodeLogEntry` run from two states that read the same pending record at the same
offset with buffers that agree below it: the same result and stream, and states that are
alike. -/
theorem decodeLogEntry_similar (unm : LogEntry → List Nat → Option LogEntry) (d e : decoder)
    (s : Stream) (b c : Buf) (p : LogEntry)
    (hb : d.buf = some b) (hc : e.buf = some c) (hpd : d.proto = some p)
    (hpe : e.proto = some p) (hoe : d.offset = e.offset) (hne : d.nextMsgLen = e.nextMsgLen)
    (hmax : d.nextMsgLen ≤ maxMsgLen) (hoff : d.offset ≤ d.nextMsgLen + encodeBinaryLen)
    (hokb : bufOK b) (hokc : bufOK c) (hlen : b.len = c.len)
    (hcapb : d.nextMsgLen + encodeBinaryLen ≤ b.cap)
    (hcapc : d.nextMsgLen + encodeBinaryLen ≤ c.cap)
    (hpre : b.data.take d.offset = c.data.take d.offset) :
    (decodeLogEntry unm d s).1 = (decodeLogEntry unm e s).1 ∧
    (decodeLogEntry unm d s).2.2 = (decodeLogEntry unm e s).2.2 ∧
    similar (decodeLogEntry unm d s).2.1 (decodeLogEntry unm e s).2.1 := by
  have hinvd := (decodeLogEntry_inv unm d s b p hb hpd hokb hmax hoff hcapb).2
  have hinve := (decodeLogEntry_inv unm e s c p hc hpe hokc (by omega) (by omega)
    (by omega)).2
  obtain ⟨res, s1, o, wb, wc, hD, hE, hwb, hwc, ho, hto, hnp, hokres⟩ :=
    readRecord_pair d e s (d.nextMsgLen + encodeBinaryLen) b c hb hc hoe hoff hcapb hcapc hpre
  rw [hne] at hE
  have hcapbd : d.nextMsgLen + encodeBinaryLen ≤ b.data.length := hcapb
  have hcapcd : d.nextMsgLen + encodeBinaryLen ≤ c.data.length := hcapc
  cases res with
  | panic => exact absurd rfl hnp
  | err er =>
    have hDe : decodeLogEntry unm d s =
        (DecodeResult.err (DecodeErr.logEntry er d.nextMsgLen),
          { d with buf := some { b with data := wb }, offset := o }, s1) := by
      simp only [decodeLogEntry, hD]
    have hEe : decodeLogEntry unm e s =
        (DecodeResult.err (DecodeErr.logEntry er e.nextMsgLen),
          { e with buf := some { c with data := wc }, offset := o }, s1) := by
      simp only [decodeLogEntry, hE]
    rw [hDe] at hinvd ⊢
    rw [hEe] at hinve ⊢
    refine ⟨by rw [hne], rfl, hinvd, hinve, rfl, hne, hlen, hto⟩
  | ok =>
    obtain ⟨ho0, htk⟩ := hokres rfl
    subst ho0
    have htkL : wb.take d.nextMsgLen = wc.take d.nextMsgLen :=
      take_of_take_eq wb wc _ _ (by omega) htk
    have hcb : d.nextMsgLen ≤ wb.length := by omega
    have hcc : e.nextMsgLen ≤ wc.length := by omega
    cases hu : unm p (wb.take d.nextMsgLen) with
    | none =>
      have hu2 : unm p (wc.take e.nextMsgLen) = none := by rw [← hne, ← htkL]; exact hu
      have hDe : decodeLogEntry unm d s =
          (DecodeResult.err (DecodeErr.unmarshal d.nextMsgLen),
            { d with buf := some { b with data := wb }, offset := 0, nextMsgLen := 0 }, s1) := by
        simp only [decodeLogEntry, hD, hpd, Buf.cap, hcb, if_true, hu]
      have hEe : decodeLogEntry unm e s =
          (DecodeResult.err (DecodeErr.unmarshal e.nextMsgLen),
            { e with buf := some { c with data := wc }, offset := 0, nextMsgLen := 0 }, s1) := by
        simp only [decodeLogEntry, hE, hpe, Buf.cap, hcc, if_true, hu2]
      rw [hDe] at hinvd ⊢
      rw [hEe] at hinve ⊢
      exact ⟨by rw [hne], rfl, hinvd, hinve, rfl, rfl, hlen, by simp⟩
    | some p1 =>
      have hu2 : unm p (wc.take e.nextMsgLen) = some p1 := by rw [← hne, ← htkL]; exact hu
      have hDe : decodeLogEntry unm d s =
          (DecodeResult.ok (entryMessage p1),
            { d with buf := some { b with data := wb }, offset := 0, nextMsgLen := 0,
                     proto := some p1 }, s1) := by
        simp only [decodeLogEntry, hD, hpd, Buf.cap, hcb, if_true, hu]
      have hEe : decodeLogEntry unm e s =
          (DecodeResult.ok (entryMessage p1),
            { e with buf := some { c with data := wc }, offset := 0, nextMsgLen := 0,
                     proto := some p1 }, s1) := by
        simp only [decodeLogEntry, hE, hpe, Buf.cap, hcc, if_true, hu2]
      rw [hDe] at hinvd ⊢
      rw [hEe] at hinve ⊢
      exact ⟨rfl, rfl, hinvd, hinve, rfl, rfl, hlen, by simp⟩

/-- The buffer adjustment of `Decode` on two buffers of the same length: both succeed and
the new buffers have the same length again. -/
theorem resizeBuf_pair (b c : Buf) (L : Nat) (hb : bufOK b) (hc : bufOK c)
    (hlen : b.len = c.len) :
    ∃ b1 c1, resizeBuf b L = some b1 ∧ resizeBuf c L = some c1 ∧ bufOK b1 ∧ bufOK c1 ∧
      L + encodeBinaryLen ≤ b1.cap ∧ L + encodeBinaryLen ≤ c1.cap ∧ b1.len = c1.len := by
  obtain ⟨b1, hrb, hokb, hcapb⟩ := resizeBuf_ok b L hb
  obtain ⟨c1, hrc, hokc, hcapc⟩ := resizeBuf_ok c L hc
  refine ⟨b1, c1, hrb, hrc, hokb, hokc, hcapb, hcapc, ?_⟩
  unfold resizeBuf at hrb hrc
  rw [← hlen] at hrc
  by_cases hlt : b.len < L + encodeBinaryLen
  · simp only [hlt, if_true, Option.some.injEq] at hrb hrc
    rw [← hrb, ← hrc]
  · simp only [hlt, if_false] at hrb hrc
    by_cases hle : L ≤ initialBufSize
    · simp only [hle, if_true] at hrb hrc
      split at hrb
      · split at hrc
        · simp only [Option.some.injEq] at hrb hrc
          rw [← hrb, ← hrc]
        · cases hrc
      · cases hrb
    · simp only [hle, if_false] at hrb hrc
      split at hrb
      · split at hrc
        · simp only [Option.some.injEq] at hrb hrc
          rw [← hrb, ← hrc]
        · cases hrc
      · cases hrb

/-- `Decode` cannot tell two alike states apart: on the same stream it returns the same
result, leaves the same stream, and the two states are alike again. -/
theorem Decode_similar (unm : LogEntry → List Nat → Option LogEntry) (d e : decoder)
    (s : Stream) (h : similar d e) :
    (Decode unm d s).1 = (Decode unm e s).1 ∧
    (Decode unm d s).2.2 = (Decode unm e s).2.2 ∧
    similar (Decode unm d s).2.1 (Decode unm e s).2.1 := by
  obtain ⟨hid, hie, hoe, hne, hlen, hpre⟩ := h
  have hinvd := (Decode_inv unm d s hid).2
  have hinve := (Decode_inv unm e s hie).2
  obtain ⟨hokb, hcapb⟩ := viewBuf_inv d hid
  obtain ⟨hokc, hcapc⟩ := viewBuf_inv e hie
  have hbD := ensure_view d
  have hbE := ensure_view e
  have hmax := hid.1
  have hoff := hid.2.1
  by_cases h0 : d.nextMsgLen = 0
  · have h0e : e.nextMsgLen = 0 := by rw [← hne]; exact h0
    obtain ⟨res, s1, o, wb, wc, hD, hE, hwb, hwc, ho, hto, hnp, hokres⟩ :=
      readRecord_pair (ensureBuf (ensureProto d)) (ensureBuf (ensureProto e)) s encodeBinaryLen
        (viewBuf d) (viewBuf e) hbD hbE hoe
        (by show d.offset ≤ encodeBinaryLen; omega) (by omega) (by omega) hpre
    have hokb1 : bufOK { viewBuf d with data := wb } :=
      ⟨hokb.1, by show (viewBuf d).len ≤ wb.length; rw [hwb]; exact hokb.2⟩
    have hokc1 : bufOK { viewBuf e with data := wc } :=
      ⟨hokc.1, by show (viewBuf e).len ≤ wc.length; rw [hwc]; exact hokc.2⟩
    have hcb : encodeBinaryLen ≤ wb.length := by
      rw [hwb]; show encodeBinaryLen ≤ (viewBuf d).cap; omega
    have hcc : encodeBinaryLen ≤ wc.length := by
      rw [hwc]; show encodeBinaryLen ≤ (viewBuf e).cap; omega
    cases res with
    | panic => exact absurd rfl hnp
    | err er =>
      have hDe : Decode unm d s =
          (DecodeResult.err (DecodeErr.sizeHeader er),
            { ensureBuf (ensureProto d) with
                buf := some { viewBuf d with data := wb }, offset := o }, s1) := by
        unfold Decode
        simp only [ensure_nextMsgLen, h0, if_true, decodeSizeHeader, hD]
      have hEe : Decode unm e s =
          (DecodeResult.err (DecodeErr.sizeHeader er),
            { ensureBuf (ensureProto e) with
                buf := some { viewBuf e with data := wc }, offset := o }, s1) := by
        unfold Decode
        simp only [ensure_nextMsgLen, h0e, if_true, decodeSizeHeader, hE]
      rw [hDe] at hinvd ⊢
      rw [hEe] at hinve ⊢
      exact ⟨rfl, rfl, hinvd, hinve, rfl, hne, hlen, hto⟩
    | ok =>
      obtain ⟨ho0, htk⟩ := hokres rfl
      subst ho0
      have hHD : decodeSizeHeader (ensureBuf (ensureProto d)) s =
          (some (Except.ok (be32 (wb.take encodeBinaryLen))),
            { ensureBuf (ensureProto d) with
                buf := some { viewBuf d with data := wb }, offset := 0 }, s1) := by
        simp only [decodeSizeHeader, hD, Buf.cap, hcb, if_true]
      have hHE : decodeSizeHeader (ensureBuf (ensureProto e)) s =
          (some (Except.ok (be32 (wb.take encodeBinaryLen))),
            { ensureBuf (ensureProto e) with
                buf := some { viewBuf e with data := wc }, offset := 0 }, s1) := by
        simp only [decodeSizeHeader, hE, Buf.cap, hcc, if_true, htk]
      by_cases hbig : maxMsgLen < be32 (wb.take encodeBinaryLen)
      · have hDe : Decode unm d s =
            (DecodeResult.err (DecodeErr.tooLarge (be32 (wb.take encodeBinaryLen))),
              { ensureBuf (ensureProto d) with
                  buf := some { viewBuf d with data := wb }, offset := 0 }, s1) := by
          unfold Decode
          simp only [ensure_nextMsgLen, h0, if_true, hHD, hbig]
        have hEe : Decode unm e s =
            (DecodeResult.err (DecodeErr.tooLarge (be32 (wb.take encodeBinaryLen))),
              { ensureBuf (ensureProto e) with
                  buf := some { viewBuf e with data := wc }, offset := 0 }, s1) := by
          unfold Decode
          simp only [ensure_nextMsgLen, h0e, if_true, hHE, hbig]
        rw [hDe] at hinvd ⊢
        rw [hEe] at hinve ⊢
        exact ⟨rfl, rfl, hinvd, hinve, rfl, hne, hlen, by simp⟩
      · obtain ⟨b1, c1, hrb, hrc, hokb2, hokc2, hcapb2, hcapc2, hlen2⟩ :=
          resizeBuf_pair _ _ (be32 (wb.take encodeBinaryLen)) hokb1 hokc1 hlen
        have hDe : Decode unm d s =
            decodeLogEntry unm
              { ensureBuf (ensureProto d) with
                  buf := some b1, offset := 0,
                  nextMsgLen := be32 (wb.take encodeBinaryLen) } s1 := by
          unfold Decode
          simp only [ensure_nextMsgLen, h0, if_true, hHD, hbig, if_false, hrb]
        have hEe : Decode unm e s =
            decodeLogEntry unm
              { ensureBuf (ensureProto e) with
                  buf := some c1, offset := 0,
                  nextMsgLen := be32 (wb.take encodeBinaryLen) } s1 := by
          unfold Decode
          simp only [ensure_nextMsgLen, h0e, if_true, hHE, hbig, if_false, hrc]
        rw [hDe, hEe]
        exact decodeLogEntry_similar unm _ _ s1 b1 c1 zeroLogEntry rfl rfl (ensure_proto d)
          (ensure_proto e) rfl rfl (Nat.le_of_not_lt hbig) (Nat.zero_le _) hokb2 hokc2 hlen2
          hcapb2 hcapc2 (by simp)
  · have h0e : ¬ e.nextMsgLen = 0 := by rw [← hne]; exact h0
    have hDe : Decode unm d s = decodeLogEntry unm (ensureBuf (ensureProto d)) s := by
      unfold Decode
      simp only [ensure_nextMsgLen, h0, if_false]
    have hEe : Decode unm e s = decodeLogEntry unm (ensureBuf (ensureProto e)) s := by
      unfold Decode
      simp only [ensure_nextMsgLen, h0e, if_false]
    rw [hDe, hEe]
    exact decodeLogEntry_similar unm _ _ s (viewBuf d) (viewBuf e) zeroLogEntry hbD hbE
      (ensure_proto d) (ensure_proto e) hoe hne hmax hoff hokb hokc hlen hcapb
      (by show d.nextMsgLen + encodeBinaryLen ≤ (viewBuf e).cap; rw [hne]; exact hcapc) hpre

/-- Alike states give the same results over any number of `Decode` calls. -/
theorem decodeMany_similar (unm : LogEntry → List Nat → Option LogEntry) :
    ∀ (n : Nat) (d e : decoder) (s : Stream), similar d e →
      decodeMany unm n d s = decodeMany unm n e s := by
  intro n
  induction n with
  | zero => intro d e s _; rfl
  | succ n ih =>
    intro d e s h
    obtain ⟨h1, h2, h3⟩ := Decode_similar unm d e s h
    rcases hD : Decode unm d s with ⟨r1, d1, s1⟩
    rcases hE : Decode unm e s with ⟨r2, e1, s2⟩
    rw [hD, hE] at h1 h2 h3
    simp only at h1 h2 h3
    subst h1 h2
    simp only [decodeMany, hD, hE]
    rw [ih d1 e1 s1 h3]

/-! ## C15: `Reset` -/

/-- A `Reset` to a different reader, from a state whose buffer (when there is one) has at
least `initialBufSize` bytes of capacity: the fields of the new state, which no later
`Decode` can tell apart from a decoder just made by `decodeFunc`. -/
theorem Reset_rebind (d : decoder) (r : Nat)
    (hcap : ∀ b, d.buf = some b → initialBufSize ≤ b.cap) (hr : d.rdr ≠ some r) :
    ∃ d1, Reset d r = some d1 ∧ d1.rdr = some r ∧ d1.offset = 0 ∧ d1.nextMsgLen = 0 ∧
      (d1.proto = d.proto.map fun _ => zeroLogEntry) ∧
      (d1.buf = d.buf.map fun b => { b with len := initialBufSize }) ∧
      similar d1 (decodeFunc r) := by
  unfold Reset
  simp only [hr, if_false]
  cases hd : d.buf with
  | none =>
    refine ⟨_, rfl, rfl, rfl, rfl, ?_, ?_, ?_, decodeFunc_inv r, rfl, rfl, ?_, ?_⟩
    · cases hp : d.proto <;> simp [resetProto_eq]
    · simp [hd]
    · refine ⟨Nat.zero_le _, Nat.zero_le _, fun _ => rfl, ?_⟩
      intro b hb
      simp [hd] at hb
    · simp [viewBuf, hd, decodeFunc]
    · simp
  | some b =>
    have hc : initialBufSize ≤ b.cap := hcap b hd
    simp only [hc, if_true]
    refine ⟨_, rfl, rfl, rfl, rfl, ?_, ?_, ?_, decodeFunc_inv r, rfl, rfl, ?_, ?_⟩
    · cases hp : d.proto <;> simp [resetProto_eq]
    · simp
    · refine ⟨Nat.zero_le _, Nat.zero_le _, by simp, ?_⟩
      intro b2 hb2
      simp only [Option.some.injEq] at hb2
      subst hb2
      refine ⟨⟨Nat.le_refl _, hc⟩, ?_⟩
      show 0 + encodeBinaryLen ≤ b.cap
      have : encodeBinaryLen ≤ initialBufSize := by decide
      omega
    · simp [viewBuf, decodeFunc, Buf.make]
    · simp

/-- C15: `Reset r` on a decoder bound to `r` returns the very same state, whatever it
holds (pending length, partially filled buffer). `Reset r` on a decoder bound to another
reader or to none, whose buffer if any has the capacity every buffer of the decoder has
(at least `initialBufSize`), does not panic and gives a state bound to `r` with offset 0,
pending length 0, the scratch record cleared, the buffer kept with its length set to
`initialBufSize` (nil stays nil); from that state every sequence of `Decode` calls on any
stream returns exactly what a decoder just made by `decodeFunc r` returns, so it starts
with a fresh header and nothing read before the `Reset` shows in any later result. -/
theorem Reset_semantics (unm : LogEntry → List Nat → Option LogEntry) (d : decoder) (r : Nat) :
    (d.rdr = some r → Reset d r = some d) ∧
    ((∀ b, d.buf = some b → initialBufSize ≤ b.cap) → d.rdr ≠ some r →
      ∃ d1, Reset d r = some d1 ∧ d1.rdr = some r ∧ d1.offset = 0 ∧ d1.nextMsgLen = 0 ∧
        (d1.proto = d.proto.map fun _ => zeroLogEntry) ∧
        (d1.buf = d.buf.map fun b => { b with len := initialBufSize }) ∧
        ∀ (n : Nat) (s : Stream), decodeMany unm n d1 s = decodeMany unm n (decodeFunc r) s) := by
  constructor
  · intro h
    simp [Reset, h]
  · intro hcap hr
    obtain ⟨d1, h1, h2, h3, h4, h5, h6, h7⟩ := Reset_rebind d r hcap hr
    exact ⟨d1, h1, h2, h3, h4, h5, h6, fun n s => decodeMany_similar unm n d1 _ s h7⟩

/-- C15 (witness): a decoder bound to reader 1, interrupted inside a record. `Reset 1`
changes nothing; `Reset 2` rebinds and clears it. -/
theorem Reset_semantics_witness :
    Reset pendingDecoder 1 = some pendingDecoder ∧
    ∃ d1, Reset pendingDecoder 2 = some d1 ∧ d1.rdr = some 2 ∧ d1.offset = 0 ∧
      d1.nextMsgLen = 0 ∧
      (d1.proto = pendingDecoder.proto.map fun _ => zeroLogEntry) ∧
      (d1.buf = pendingDecoder.buf.map fun b => { b with len := initialBufSize }) ∧
      ∀ (n : Nat) (s : Stream),
        decodeMany Proto.Unmarshal n d1 s = decodeMany Proto.Unmarshal n (decodeFunc 2) s :=
  ⟨(Reset_semantics Proto.Unmarshal pendingDecoder 1).1 rfl,
   (Reset_semantics Proto.Unmarshal pendingDecoder 2).2
     (by
       intro b hb
       simp only [pendingDecoder, Option.some.injEq] at hb
       subst hb
       show initialBufSize ≤ ([10, 6] ++ List.replicate 2046 0).length
       rw [List.length_append, List.length_replicate]
       decide)
     (by decide)⟩

/-! ## C18: resuming after an interrupted `Decode` -/

/-- First half of `Decode` at a frame boundary when `ReadFull` delivers the four header
bytes `hd`: a value above `maxMsgLen` is refused, the stream left right after the header;
any other value is stored as the pending length and `decodeLogEntry` goes on from there. -/
theorem Decode_header_read (unm : LogEntry → List Nat → Option LogEntry) (d : decoder)
    (s s1 : Stream) (hd : List Nat)
    (hnext : d.nextMsgLen = 0) (hoff : d.offset = 0) (hbuf : ∀ b, d.buf = some b → bufOK b)
    (hread : ReadFull s encodeBinaryLen = (hd, none, s1)) :
    (maxMsgLen < be32 hd →
      (Decode unm d s).1 = DecodeResult.err (DecodeErr.tooLarge (be32 hd)) ∧
      (Decode unm d s).2.2 = s1) ∧
    (be32 hd ≤ maxMsgLen →
      ∃ b1, bufOK b1 ∧ be32 hd + encodeBinaryLen ≤ b1.cap ∧
        Decode unm d s =
          decodeLogEntry unm
            { ensureBuf (ensureProto d) with
                buf := some b1, offset := 0, nextMsgLen := be32 hd } s1) := by
  obtain ⟨b, hb, hok, _, _⟩ := ensure_buf d hbuf
  have hcap : encodeBinaryLen ≤ b.cap := by
    have h1 := hok.1
    have h2 := hok.2
    unfold initialBufSize at h1
    unfold encodeBinaryLen
    omega
  have hl4 : hd.length = encodeBinaryLen := by
    have h := (ReadFull_spec s encodeBinaryLen).2.2.1
    rw [hread] at h
    exact h rfl
  have hread0 : ReadFull s (encodeBinaryLen - (ensureBuf (ensureProto d)).offset) =
      (hd, none, s1) := by
    rw [ensure_offset, hoff]; exact hread
  have hrr := readRecord_ok (ensureBuf (ensureProto d)) s s1 encodeBinaryLen b hd hb
    (by rw [ensure_offset, hoff]; exact Nat.zero_le _) hcap hread0
  have hcapd : encodeBinaryLen ≤ b.data.length := hcap
  have hwl : (writeAt b.data 0 hd).length = b.data.length :=
    writeAt_length _ _ _ (by omega)
  have hcap1 : encodeBinaryLen ≤ (writeAt b.data 0 hd).length := by rw [hwl]; exact hcapd
  have htake : (writeAt b.data 0 hd).take encodeBinaryLen = hd := by
    rw [take_writeAt_zero _ _ _ (by omega)]
    exact List.take_of_length_le (by omega)
  have hH : decodeSizeHeader (ensureBuf (ensureProto d)) s =
      (some (Except.ok (be32 hd)),
        { ensureBuf (ensureProto d) with
            buf := some { b with data := writeAt b.data 0 hd }, offset := 0 }, s1) := by
    unfold decodeSizeHeader
    rw [hrr, ensure_offset, hoff]
    simp only [Buf.cap, hcap1, if_true, htake]
  have hok1 : bufOK { b with data := writeAt b.data 0 hd } := by
    refine ⟨hok.1, ?_⟩
    show b.len ≤ (writeAt b.data 0 hd).length
    rw [hwl]; exact hok.2
  constructor
  · intro hbig
    unfold Decode
    simp only [ensure_nextMsgLen, hnext, if_true, hH, hbig]
    exact ⟨trivial, trivial⟩
  · intro hsmall
    obtain ⟨b1, hr, hok2, hcap2⟩ := resizeBuf_ok _ (be32 hd) hok1
    refine ⟨b1, hok2, hcap2, ?_⟩
    have hnb : ¬ maxMsgLen < be32 hd := by omega
    unfold Decode
    simp only [ensure_nextMsgLen, hnext, if_true, hH, hnb, if_false, hr]

/-- Second half of `Decode` when the reader reports an end-of-stream before any further
byte: the call fails and the state is as it was. -/
theorem decodeLogEntry_eof (unm : LogEntry → List Nat → Option LogEntry) (d : decoder)
    (b : Buf) (s s1 : Stream) (hb : d.buf = some b)
    (hoff : d.offset ≤ d.nextMsgLen + encodeBinaryLen)
    (hcap : d.nextMsgLen + encodeBinaryLen ≤ b.cap)
    (hread : ReadFull s (d.nextMsgLen + encodeBinaryLen - d.offset) =
      ([], some IOErr.EOF, s1)) :
    decodeLogEntry unm d s =
      (DecodeResult.err (DecodeErr.logEntry IOErr.EOF d.nextMsgLen), d, s1) := by
  have hfuel : maxDecodeRetry = 19999 + 1 := rfl
  have hrr : readRecord d s (d.nextMsgLen + encodeBinaryLen) = (ReadResult.err IOErr.EOF, d, s1) := by
    unfold readRecord
    rw [hfuel, readRecordLoop_fail _ _ d s s1 none b [] IOErr.EOF hb hoff hcap (by decide) hread]
    simp only [writeAt_nil, List.length_nil, Nat.add_zero]
    have hbb : ({ b with data := b.data } : Buf) = b := rfl
    rw [hbb, ← hb]
  simp only [decodeLogEntry, hrr]

/-- C18 (failing input): a frame of declared length 0 followed by the frame of
`helloEntry`. Read without interruption, two `Decode` calls return the empty record and
then `helloEntry`, the stream standing at the second frame in between. When the reader
reports a passing end-of-stream right after the first header, the first `Decode` fails and
leaves no pending length (the length 0 is also the mark for none); the next `Decode`
returns the empty record but has read the four trailing bytes as a new header and the
header of the second frame as trailing bytes, so the stream stands four bytes too far, and
the `Decode` after it takes the first bytes of the body of `helloEntry` for a header and
fails. -/
theorem Decode_empty_frame_not_resumed :
    (∃ e1 t1,
      Decode Proto.Unmarshal (decodeFunc 0) emptyFrameWhole =
        (DecodeResult.ok (entryMessage zeroLogEntry), e1, t1) ∧
      streamBytes t1 = putBE32 18 ++ (Proto.Marshal helloEntry ++ [0, 0, 0, 18]) ∧
      (Decode Proto.Unmarshal e1 t1).1 = DecodeResult.ok (entryMessage helloEntry)) ∧
    (∃ d1 s1 d2 s2,
      Decode Proto.Unmarshal (decodeFunc 0) emptyFrameInterrupted =
        (DecodeResult.err (DecodeErr.logEntry IOErr.EOF 0), d1, s1) ∧
      d1.nextMsgLen = 0 ∧ d1.offset = 0 ∧
      streamBytes s1 = [0, 0, 0, 0] ++ (putBE32 18 ++ (Proto.Marshal helloEntry ++ [0, 0, 0, 18])) ∧
      Decode Proto.Unmarshal d1 s1 = (DecodeResult.ok (entryMessage zeroLogEntry), d2, s2) ∧
      streamBytes s2 = Proto.Marshal helloEntry ++ [0, 0, 0, 18] ∧
      (Decode Proto.Unmarshal d2 s2).1 = DecodeResult.err (DecodeErr.tooLarge 168194932)) ∧
    streamBytes emptyFrameWhole = emptyThenHello ∧
    streamBytes emptyFrameInterrupted = emptyThenHello ∧
    decodeMany Proto.Unmarshal 2 (decodeFunc 0) emptyFrameWhole =
      [DecodeResult.ok (entryMessage zeroLogEntry), DecodeResult.ok (entryMessage helloEntry)] ∧
    decodeMany Proto.Unmarshal 3 (decodeFunc 0) emptyFrameInterrupted =
      [DecodeResult.err (DecodeErr.logEntry IOErr.EOF 0),
       DecodeResult.ok (entryMessage zeroLogEntry),
       DecodeResult.err (DecodeErr.tooLarge 168194932)] := by
  have hfresh : ∀ b, (decodeFunc 0).buf = some b → bufOK b := by intro b hb; cases hb
  -- the uninterrupted run
  obtain ⟨e1, t1, hw1, hwf, hwb, hwn, hwo, _, hwbuf⟩ :=
    Decode_frame Proto.Unmarshal (decodeFunc 0) emptyFrameWhole [] [0, 0, 0, 0]
      (putBE32 18 ++ (Proto.Marshal helloEntry ++ [0, 0, 0, 18])) zeroLogEntry rfl rfl hfresh
      (by decide) (by decide) (by decide) (by decide) (by decide)
  obtain ⟨e2, t2, hw2, _, _, _, _, _, _⟩ :=
    Decode_frame Proto.Unmarshal e1 t1 (Proto.Marshal helloEntry) [0, 0, 0, 18] [] helloEntry
      hwn hwo hwbuf hwf (by rw [hwb]; decide) (by decide) (by decide) (by decide)
  -- the interrupted run: the first call
  obtain ⟨b1, hok1, hcap1, hi1⟩ :=
    (Decode_header_read Proto.Unmarshal (decodeFunc 0) emptyFrameInterrupted
      [Chunk.fail IOErr.EOF,
       Chunk.data ([0, 0, 0, 0] ++ (putBE32 18 ++ (Proto.Marshal helloEntry ++ [0, 0, 0, 18])))]
      [0, 0, 0, 0] rfl rfl hfresh (by decide)).2 (by decide)
  have hbe0 : be32 [0, 0, 0, 0] = 0 := by decide
  rw [hbe0] at hi1 hcap1
  have hrf : ReadFull
      [Chunk.fail IOErr.EOF,
       Chunk.data ([0, 0, 0, 0] ++ (putBE32 18 ++ (Proto.Marshal helloEntry ++ [0, 0, 0, 18])))]
      4 = ([], some IOErr.EOF,
        [Chunk.data ([0, 0, 0, 0] ++ (putBE32 18 ++ (Proto.Marshal helloEntry ++ [0, 0, 0, 18])))]) := by
    decide
  have hi1b := decodeLogEntry_eof Proto.Unmarshal
    { ensureBuf (ensureProto (decodeFunc 0)) with buf := some b1, offset := 0, nextMsgLen := 0 }
    b1
    [Chunk.fail IOErr.EOF,
     Chunk.data ([0, 0, 0, 0] ++ (putBE32 18 ++ (Proto.Marshal helloEntry ++ [0, 0, 0, 18])))]
    [Chunk.data ([0, 0, 0, 0] ++ (putBE32 18 ++ (Proto.Marshal helloEntry ++ [0, 0, 0, 18])))]
    rfl (Nat.zero_le _) hcap1 hrf
  rw [hi1b] at hi1
  -- the second call, on what the reader still holds
  obtain ⟨d2, s2, hi2, hif, hib, hin, hio, _, hibuf⟩ :=
    Decode_frame Proto.Unmarshal
      { ensureBuf (ensureProto (decodeFunc 0)) with buf := some b1, offset := 0, nextMsgLen := 0 }
      [Chunk.data ([0, 0, 0, 0] ++ (putBE32 18 ++ (Proto.Marshal helloEntry ++ [0, 0, 0, 18])))]
      [] (putBE32 18) (Proto.Marshal helloEntry ++ [0, 0, 0, 18]) zeroLogEntry rfl rfl
      (by intro b hb; cases hb; exact hok1)
      (by decide) (by decide) (by decide) (by decide) (by decide)
  -- the third call
  obtain ⟨s3, hr3, _, _⟩ := ReadFull_enough s2 4 hif (by rw [hib]; decide)
  have hhd : (streamBytes s2).take 4 = [10, 6, 115, 116] := by rw [hib]; decide
  rw [hhd] at hr3
  have hi3 := ((Decode_header_read Proto.Unmarshal d2 s2 s3 [10, 6, 115, 116] hin hio hibuf
    hr3).1 (by decide)).1
  have hbe3 : be32 [10, 6, 115, 116] = 168194932 := by decide
  rw [hbe3] at hi3
  refine ⟨⟨e1, t1, hw1, hwb, by rw [hw2]⟩, ⟨_, _, d2, s2, hi1, rfl, rfl, by decide, hi2, hib, hi3⟩,
    by decide, by decide, ?_, ?_⟩
  · simp only [decodeMany, hw1, hw2]
  · simp only [decodeMany, hi1, hi2]
    rcases hD3 : Decode Proto.Unmarshal d2 s2 with ⟨r3, d3, s4⟩
    rw [hD3] at hi3
    simp only at hi3
    rw [hi3]

/-! ## Resuming after a failed read: what holds for headers and for lengths above 0 -/

/-- `readRecord` from any offset on a stream none of whose reads fails and that ends before
the record is complete: all its bytes are stored, and the call fails with end-of-stream,
the offset advanced by their number. -/
theorem readRecord_short (d : decoder) (b : Buf) (t : Stream) (size : Nat)
    (hb : d.buf = some b) (hoff : d.offset ≤ size) (hcap : size ≤ b.cap)
    (hfree : errorFree t = true) (hlen : (streamBytes t).length < size - d.offset) :
    readRecord d t size =
      (ReadResult.err IOErr.EOF,
        { d with buf := some { b with data := writeAt b.data d.offset (streamBytes t) },
                 offset := d.offset + (streamBytes t).length }, []) := by
  have hshort := ReadFull_short t (size - d.offset) hfree hlen
  have hcapd : size ≤ b.data.length := hcap
  unfold readRecord
  by_cases h0 : (streamBytes t).length = 0
  · have hnil : streamBytes t = [] := List.length_eq_zero.mp h0
    rw [hnil] at hshort ⊢
    simp only [List.length_nil, if_true] at hshort
    have hfuel : maxDecodeRetry = 19999 + 1 := rfl
    rw [hfuel, readRecordLoop_fail size _ d t [] none b [] IOErr.EOF hb hoff hcap (by decide)
      hshort]
  · simp only [h0, if_false] at hshort
    have hfuel : maxDecodeRetry = 19998 + 1 + 1 := rfl
    rw [hfuel, readRecordLoop_retry size _ d t [] none b (streamBytes t) hb hoff hcap hshort]
    have hwl : (writeAt b.data d.offset (streamBytes t)).length = b.data.length :=
      writeAt_length _ _ _ (by omega)
    have hsecond : ReadFull [] (size - (d.offset + (streamBytes t).length)) =
        ([], some IOErr.EOF, []) := by
      obtain ⟨k, hk⟩ : ∃ k, size - (d.offset + (streamBytes t).length) = k + 1 :=
        ⟨size - (d.offset + (streamBytes t).length) - 1, by omega⟩
      rw [hk]
      simp [ReadFull, readLoop]
    rw [readRecordLoop_fail size _
      { d with buf := some { b with data := writeAt b.data d.offset (streamBytes t) },
               offset := d.offset + (streamBytes t).length } [] []
      (some IOErr.ErrUnexpectedEOF) { b with data := writeAt b.data d.offset (streamBytes t) }
      [] IOErr.EOF rfl (by show d.offset + (streamBytes t).length ≤ size; omega)
      (by show size ≤ (writeAt b.data d.offset (streamBytes t)).length; omega) (by decide)
      hsecond]
    simp only [writeAt_nil, List.length_nil, Nat.add_zero]

/-- `readRecord` from any offset on a stream none of whose reads fails and that holds the
rest of the record: the bytes are stored and the call succeeds. -/
theorem readRecord_enough (d : decoder) (b : Buf) (t : Stream) (size : Nat)
    (hb : d.buf = some b) (hoff : d.offset ≤ size) (hcap : size ≤ b.cap)
    (hfree : errorFree t = true) (hlen : size - d.offset ≤ (streamBytes t).length) :
    ∃ t1, readRecord d t size =
        (ReadResult.ok,
          { d with buf := some { b with
              data := writeAt b.data d.offset ((streamBytes t).take (size - d.offset)) },
                   offset := 0 }, t1) ∧
      errorFree t1 = true ∧ streamBytes t1 = (streamBytes t).drop (size - d.offset) := by
  obtain ⟨t1, h1, h2, h3⟩ := ReadFull_enough t (size - d.offset) hfree hlen
  exact ⟨t1, readRecord_ok d t t1 size b _ hb hoff hcap h1, h2, h3⟩

/-- Resuming `readRecord`: from the state in which the bytes `bs` of the record are already
in the buffer (stored at the offset, the offset advanced past them), `readRecord` on a
stream none of whose reads fails gives what `readRecord` gives from the earlier state on the
stream that delivers `bs` first. -/
theorem readRecord_resume (d : decoder) (b : Buf) (t : Stream) (size : Nat) (bs : List Nat)
    (hb : d.buf = some b) (hsz : d.offset + bs.length ≤ size) (hcap : size ≤ b.cap)
    (hfree : errorFree t = true) :
    (readRecord { d with buf := some { b with data := writeAt b.data d.offset bs },
                         offset := d.offset + bs.length } t size).1 =
      (readRecord d (Chunk.data bs :: t) size).1 ∧
    (readRecord { d with buf := some { b with data := writeAt b.data d.offset bs },
                         offset := d.offset + bs.length } t size).2.1 =
      (readRecord d (Chunk.data bs :: t) size).2.1 ∧
    sameBytes
      (readRecord { d with buf := some { b with data := writeAt b.data d.offset bs },
                           offset := d.offset + bs.length } t size).2.2
      (readRecord d (Chunk.data bs :: t) size).2.2 := by
  have hcapd : size ≤ b.data.length := hcap
  have hwl : (writeAt b.data d.offset bs).length = b.data.length :=
    writeAt_length _ _ _ (by omega)
  have hfreeu : errorFree (Chunk.data bs :: t) = true := by
    rw [errorFree_cons_data]; exact hfree
  have hbytes : streamBytes (Chunk.data bs :: t) = bs ++ streamBytes t := by
    simp [streamBytes]
  have hww : ∀ x : List Nat,
      writeAt (writeAt b.data d.offset bs) (d.offset + bs.length) x =
        writeAt b.data d.offset (bs ++ x) :=
    fun x => writeAt_writeAt _ _ _ _ (by omega)
  by_cases hen : size - (d.offset + bs.length) ≤ (streamBytes t).length
  · obtain ⟨t1, h1, h2, h3⟩ := readRecord_enough
      { d with buf := some { b with data := writeAt b.data d.offset bs },
               offset := d.offset + bs.length }
      { b with data := writeAt b.data d.offset bs } t size rfl
      (by show d.offset + bs.length ≤ size; exact hsz)
      (by show size ≤ (writeAt b.data d.offset bs).length; omega) hfree hen
    obtain ⟨u1, g1, g2, g3⟩ := readRecord_enough d b (Chunk.data bs :: t) size hb (by omega)
      hcap hfreeu (by rw [hbytes, List.length_append]; omega)
    rw [h1, g1]
    have htake : (bs ++ streamBytes t).take (size - d.offset) =
        bs ++ (streamBytes t).take (size - (d.offset + bs.length)) := by
      rw [List.take_append_eq_append_take, List.take_of_length_le (by omega)]
      congr 2
      omega
    have hdrop : (bs ++ streamBytes t).drop (size - d.offset) =
        (streamBytes t).drop (size - (d.offset + bs.length)) := by
      rw [List.drop_append_eq_append_drop, List.drop_of_length_le (by omega), List.nil_append]
      congr 1
      omega
    refine ⟨rfl, ?_, h2, g2, ?_⟩
    · simp only [hww, hbytes, htake]
    · rw [h3, g3, hbytes, hdrop]
  · have h1 := readRecord_short
      { d with buf := some { b with data := writeAt b.data d.offset bs },
               offset := d.offset + bs.length }
      { b with data := writeAt b.data d.offset bs } t size rfl
      (by show d.offset + bs.length ≤ size; exact hsz)
      (by show size ≤ (writeAt b.data d.offset bs).length; omega) hfree
      (by show (streamBytes t).length < size - (d.offset + bs.length); omega)
    have g1 := readRecord_short d b (Chunk.data bs :: t) size hb (by omega) hcap hfreeu
      (by rw [hbytes, List.length_append]; omega)
    rw [h1, g1]
    refine ⟨rfl, ?_, sameBytes_nil⟩
    simp only [hww, hbytes, List.length_append, Nat.add_assoc]

theorem sameBytes_symm (s t : Stream) (h : sameBytes s t) : sameBytes t s :=
  ⟨h.2.1, h.1, h.2.2.symm⟩

theorem sameBytes_trans (s t u : Stream) (h : sameBytes s t) (g : sameBytes t u) :
    sameBytes s u :=
  ⟨h.1, g.2.1, h.2.2.trans g.2.2⟩

/-- Lines 46-53 of `Decode` change nothing in a state whose scratch record is cleared and
whose buffer exists. -/
theorem ensure_fixed (d : decoder) (b : Buf) (hp : d.proto = some zeroLogEntry)
    (hb : d.buf = some b) : ensureBuf (ensureProto d) = d := by
  cases d with
  | mk rdr proto buf offset nextMsgLen =>
    simp only at hp hb
    subst hp hb
    rfl

theorem Decode_body_eq (unm : LogEntry → List Nat → Option LogEntry) (d : decoder) (s : Stream)
    (h : d.nextMsgLen ≠ 0) : Decode unm d s = decodeLogEntry unm (ensureBuf (ensureProto d)) s := by
  unfold Decode
  simp only [ensure_nextMsgLen, h, if_false]

/-- `decodeLogEntry` from two states with the same pending length gives the same result
when its `readRecord` does. -/
theorem decodeLogEntry_congr (unm : LogEntry → List Nat → Option LogEntry) (d e : decoder)
    (s t : Stream) (hn : d.nextMsgLen = e.nextMsgLen)
    (h1 : (readRecord d s (d.nextMsgLen + encodeBinaryLen)).1 =
      (readRecord e t (d.nextMsgLen + encodeBinaryLen)).1)
    (h2 : (readRecord d s (d.nextMsgLen + encodeBinaryLen)).2.1 =
      (readRecord e t (d.nextMsgLen + encodeBinaryLen)).2.1)
    (h3 : sameBytes (readRecord d s (d.nextMsgLen + encodeBinaryLen)).2.2
      (readRecord e t (d.nextMsgLen + encodeBinaryLen)).2.2) :
    (decodeLogEntry unm d s).1 = (decodeLogEntry unm e t).1 ∧
    (decodeLogEntry unm d s).2.1 = (decodeLogEntry unm e t).2.1 ∧
    sameBytes (decodeLogEntry unm d s).2.2 (decodeLogEntry unm e t).2.2 := by
  simp only [decodeLogEntry]
  rw [← hn]
  rcases hrs : readRecord d s (d.nextMsgLen + encodeBinaryLen) with ⟨res, d1, s1⟩
  rcases hrt : readRecord e t (d.nextMsgLen + encodeBinaryLen) with ⟨res2, d2, t1⟩
  rw [hrs, hrt] at h1 h2 h3
  simp only at h1 h2 h3
  subst h1 h2
  cases res with
  | panic => exact ⟨rfl, rfl, h3⟩
  | err e => exact ⟨rfl, rfl, h3⟩
  | ok =>
    simp only
    cases d1.proto with
    | none => exact ⟨rfl, rfl, h3⟩
    | some p =>
      cases d1.buf with
      | none => exact ⟨rfl, rfl, h3⟩
      | some b =>
        simp only
        split
        · split <;> exact ⟨rfl, rfl, h3⟩
        · exact ⟨rfl, rfl, h3⟩

/-- `decodeSizeHeader` gives the same result from two states when its `readRecord` does. -/
theorem decodeSizeHeader_congr (d e : decoder) (s t : Stream)
    (h1 : (readRecord d s encodeBinaryLen).1 = (readRecord e t encodeBinaryLen).1)
    (h2 : (readRecord d s encodeBinaryLen).2.1 = (readRecord e t encodeBinaryLen).2.1)
    (h3 : sameBytes (readRecord d s encodeBinaryLen).2.2 (readRecord e t encodeBinaryLen).2.2) :
    (decodeSizeHeader d s).1 = (decodeSizeHeader e t).1 ∧
    (decodeSizeHeader d s).2.1 = (decodeSizeHeader e t).2.1 ∧
    sameBytes (decodeSizeHeader d s).2.2 (decodeSizeHeader e t).2.2 := by
  simp only [decodeSizeHeader]
  rcases hrs : readRecord d s encodeBinaryLen with ⟨res, d1, s1⟩
  rcases hrt : readRecord e t encodeBinaryLen with ⟨res2, d2, t1⟩
  rw [hrs, hrt] at h1 h2 h3
  simp only at h1 h2 h3
  subst h1 h2
  cases res with
  | panic => exact ⟨rfl, rfl, h3⟩
  | err e => exact ⟨rfl, rfl, h3⟩
  | ok =>
    simp only
    cases d1.buf with
    | none => exact ⟨rfl, rfl, h3⟩
    | some b =>
      simp only
      split <;> exact ⟨rfl, rfl, h3⟩

/-- `Decode` from two states without a pending length gives the same result when its
`decodeSizeHeader` does. -/
theorem Decode_header_congr (unm : LogEntry → List Nat → Option LogEntry) (d e : decoder)
    (s t : Stream) (hd : d.nextMsgLen = 0) (he : e.nextMsgLen = 0)
    (h1 : (decodeSizeHeader (ensureBuf (ensureProto d)) s).1 =
      (decodeSizeHeader (ensureBuf (ensureProto e)) t).1)
    (h2 : (decodeSizeHeader (ensureBuf (ensureProto d)) s).2.1 =
      (decodeSizeHeader (ensureBuf (ensureProto e)) t).2.1)
    (h3 : sameBytes (decodeSizeHeader (ensureBuf (ensureProto d)) s).2.2
      (decodeSizeHeader (ensureBuf (ensureProto e)) t).2.2) :
    (Decode unm d s).1 = (Decode unm e t).1 ∧
    (Decode unm d s).2.1 = (Decode unm e t).2.1 ∧
    sameBytes (Decode unm d s).2.2 (Decode unm e t).2.2 := by
  simp only [Decode, ensure_nextMsgLen, hd, he, if_true]
  rcases hrs : decodeSizeHeader (ensureBuf (ensureProto d)) s with ⟨res, d1, s1⟩
  rcases hrt : decodeSizeHeader (ensureBuf (ensureProto e)) t with ⟨res2, d2, t1⟩
  rw [hrs, hrt] at h1 h2 h3
  simp only at h1 h2 h3
  subst h1 h2
  cases res with
  | none => exact ⟨rfl, rfl, h3⟩
  | some r =>
    cases r with
    | error e => exact ⟨rfl, rfl, h3⟩
    | ok msgLen =>
      simp only
      split
      · exact ⟨rfl, rfl, h3⟩
      · cases d1.buf with
        | none => exact ⟨rfl, rfl, h3⟩
        | some b =>
          simp only
          cases resizeBuf b msgLen with
          | none => exact ⟨rfl, rfl, h3⟩
          | some b1 => exact decodeLogEntry_sameBytes unm _ s1 t1 h3

/-- Resuming `decodeLogEntry`: from the state in which the bytes `bs` of the record are
already in the buffer, `decodeLogEntry` on a stream none of whose reads fails gives what it
gives from the earlier state on the stream that delivers `bs` first. -/
theorem decodeLogEntry_resume (unm : LogEntry → List Nat → Option LogEntry) (d : decoder)
    (b : Buf) (t : Stream) (bs : List Nat) (hb : d.buf = some b)
    (hsz : d.offset + bs.length ≤ d.nextMsgLen + encodeBinaryLen)
    (hcap : d.nextMsgLen + encodeBinaryLen ≤ b.cap) (hfree : errorFree t = true) :
    (decodeLogEntry unm
        { d with buf := some { b with data := writeAt b.data d.offset bs },
                 offset := d.offset + bs.length } t).1 =
      (decodeLogEntry unm d (Chunk.data bs :: t)).1 ∧
    (decodeLogEntry unm
        { d with buf := some { b with data := writeAt b.data d.offset bs },
                 offset := d.offset + bs.length } t).2.1 =
      (decodeLogEntry unm d (Chunk.data bs :: t)).2.1 ∧
    sameBytes
      (decodeLogEntry unm
        { d with buf := some { b with data := writeAt b.data d.offset bs },
                 offset := d.offset + bs.length } t).2.2
      (decodeLogEntry unm d (Chunk.data bs :: t)).2.2 := by
  obtain ⟨h1, h2, h3⟩ := readRecord_resume d b t (d.nextMsgLen + encodeBinaryLen) bs hb hsz
    hcap hfree
  exact decodeLogEntry_congr unm _ d t (Chunk.data bs :: t) rfl h1 h2 h3

/-- A `decodeLogEntry` that fails on its read has stored the bytes `bs` it read and advanced
the offset past them; a later `decodeLogEntry` from that state, on a stream none of whose
reads fails, gives what one `decodeLogEntry` gives from the earlier state on the stream that
delivers `bs` first. -/
theorem decodeLogEntry_resume_after_fail (unm : LogEntry → List Nat → Option LogEntry)
    (d : decoder) (b : Buf) (s : Stream) (e : IOErr) (L : Nat) (hb : d.buf = some b)
    (hoff : d.offset ≤ d.nextMsgLen + encodeBinaryLen)
    (hcap : d.nextMsgLen + encodeBinaryLen ≤ b.cap)
    (hfail : (decodeLogEntry unm d s).1 = DecodeResult.err (DecodeErr.logEntry e L)) :
    ∃ bs, streamBytes s = bs ++ streamBytes (decodeLogEntry unm d s).2.2 ∧
      (decodeLogEntry unm d s).2.1 =
        { d with buf := some { b with data := writeAt b.data d.offset bs },
                 offset := d.offset + bs.length } ∧
      L = d.nextMsgLen ∧
      ∀ t, errorFree t = true →
        (decodeLogEntry unm (decodeLogEntry unm d s).2.1 t).1 =
          (decodeLogEntry unm d (Chunk.data bs :: t)).1 ∧
        (decodeLogEntry unm (decodeLogEntry unm d s).2.1 t).2.1 =
          (decodeLogEntry unm d (Chunk.data bs :: t)).2.1 ∧
        sameBytes (decodeLogEntry unm (decodeLogEntry unm d s).2.1 t).2.2
          (decodeLogEntry unm d (Chunk.data bs :: t)).2.2 := by
  obtain ⟨bs, h1, h2, h3, h4, h5⟩ :=
    readRecord_spec d s (d.nextMsgLen + encodeBinaryLen) b hb hoff hcap
  rcases hrr : readRecord d s (d.nextMsgLen + encodeBinaryLen) with ⟨res, d1, s1⟩
  rw [hrr] at h2 h3 h4 h5
  simp only at h2 h3 h4 h5
  cases res with
  | panic => exact absurd rfl h4
  | err er =>
    have hD : decodeLogEntry unm d s =
        (DecodeResult.err (DecodeErr.logEntry er d.nextMsgLen), d1, s1) := by
      simp only [decodeLogEntry, hrr]
    rw [hD] at hfail ⊢
    simp only [DecodeResult.err.injEq, DecodeErr.logEntry.injEq] at hfail
    have h3b : d1 = { d with buf := some { b with data := writeAt b.data d.offset bs },
                             offset := d.offset + bs.length } := by
      rw [h3]; simp
    refine ⟨bs, h2, h3b, hfail.2.symm, ?_⟩
    intro t ht
    show (decodeLogEntry unm d1 t).1 = _ ∧ (decodeLogEntry unm d1 t).2.1 = _ ∧
      sameBytes (decodeLogEntry unm d1 t).2.2 _
    rw [h3b]
    exact decodeLogEntry_resume unm d b t bs hb h1 hcap ht
  | ok =>
    exfalso
    simp only [decodeLogEntry, hrr] at hfail
    split at hfail
    · split at hfail
      · split at hfail <;> simp at hfail
      · simp at hfail
    · simp at hfail

/-- A `decodeSizeHeader` that fails has stored the bytes `bs` it read and advanced the
offset past them; a later `decodeSizeHeader` from that state, on a stream none of whose
reads fails, gives what one `decodeSizeHeader` gives from the earlier state on the stream
that delivers `bs` first. -/
theorem decodeSizeHeader_resume_after_fail (d : decoder) (b : Buf) (s : Stream) (e : IOErr)
    (hb : d.buf = some b) (hoff : d.offset ≤ encodeBinaryLen) (hcap : encodeBinaryLen ≤ b.cap)
    (hfail : (decodeSizeHeader d s).1 = some (Except.error e)) :
    ∃ bs, streamBytes s = bs ++ streamBytes (decodeSizeHeader d s).2.2 ∧
      (decodeSizeHeader d s).2.1 =
        { d with buf := some { b with data := writeAt b.data d.offset bs },
                 offset := d.offset + bs.length } ∧
      ∀ t, errorFree t = true →
        (decodeSizeHeader (decodeSizeHeader d s).2.1 t).1 =
          (decodeSizeHeader d (Chunk.data bs :: t)).1 ∧
        (decodeSizeHeader (decodeSizeHeader d s).2.1 t).2.1 =
          (decodeSizeHeader d (Chunk.data bs :: t)).2.1 ∧
        sameBytes (decodeSizeHeader (decodeSizeHeader d s).2.1 t).2.2
          (decodeSizeHeader d (Chunk.data bs :: t)).2.2 := by
  obtain ⟨bs, h1, h2, h3, h4, h5⟩ := readRecord_spec d s encodeBinaryLen b hb hoff hcap
  rcases hrr : readRecord d s encodeBinaryLen with ⟨res, d1, s1⟩
  rw [hrr] at h2 h3 h4 h5
  simp only at h2 h3 h4 h5
  cases res with
  | panic => exact absurd rfl h4
  | err er =>
    have hD : decodeSizeHeader d s = (some (Except.error er), d1, s1) := by
      simp only [decodeSizeHeader, hrr]
    rw [hD]
    have h3b : d1 = { d with buf := some { b with data := writeAt b.data d.offset bs },
                             offset := d.offset + bs.length } := by
      rw [h3]; simp
    refine ⟨bs, h2, h3b, ?_⟩
    intro t ht
    show (decodeSizeHeader d1 t).1 = _ ∧ (decodeSizeHeader d1 t).2.1 = _ ∧
      sameBytes (decodeSizeHeader d1 t).2.2 _
    rw [h3b]
    obtain ⟨g1, g2, g3⟩ := readRecord_resume d b t encodeBinaryLen bs hb h1 hcap ht
    exact decodeSizeHeader_congr _ d t (Chunk.data bs :: t) g1 g2 g3
  | ok =>
    exfalso
    simp only [decodeSizeHeader, hrr] at hfail
    split at hfail
    · simp at hfail
    · split at hfail <;> simp at hfail

/-- A `decodeSizeHeader` that succeeds has read the bytes `bs` that complete the header;
on a stream none of whose reads fails and that delivers `bs` first it returns the same
value and the same state. -/
theorem decodeSizeHeader_replay (d : decoder) (b : Buf) (s : Stream) (L : Nat)
    (hb : d.buf = some b) (hoff : d.offset ≤ encodeBinaryLen) (hcap : encodeBinaryLen ≤ b.cap)
    (hok : (decodeSizeHeader d s).1 = some (Except.ok L)) :
    ∃ bs, d.offset + bs.length = encodeBinaryLen ∧
      streamBytes s = bs ++ streamBytes (decodeSizeHeader d s).2.2 ∧
      (decodeSizeHeader d s).2.1 =
        { d with buf := some { b with data := writeAt b.data d.offset bs }, offset := 0 } ∧
      ∀ t, errorFree t = true →
        (decodeSizeHeader d (Chunk.data bs :: t)).1 = some (Except.ok L) ∧
        (decodeSizeHeader d (Chunk.data bs :: t)).2.1 = (decodeSizeHeader d s).2.1 ∧
        sameBytes (decodeSizeHeader d (Chunk.data bs :: t)).2.2 t := by
  obtain ⟨bs, h1, h2, h3, h4, h5⟩ := readRecord_spec d s encodeBinaryLen b hb hoff hcap
  rcases hrr : readRecord d s encodeBinaryLen with ⟨res, d1, s1⟩
  rw [hrr] at h2 h3 h4 h5
  simp only at h2 h3 h4 h5
  cases res with
  | panic => exact absurd rfl h4
  | err er =>
    exfalso
    simp only [decodeSizeHeader, hrr] at hok
    simp at hok
  | ok =>
    have hfull := h5 rfl
    have h3b : d1 = { d with buf := some { b with data := writeAt b.data d.offset bs },
                             offset := 0 } := by
      rw [h3]; simp
    have hcapd : encodeBinaryLen ≤ b.data.length := hcap
    have hwl : (writeAt b.data d.offset bs).length = b.data.length :=
      writeAt_length _ _ _ (by omega)
    have hcw : encodeBinaryLen ≤ (writeAt b.data d.offset bs).length := by omega
    have hD : decodeSizeHeader d s =
        (some (Except.ok (be32 ((writeAt b.data d.offset bs).take encodeBinaryLen))), d1, s1) := by
      simp only [decodeSizeHeader, hrr]
      rw [h3b]
      simp only [Buf.cap, hcw, if_true]
    rw [hD] at hok ⊢
    simp only [Option.some.injEq, Except.ok.injEq] at hok
    refine ⟨bs, hfull, h2, h3b, ?_⟩
    intro t ht
    have hfreeu : errorFree (Chunk.data bs :: t) = true := by
      rw [errorFree_cons_data]; exact ht
    have hbytes : streamBytes (Chunk.data bs :: t) = bs ++ streamBytes t := by
      simp [streamBytes]
    obtain ⟨u1, g1, g2, g3⟩ := readRecord_enough d b (Chunk.data bs :: t) encodeBinaryLen hb
      hoff hcap hfreeu (by rw [hbytes, List.length_append]; omega)
    have htake : (bs ++ streamBytes t).take (encodeBinaryLen - d.offset) = bs := by
      rw [List.take_append_of_le_length (by omega)]
      exact List.take_of_length_le (by omega)
    have hdrop : (bs ++ streamBytes t).drop (encodeBinaryLen - d.offset) = streamBytes t := by
      have : encodeBinaryLen - d.offset = bs.length := by omega
      rw [this, List.drop_left]
    rw [hbytes, htake] at g1
    rw [hbytes, hdrop] at g3
    have hU : decodeSizeHeader d (Chunk.data bs :: t) =
        (some (Except.ok (be32 ((writeAt b.data d.offset bs).take encodeBinaryLen))), d1, u1) := by
      simp only [decodeSizeHeader, g1]
      rw [h3b]
      simp only [Buf.cap, hcw, if_true]
    rw [hU]
    exact ⟨by simp only [hok], rfl, g2, ht, g3⟩

/-- `decodeLogEntry` has no path that reports a failed header read. -/
theorem decodeLogEntry_ne_sizeHeader (unm : LogEntry → List Nat → Option LogEntry) (d : decoder)
    (s : Stream) (e : IOErr) :
    (decodeLogEntry unm d s).1 ≠ DecodeResult.err (DecodeErr.sizeHeader e) := by
  intro h
  simp only [decodeLogEntry] at h
  split at h
  · simp at h
  · simp at h
  · split at h
    · split at h
      · split at h <;> simp at h
      · simp at h
    · simp at h

/-- `Decode` after its header read has returned the value `msgLen`, within the maximum. -/
theorem Decode_after_header (unm : LogEntry → List Nat → Option LogEntry) (d d1 : decoder)
    (s s1 : Stream) (msgLen : Nat) (b b1 : Buf) (h0 : d.nextMsgLen = 0)
    (hH : decodeSizeHeader (ensureBuf (ensureProto d)) s = (some (Except.ok msgLen), d1, s1))
    (hsmall : ¬ maxMsgLen < msgLen) (hb : d1.buf = some b) (hr : resizeBuf b msgLen = some b1) :
    Decode unm d s =
      decodeLogEntry unm { d1 with buf := some b1, nextMsgLen := msgLen } s1 := by
  unfold Decode
  simp only [ensure_nextMsgLen, h0, if_true, hH, hsmall, if_false, hb, hr]

/-- Resuming after a failed read. A `Decode` that fails on a read, of the header or of a
record whose pending length is not 0, has consumed bytes `bs` of the stream; a later
`Decode` on the same decoder, on a stream none of whose reads fails, returns what one
`Decode` returns from the earlier state on the stream that delivers `bs` first: the same
result, the same decoder state, and the same bytes left ahead. -/
theorem Decode_resume (unm : LogEntry → List Nat → Option LogEntry) (d : decoder) (s : Stream)
    (hinv : decoderInv d)
    (hfail : (∃ e, (Decode unm d s).1 = DecodeResult.err (DecodeErr.sizeHeader e)) ∨
      (∃ e L, L ≠ 0 ∧ (Decode unm d s).1 = DecodeResult.err (DecodeErr.logEntry e L))) :
    ∃ bs, streamBytes s = bs ++ streamBytes (Decode unm d s).2.2 ∧
      ∀ t, errorFree t = true →
        (Decode unm (Decode unm d s).2.1 t).1 = (Decode unm d (Chunk.data bs :: t)).1 ∧
        (Decode unm (Decode unm d s).2.1 t).2.1 = (Decode unm d (Chunk.data bs :: t)).2.1 ∧
        sameBytes (Decode unm (Decode unm d s).2.1 t).2.2
          (Decode unm d (Chunk.data bs :: t)).2.2 := by
  obtain ⟨hokb, hcapb⟩ := viewBuf_inv d hinv
  have hbD := ensure_view d
  have hpD := ensure_proto d
  have hoff := hinv.2.1
  by_cases h0 : d.nextMsgLen = 0
  · have hoff4 : (ensureBuf (ensureProto d)).offset ≤ encodeBinaryLen := by
      show d.offset ≤ encodeBinaryLen
      omega
    have hcap4 : encodeBinaryLen ≤ (viewBuf d).cap := by omega
    rcases hH : decodeSizeHeader (ensureBuf (ensureProto d)) s with ⟨r, D1, s1⟩
    cases r with
    | none =>
      exfalso
      have hDe : Decode unm d s = (DecodeResult.panic, D1, s1) := by
        unfold Decode
        simp only [ensure_nextMsgLen, h0, if_true, hH]
      rw [hDe] at hfail
      simp at hfail
    | some r =>
      cases r with
      | error e =>
        have hDe : Decode unm d s = (DecodeResult.err (DecodeErr.sizeHeader e), D1, s1) := by
          unfold Decode
          simp only [ensure_nextMsgLen, h0, if_true, hH]
        obtain ⟨bs, hst, hstate, hres⟩ :=
          decodeSizeHeader_resume_after_fail (ensureBuf (ensureProto d)) (viewBuf d) s e hbD
            hoff4 hcap4 (by rw [hH])
        rw [hH] at hst hstate hres
        simp only at hst hstate hres
        rw [hDe]
        refine ⟨bs, hst, ?_⟩
        intro t ht
        have hfix : ensureBuf (ensureProto D1) = D1 := by
          apply ensure_fixed D1 { viewBuf d with
            data := writeAt (viewBuf d).data (ensureBuf (ensureProto d)).offset bs }
          · rw [hstate]; exact hpD
          · rw [hstate]
        have hn1 : D1.nextMsgLen = 0 := by rw [hstate]; exact h0
        obtain ⟨g1, g2, g3⟩ := hres t ht
        exact Decode_header_congr unm D1 d t (Chunk.data bs :: t) hn1 h0
          (by rw [hfix]; exact g1) (by rw [hfix]; exact g2) (by rw [hfix]; exact g3)
      | ok L =>
        obtain ⟨bs, hfull, hst, hstate, hrep⟩ :=
          decodeSizeHeader_replay (ensureBuf (ensureProto d)) (viewBuf d) s L hbD hoff4 hcap4
            (by rw [hH])
        rw [hH] at hst hstate hrep
        simp only at hst hstate hrep
        by_cases hbig : maxMsgLen < L
        · exfalso
          have hDe : Decode unm d s = (DecodeResult.err (DecodeErr.tooLarge L), D1, s1) := by
            unfold Decode
            simp only [ensure_nextMsgLen, h0, if_true, hH, hbig]
          rw [hDe] at hfail
          simp at hfail
        · have hsz : (ensureBuf (ensureProto d)).offset + bs.length ≤ (viewBuf d).cap := by
            omega
          obtain ⟨b1, hr, hok1, hcap1⟩ := resizeBuf_ok _ L
            (bufOK_writeAt (viewBuf d) (ensureBuf (ensureProto d)).offset bs hokb hsz)
          have hb1 : D1.buf = some { viewBuf d with
              data := writeAt (viewBuf d).data (ensureBuf (ensureProto d)).offset bs } := by
            rw [hstate]
          have hDe := Decode_after_header unm d D1 s s1 L _ b1 h0 hH hbig hb1 hr
          have hfail2 : ∃ e L2, L2 ≠ 0 ∧
              (decodeLogEntry unm { D1 with buf := some b1, nextMsgLen := L } s1).1 =
                DecodeResult.err (DecodeErr.logEntry e L2) := by
            rw [hDe] at hfail
            rcases hfail with ⟨e, he⟩ | h2
            · exact absurd he (decodeLogEntry_ne_sizeHeader unm _ s1 e)
            · exact h2
          obtain ⟨e2, L2, hL2, hf2⟩ := hfail2
          have hoffD1 : D1.offset = 0 := by rw [hstate]
          obtain ⟨bs2, hst2, hstate2, hLeq, hres2⟩ :=
            decodeLogEntry_resume_after_fail unm { D1 with buf := some b1, nextMsgLen := L } b1 s1
              e2 L2 rfl (by show D1.offset ≤ L + encodeBinaryLen; omega) hcap1 hf2
          have hLne : L ≠ 0 := by
            have : L2 = L := hLeq
            omega
          rw [hDe]
          refine ⟨bs ++ bs2, by rw [hst, hst2, List.append_assoc], ?_⟩
          intro t ht
          -- the resumed call reads the rest of the record
          have hn1 : (decodeLogEntry unm { D1 with buf := some b1, nextMsgLen := L } s1).2.1.nextMsgLen
              ≠ 0 := by
            rw [hstate2]; exact hLne
          have hfix : ensureBuf (ensureProto
              (decodeLogEntry unm { D1 with buf := some b1, nextMsgLen := L } s1).2.1) =
              (decodeLogEntry unm { D1 with buf := some b1, nextMsgLen := L } s1).2.1 := by
            apply ensure_fixed _ { b1 with data := writeAt b1.data D1.offset bs2 }
            · rw [hstate2]
              show D1.proto = some zeroLogEntry
              rw [hstate]; exact hpD
            · rw [hstate2]
          obtain ⟨g1, g2, g3⟩ := hres2 t ht
          rw [Decode_body_eq unm _ t hn1, hfix]
          -- the uninterrupted call on the bytes read so far and the rest
          have htfree : errorFree (Chunk.data bs2 :: t) = true := by
            rw [errorFree_cons_data]; exact ht
          obtain ⟨k1, k2, k3⟩ := hrep (Chunk.data bs2 :: t) htfree
          rcases hU : decodeSizeHeader (ensureBuf (ensureProto d))
            (Chunk.data bs :: Chunk.data bs2 :: t) with ⟨ru, Du, u1⟩
          rw [hU] at k1 k2 k3
          simp only at k1 k2 k3
          subst k1 k2
          have hDu := Decode_after_header unm d Du (Chunk.data bs :: Chunk.data bs2 :: t) u1 L _
            b1 h0 hU hbig hb1 hr
          obtain ⟨m1, m2, m3⟩ := decodeLogEntry_sameBytes unm
            { Du with buf := some b1, nextMsgLen := L } u1 (Chunk.data bs2 :: t) k3
          have hsplit : sameBytes (Chunk.data (bs ++ bs2) :: t)
              (Chunk.data bs :: Chunk.data bs2 :: t) := by
            refine ⟨?_, ?_, ?_⟩
            · rw [errorFree_cons_data]; exact ht
            · rw [errorFree_cons_data, errorFree_cons_data]; exact ht
            · simp [streamBytes]
          obtain ⟨n1, n2, n3⟩ := Decode_sameBytes unm d _ _ hsplit
          rw [hDu] at n1 n2 n3
          refine ⟨?_, ?_, ?_⟩
          · rw [n1, m1]; exact g1
          · rw [n2, m2]; exact g2
          · exact sameBytes_trans _ _ _ g3
              (sameBytes_trans _ _ _ (sameBytes_symm _ _ m3) (sameBytes_symm _ _ n3))
  · have hcapD : (ensureBuf (ensureProto d)).nextMsgLen + encodeBinaryLen ≤ (viewBuf d).cap :=
      hcapb
    have hDe := Decode_body_eq unm d s h0
    have hfail2 : ∃ e L2, L2 ≠ 0 ∧
        (decodeLogEntry unm (ensureBuf (ensureProto d)) s).1 =
          DecodeResult.err (DecodeErr.logEntry e L2) := by
      rw [hDe] at hfail
      rcases hfail with ⟨e, he⟩ | h2
      · exact absurd he (decodeLogEntry_ne_sizeHeader unm _ s e)
      · exact h2
    obtain ⟨e2, L2, hL2, hf2⟩ := hfail2
    obtain ⟨bs, hst, hstate, hLeq, hres⟩ :=
      decodeLogEntry_resume_after_fail unm (ensureBuf (ensureProto d)) (viewBuf d) s e2 L2 hbD
        (by show d.offset ≤ d.nextMsgLen + encodeBinaryLen; exact hoff) hcapD hf2
    rw [hDe]
    refine ⟨bs, hst, ?_⟩
    intro t ht
    have hn1 : (decodeLogEntry unm (ensureBuf (ensureProto d)) s).2.1.nextMsgLen ≠ 0 := by
      rw [hstate]; exact h0
    have hfix : ensureBuf (ensureProto (decodeLogEntry unm (ensureBuf (ensureProto d)) s).2.1) =
        (decodeLogEntry unm (ensureBuf (ensureProto d)) s).2.1 := by
      apply ensure_fixed _ { viewBuf d with
        data := writeAt (viewBuf d).data (ensureBuf (ensureProto d)).offset bs }
      · rw [hstate]; exact hpD
      · rw [hstate]
    rw [Decode_body_eq unm _ t hn1, hfix, Decode_body_eq unm d _ h0]
    exact hres t ht

/-- Resuming at work: the frame of `helloEntry` (declared length 18) interrupted after five
bytes of its body. The first `Decode` fails with end-of-stream; the next one, on the rest
of the bytes, returns the message of `helloEntry` and leaves the decoder at a frame
boundary with nothing left on the stream, as one `Decode` does on the whole frame. -/
theorem Decode_resume_hello :
    (Decode Proto.Unmarshal (decodeFunc 0) helloInterrupted).1 =
      DecodeResult.err (DecodeErr.logEntry IOErr.EOF 18) ∧
    (Decode Proto.Unmarshal (Decode Proto.Unmarshal (decodeFunc 0) helloInterrupted).2.1
        helloRest).1 = DecodeResult.ok (entryMessage helloEntry) ∧
    streamBytes (Decode Proto.Unmarshal
      (Decode Proto.Unmarshal (decodeFunc 0) helloInterrupted).2.1 helloRest).2.2 = [] ∧
    (Decode Proto.Unmarshal (Decode Proto.Unmarshal (decodeFunc 0) helloInterrupted).2.1
        helloRest).2.1.nextMsgLen = 0 ∧
    (Decode Proto.Unmarshal (Decode Proto.Unmarshal (decodeFunc 0) helloInterrupted).2.1
        helloRest).2.1.offset = 0 := by
  have hfresh : ∀ b, (decodeFunc 0).buf = some b → bufOK b := by intro b hb; cases hb
  -- the interrupted call
  obtain ⟨b1, hok1, hcap1, hD⟩ :=
    (Decode_header_read Proto.Unmarshal (decodeFunc 0) helloInterrupted
      [Chunk.data [10, 6, 115, 116, 100], Chunk.fail IOErr.EOF, Chunk.fail IOErr.EOF]
      [0, 0, 0, 18] rfl rfl hfresh (by decide)).2 (by decide)
  have hbe : be32 [0, 0, 0, 18] = 18 := by decide
  rw [hbe] at hD hcap1
  have hr1 : ReadFull [Chunk.data [10, 6, 115, 116, 100], Chunk.fail IOErr.EOF,
      Chunk.fail IOErr.EOF] 22 =
      ([10, 6, 115, 116, 100], some IOErr.ErrUnexpectedEOF, [Chunk.fail IOErr.EOF]) := by
    decide
  have hr2 : ReadFull [Chunk.fail IOErr.EOF] 17 = ([], some IOErr.EOF, []) := by decide
  have hcapd : 22 ≤ b1.data.length := hcap1
  have hwl : (writeAt b1.data 0 [10, 6, 115, 116, 100]).length = b1.data.length :=
    writeAt_length _ _ _ (by simp only [List.length_cons, List.length_nil]; omega)
  have hfuel : maxDecodeRetry = 19998 + 1 + 1 := rfl
  have hrr : (readRecord
      { ensureBuf (ensureProto (decodeFunc 0)) with buf := some b1, offset := 0, nextMsgLen := 18 }
      [Chunk.data [10, 6, 115, 116, 100], Chunk.fail IOErr.EOF, Chunk.fail IOErr.EOF] 22) =
      (ReadResult.err IOErr.EOF,
        { ensureBuf (ensureProto (decodeFunc 0)) with
            buf := some { b1 with data := writeAt b1.data 0 [10, 6, 115, 116, 100] },
            offset := 5, nextMsgLen := 18 }, []) := by
    unfold readRecord
    rw [hfuel, readRecordLoop_retry 22 _ _ _ _ none b1 [10, 6, 115, 116, 100] rfl
      (Nat.zero_le _) hcap1 hr1]
    rw [readRecordLoop_fail 22 _ _ _ [] (some IOErr.ErrUnexpectedEOF)
      { b1 with data := writeAt b1.data 0 [10, 6, 115, 116, 100] } [] IOErr.EOF rfl
      (by show 0 + 5 ≤ 22; omega)
      (by show 22 ≤ (writeAt b1.data 0 [10, 6, 115, 116, 100]).length; omega)
      (by decide) hr2]
    simp only [writeAt_nil, List.length_nil, Nat.add_zero, List.length_cons]
  have hDres : Decode Proto.Unmarshal (decodeFunc 0) helloInterrupted =
      (DecodeResult.err (DecodeErr.logEntry IOErr.EOF 18),
        { ensureBuf (ensureProto (decodeFunc 0)) with
            buf := some { b1 with data := writeAt b1.data 0 [10, 6, 115, 116, 100] },
            offset := 5, nextMsgLen := 18 }, []) := by
    rw [hD]
    have hsz : (18 : Nat) + encodeBinaryLen = 22 := rfl
    simp only [decodeLogEntry, hsz, hrr]
  -- the resumed call
  obtain ⟨bs, hst, hres⟩ := Decode_resume Proto.Unmarshal (decodeFunc 0) helloInterrupted
    (decodeFunc_inv 0) (Or.inr ⟨IOErr.EOF, 18, by decide, by rw [hDres]⟩)
  have hbs : bs = [0, 0, 0, 18, 10, 6, 115, 116, 100] := by
    rw [hDres] at hst
    simp only [streamBytes, List.append_nil] at hst
    rw [← hst]
    decide
  obtain ⟨g1, g2, g3⟩ := hres helloRest (by decide)
  obtain ⟨d2, u2, hU, _, hUb, hUn, hUo, _, _⟩ :=
    Decode_frame Proto.Unmarshal (decodeFunc 0) (Chunk.data bs :: helloRest)
      (Proto.Marshal helloEntry) [0, 0, 0, 18] [] helloEntry rfl rfl hfresh
      (by rw [errorFree_cons_data]; decide) (by rw [hbs]; decide) (by decide) (by decide)
      (by decide)
  rw [hU] at g1 g2 g3
  refine ⟨by rw [hDres], g1, ?_, by rw [g2]; exact hUn, by rw [g2]; exact hUo⟩
  rw [g3.2.2]
  exact hUb

end FileLogDriver
